import Mathlib

/-!
Verification development for the self-balancing vantage-point tree
(`src/datastructure/nearest_neighbours_kd_tree.rs`).

Modelling conventions:
* `f64` distances are modelled as `ℚ` (every operation the code performs on
  distances — comparison, subtraction, halving, clamping, `max 0` — is exact
  on rationals; metrics are assumed well-behaved, i.e. no NaN).
* `Vec<T>` is modelled as `List T`; indexing is `List.get?`, so a Rust
  index-out-of-bounds panic (and every `unwrap` of `None`) is modelled by the
  `Option` monad returning `none`.  Thus `none` uniformly means "the Rust code
  panics", and `some` carries the value the Rust code returns.
* The generic parameters of `VpAvl<Point, PointMetric>` become type
  parameters `Point`, `Loc` together with the `VpTreeObject::location`
  projection `loc : Point → Loc` and the `Metric::distance` function
  `dist : Loc → Loc → ℚ`.
* Recursion that walks the index arena (which Rust performs without a
  structural termination argument) is given an explicit fuel parameter; at
  every public entry point the fuel is instantiated with a bound that is
  sufficient for every well-formed tree, so on the well-formed trees all
  claims quantify over it agrees with the Rust recursion.
* `BinaryHeap<NodeProspect>` (a max-heap under the reversed ordering, i.e. a
  min-heap on `min_distance`, with unspecified tie order) is modelled as a
  list with a deterministic pop-first-minimum; this fixes one refinement of
  the unspecified tie behaviour.
* `sort_unstable_by` on distances is modelled by `List.insertionSort` on the
  distance component; tie order among equal distances is unspecified in Rust
  and insertion sort fixes one refinement of it.
-/

/-- The `Node` struct: cached subtree height, index of the element acting as
vantage point, separating radius, and optional parent/interior/exterior
links. -/
structure Node where
  height : Nat
  center : Nat
  radius : ℚ
  parent : Option Nat
  interior : Option Nat
  exterior : Option Nat
deriving DecidableEq, Repr

/-- `Node::new_leaf`. -/
def Node.newLeaf (center : Nat) (parent : Option Nat) : Node :=
  { height := 0, center := center, radius := 0, parent := parent,
    interior := none, exterior := none }

/-- The `VpAvl` container: root index plus the flat node and data arenas.
The metric is passed separately as a function parameter. -/
structure VpAvl (Point : Type) where
  root : Nat
  nodes : List Node
  data : List Point
deriving DecidableEq, Repr

/-- `f64::clamp` as used by the source (`x.clamp(lo, hi)`); the Rust
assertion `lo ≤ hi` is a no-op on the inputs the code produces. -/
def fclamp (x lo hi : ℚ) : ℚ :=
  if x < lo then lo else if hi < x then hi else x

section Model

variable {Point Loc : Type}

/-- `self.nodes[i]`, fallibly. -/
def nodeGet (t : VpAvl Point) (i : Nat) : Option Node :=
  t.nodes.get? i

/-- `self.nodes[i] = f(self.nodes[i])` — field update of one node, panicking
(`none`) when the index is out of bounds. -/
def setNode (t : VpAvl Point) (i : Nat) (f : Node → Node) : Option (VpAvl Point) :=
  match t.nodes.get? i with
  | some n => some { t with nodes := t.nodes.set i (f n) }
  | none => none

/-- `VpAvl::node_index_data`: `&self.data[self.nodes[i].center]`. -/
def nodeIndexData (t : VpAvl Point) (i : Nat) : Option Point :=
  (nodeGet t i).bind fun n => t.data.get? n.center

variable (dist : Loc → Loc → ℚ) (loc : Point → Loc)

/-- `VpAvl::new`. -/
def vpNew : VpAvl Point :=
  { root := 0, nodes := [], data := [] }

/-- `VpAvl::child_indices_impl` / `child_indices`: post-order enumeration of
the subtree rooted at `root` (children first, then the root itself), with
fuel for the arena recursion. -/
def childIndicesF : Nat → VpAvl Point → Nat → Option (List Nat)
  | 0, _, _ => none
  | fuel + 1, t, root => do
    let n ← nodeGet t root
    let lInt ← match n.interior with
      | some i => childIndicesF fuel t i
      | none => pure []
    let lExt ← match n.exterior with
      | some e => childIndicesF fuel t e
      | none => pure []
    pure (lInt ++ lExt ++ [root])

/-- The `.map(|i| self.nodes[i].height + 1).unwrap_or(0)` child read in
`set_height`. -/
def childHeightOpt (t : VpAvl Point) (c : Option Nat) : Option Nat :=
  match c with
  | some i => (nodeGet t i).map fun m => m.height + 1
  | none => pure 0

/-- The `.map(|ind| self.nodes[ind].height).unwrap_or(0)` child read in
`rebalance`: a missing child contributes `0`. -/
def codeChildHeight (t : VpAvl Point) (c : Option Nat) : Option Nat :=
  match c with
  | none => some 0
  | some i => (nodeGet t i).map (·.height)

/-- `VpAvl::set_height`: `height(root) := max(interior height + 1, exterior
height + 1)` with a missing child contributing `0`. -/
def setHeight (t : VpAvl Point) (root : Nat) : Option (VpAvl Point) := do
  let n ← nodeGet t root
  let ih ← childHeightOpt t n.interior
  let eh ← childHeightOpt t n.exterior
  setNode t root fun m => { m with height := max ih eh }

/-- Helper for the bulk build's optional `parent` assignment. -/
def setParentOpt (t : VpAvl Point) (c : Option Nat) (root : Nat) : Option (VpAvl Point) :=
  match c with
  | some ic => setNode t ic fun n => { n with parent := some root }
  | none => pure t

/-- The distance-collection loop at the head of `bulk_build_indices`:
`for index in indices.iter() { distances.push((index, distance(...))) }`. -/
def distancesLoop (dist : Loc → Loc → ℚ) (loc : Point → Loc) (t : VpAvl Point)
    (pr : Point) : List Nat → Option (List (Nat × ℚ))
  | [] => some []
  | i :: rest => do
    let p ← nodeIndexData t i
    let ds ← distancesLoop dist loc t pr rest
    pure ((i, dist (loc pr) (loc p)) :: ds)

/-- Helper for the bulk build's optional recursive call on one side followed
by the height read-back (`height = height.max(self.nodes[x].height)`). -/
def buildChildOpt (bb : VpAvl Point → Nat → List Nat → Option (VpAvl Point))
    (t : VpAvl Point) (c : Option Nat) (idx : List Nat) (hprev : Nat) :
    Option (Nat × VpAvl Point) :=
  match c with
  | some ic => do
    let t5 ← bb t ic idx
    let m ← nodeGet t5 ic
    pure (max hprev m.height, t5)
  | none => pure (hprev, t)

/-- `distances.sort_unstable_by(|a, b| a.1.partial_cmp(&b.1).unwrap())`,
modelled by insertion sort on the distance component. -/
def sortedDists (ds : List (Nat × ℚ)) : List (Nat × ℚ) :=
  List.insertionSort (fun a b => a.2 ≤ b.2) ds

/-- The chunk size `distances.len() / 2 + distances.len() % 2` (= ⌈n/2⌉). -/
def halfOf (ds : List (Nat × ℚ)) : Nat :=
  ds.length / 2 + ds.length % 2

/-- `partitions[0]`: the lower half of the sorted distance list. -/
def interiorPartOf (ds : List (Nat × ℚ)) : List (Nat × ℚ) :=
  (sortedDists ds).take (halfOf ds)

/-- `partitions[1]`: the upper half of the sorted distance list. -/
def exteriorPartOf (ds : List (Nat × ℚ)) : List (Nat × ℚ) :=
  (sortedDists ds).drop (halfOf ds)

/-- `partitions[1].first().unwrap().1`: the smallest exterior distance. -/
def minExtOf (ds : List (Nat × ℚ)) : Option ℚ :=
  ((exteriorPartOf ds).head?).map (·.2)

/-- `interior_indices.pop()`: the interior half's last index becomes that
side's center. -/
def interiorCenterOf (ds : List (Nat × ℚ)) : Option Nat :=
  ((interiorPartOf ds).map (·.1)).getLast?

/-- The interior half's indices after popping the center. -/
def interiorIndicesOf (ds : List (Nat × ℚ)) : List Nat :=
  ((interiorPartOf ds).map (·.1)).dropLast

/-- `exterior_indices.pop()`. -/
def exteriorCenterOf (ds : List (Nat × ℚ)) : Option Nat :=
  ((exteriorPartOf ds).map (·.1)).getLast?

/-- The exterior half's indices after popping the center. -/
def exteriorIndicesOf (ds : List (Nat × ℚ)) : List Nat :=
  ((exteriorPartOf ds).map (·.1)).dropLast

/-- `VpAvl::bulk_build_indices`, with fuel for the recursion (the Rust
recursion strictly decreases `indices.len()`, so fuel `indices.length + 1`
always suffices; public callers pass at least that much). -/
def bulkBuildF : Nat → VpAvl Point → Nat → List Nat → Option (VpAvl Point)
  | 0, _, _, _ => none
  | fuel + 1, t, root, indices =>
    if indices.length < 2 then
      match indices with
      | [] =>
        setNode t root fun n =>
          { n with height := 0, interior := none, exterior := none }
      | e :: _ => do
        let pr ← nodeIndexData t root
        let pe ← nodeIndexData t e
        let t1 ← setNode t root fun n =>
          { n with exterior := some e, radius := dist (loc pr) (loc pe),
                   height := 1, interior := none }
        let t2 ← setNode t1 e fun n => { n with parent := some root }
        bulkBuildF fuel t2 e []
    else do
      let pr ← nodeIndexData t root
      let distances ← distancesLoop dist loc t pr indices
      let minExt ← minExtOf distances
      let t1 ← setNode t root fun n => { n with radius := minExt }
      let t2 ← setNode t1 root fun n =>
        { n with interior := interiorCenterOf distances,
                 exterior := exteriorCenterOf distances }
      let t3 ← setParentOpt t2 (interiorCenterOf distances) root
      let t4 ← setParentOpt t3 (exteriorCenterOf distances) root
      let p5 ← buildChildOpt (bulkBuildF fuel) t4 (interiorCenterOf distances)
        (interiorIndicesOf distances) 0
      let p6 ← buildChildOpt (bulkBuildF fuel) p5.2 (exteriorCenterOf distances)
        (exteriorIndicesOf distances) p5.1
      setNode p6.2 root fun n => { n with height := p6.1 + 1 }

/-- `VpAvl::bulk_insert`. -/
def bulkInsert (data : List Point) : Option (VpAvl Point) :=
  let indices := (List.range data.length).drop 1
  let nodes := (List.range data.length).map fun i => Node.newLeaf i none
  bulkBuildF dist loc (data.length + 1) { root := 0, nodes := nodes, data := data } 0 indices

/-- `VpAvl::rebalance_interior` (its live code path) and
`VpAvl::rebalance_exterior` share this body: flatten the subtree, pop the
last enumerated index (the subtree root itself) and re-run the bulk
partition algorithm on the remainder. -/
def rebalanceRebuild (t : VpAvl Point) (root : Nat) : Option (VpAvl Point) := do
  let children ← childIndicesF (t.nodes.length + 1) t root
  let newRoot ← children.getLast?
  bulkBuildF dist loc (t.nodes.length + 1) t newRoot children.dropLast

/-- `VpAvl::rebalance`: a missing child contributes height `0` to the
imbalance test. -/
def rebalance (t : VpAvl Point) (root : Nat) : Option (VpAvl Point) := do
  let n ← nodeGet t root
  let ih ← codeChildHeight t n.interior
  let eh ← codeChildHeight t n.exterior
  if eh + 1 < ih then rebalanceRebuild dist loc t root
  else if ih + 1 < eh then rebalanceRebuild dist loc t root
  else pure t

/-- `VpAvl::insert_root`, with fuel bounding the descent depth (the Rust
recursion follows child links; on a well-formed tree the path length is at
most the number of nodes). -/
def insertRootF : Nat → VpAvl Point → Nat → Point → Option (VpAvl Point)
  | 0, _, _, _ => none
  | fuel + 1, t, root, value => do
    let pr ← nodeIndexData t root
    let d := dist (loc pr) (loc value)
    let n ← nodeGet t root
    let rootRadius := n.radius
    let t1 ←
      if d < rootRadius then
        match n.interior with
        | some ind => insertRootF fuel t ind value
        | none => do
          let data1 := t.data ++ [value]
          let newIndex := data1.length - 1
          let tp := { t with data := data1,
                             nodes := t.nodes ++ [Node.newLeaf newIndex (some root)] }
          let t2 ← setNode tp newIndex fun m =>
            { m with radius := fclamp d (rootRadius / 2) rootRadius }
          setNode t2 root fun m => { m with interior := some newIndex }
      else
        match n.exterior with
        | some ind => insertRootF fuel t ind value
        | none => do
          let data1 := t.data ++ [value]
          let newIndex := data1.length - 1
          let tp := { t with data := data1,
                             nodes := t.nodes ++ [Node.newLeaf newIndex (some root)] }
          let t2 ← setNode tp newIndex fun m =>
            { m with radius := fclamp d (rootRadius / 2) rootRadius }
          setNode t2 root fun m => { m with exterior := some newIndex }
    let t2 ← setHeight t1 root
    rebalance dist loc t2 root

/-- `VpAvl::insert`. -/
def insert (t : VpAvl Point) (value : Point) : Option (VpAvl Point) :=
  if 1 < t.data.length then
    insertRootF dist loc (t.nodes.length + 1) t t.root value
  else if t.data.length = 0 then
    some { t with data := t.data ++ [value], nodes := t.nodes ++ [Node.newLeaf 0 none] }
  else do
    let pr ← nodeIndexData t t.root
    let rootDist := dist (loc pr) (loc value)
    let t1 ← setNode t t.root fun n => { n with radius := rootDist / 2 }
    insertRootF dist loc (t1.nodes.length + 1) t1 t1.root value

/-- `VpAvl::update_metric`: rebuild the whole tree from `self.data` under the
new metric. -/
def updateMetric (distNew : Loc → Loc → ℚ) (t : VpAvl Point) : Option (VpAvl Point) :=
  bulkInsert distNew loc t.data

/-- `VpAvl::check_validity_node`: `true` iff both of the source's assertions
(strict `<` for the direct interior child, `≥` for the direct exterior
child) pass at `root`. -/
def checkValidityNode (t : VpAvl Point) (root : Nat) : Option Bool := do
  let n ← nodeGet t root
  let okInt ← match n.interior with
    | some i => do
      let pr ← nodeIndexData t root
      let pi ← nodeIndexData t i
      pure (decide (dist (loc pr) (loc pi) < n.radius))
    | none => pure true
  let okExt ← match n.exterior with
    | some e => do
      let pr ← nodeIndexData t root
      let pe ← nodeIndexData t e
      pure (decide (n.radius ≤ dist (loc pr) (loc pe)))
    | none => pure true
  pure (okInt && okExt)

/-- `VpAvl::check_validity_root` with fuel. -/
def checkValidityRootF : Nat → VpAvl Point → Nat → Option Bool
  | 0, _, _ => none
  | fuel + 1, t, root => do
    let here ← checkValidityNode dist loc t root
    let n ← nodeGet t root
    let okInt ← match n.interior with
      | some i => checkValidityRootF fuel t i
      | none => pure true
    let okExt ← match n.exterior with
      | some e => checkValidityRootF fuel t e
      | none => pure true
    pure (here && okInt && okExt)

/-- `VpAvl::check_validity`. -/
def checkValidity (t : VpAvl Point) : Option Bool :=
  if 0 < t.data.length then checkValidityRootF dist loc (t.nodes.length + 1) t t.root
  else pure true

/-! ### The best-first nearest-neighbour iterators

`BinaryHeap<NodeProspect>` under the source's reversed ordering is a
min-heap keyed on `min_distance`; `pop` returns an arbitrary entry of
minimal key.  We model the heap as a plain list: `push` appends, `pop`
removes the first entry attaining the minimal key (one deterministic
refinement of the unspecified tie order). -/

/-- Pop an entry of minimal `min_distance` (the first such entry). -/
def heapPopMin : List (Nat × ℚ) → Option ((Nat × ℚ) × List (Nat × ℚ))
  | [] => none
  | x :: xs =>
    match heapPopMin xs with
    | none => some (x, [])
    | some (m, rest) => if x.2 ≤ m.2 then some (x, xs) else some (m, x :: rest)

/-- `BinaryHeap::peek` on the modelled heap. -/
def heapPeekMin (l : List (Nat × ℚ)) : Option (Nat × ℚ) :=
  (heapPopMin l).map (·.1)

/-- `BinaryHeap::push` on the modelled heap. -/
def heapPush (l : List (Nat × ℚ)) (p : Nat × ℚ) : List (Nat × ℚ) :=
  l ++ [p]

/-- The common iterator state: the `prospects` and `yield_queue` heaps (the
query point and the tree are fixed at construction and passed separately). -/
structure KnnState where
  prospects : List (Nat × ℚ)
  yieldQueue : List (Nat × ℚ)
deriving DecidableEq, Repr

/-- `KnnIterator::new` / `KnnIndexIterator::new`: seed `prospects` with the
root at lower bound `0` unless the node arena is empty. -/
def knnInit (t : VpAvl Point) : KnnState :=
  { prospects := if t.nodes.isEmpty then [] else [(t.root, 0)],
    yieldQueue := [] }

/-- Result of one body of `next()`: a panic, the end of the sequence, a
yielded pair, or the tail-recursive `self.next()` with an updated state. -/
inductive StepRes (α : Type) where
  | panic : StepRes α
  | done : StepRes α
  | yield (out : α) (st : KnnState) : StepRes α
  | cont (st : KnnState) : StepRes α
deriving DecidableEq, Repr

/-- The yield gate at the end of both iterators' `next` bodies:
`yield_queue.peek() <= prospects.peek()` with a missing side meaning "keep
expanding" (`false`). -/
def gateOf (yq ps2 : List (Nat × ℚ)) : Bool :=
  match heapPeekMin yq, heapPeekMin ps2 with
  | some yv, some pv => decide (yv.2 ≤ pv.2)
  | _, _ => false

/-- The `if let Some(child) { prospects.push(..) }` pattern shared by the
interior and exterior pushes. -/
def pushChild (l : List (Nat × ℚ)) (c : Option Nat) (b : ℚ) : List (Nat × ℚ) :=
  match c with
  | some i => heapPush l (i, b)
  | none => l

/-- The tail of one main body of `KnnIndexIterator::next`, after the top
prospect `top` was popped (leaving `P1`), its node `nd` and center element
`cp` resolved: push `(top, center_dist)` onto the yield queue, push the
children prospects with their lower bounds, then either yield the yield
queue's minimum (when it beats every prospect bound) or continue. -/
def mainStep (q : Loc) (top : Nat × ℚ) (P1 Y : List (Nat × ℚ)) (nd : Node)
    (cp : Point) : StepRes (Nat × ℚ) :=
  let centerDist := dist q (loc cp)
  let yq := heapPush Y (top.1, centerDist)
  let ps2 := pushChild (pushChild P1 nd.interior (max (centerDist - nd.radius) 0))
    nd.exterior (max (-(centerDist - nd.radius)) 0)
  if gateOf yq ps2 then
    match heapPopMin yq with
    | some (yv, yqRest) => .yield (yv.1, yv.2) { prospects := ps2, yieldQueue := yqRest }
    | none => .panic
  else
    .cont { prospects := ps2, yieldQueue := yq }

/-- Like `mainStep` but with `KnnIterator::next`'s yield payload: the data
index `nodes[yv.index].center` rather than the node index itself. -/
def mainStepElem (t : VpAvl Point) (q : Loc) (top : Nat × ℚ)
    (P1 Y : List (Nat × ℚ)) (nd : Node) (cp : Point) : StepRes (Nat × ℚ) :=
  let centerDist := dist q (loc cp)
  let yq := heapPush Y (top.1, centerDist)
  let ps2 := pushChild (pushChild P1 nd.interior (max (centerDist - nd.radius) 0))
    nd.exterior (max (-(centerDist - nd.radius)) 0)
  if gateOf yq ps2 then
    match heapPopMin yq with
    | some (yv, yqRest) =>
      match nodeGet t yv.1 with
      | none => .panic
      | some nv => .yield (nv.center, yv.2) { prospects := ps2, yieldQueue := yqRest }
    | none => .panic
  else
    .cont { prospects := ps2, yieldQueue := yq }

/-- One body of `KnnIndexIterator::next` (yields `(node index, distance)`). -/
def knnStep (t : VpAvl Point) (q : Loc) (st : KnnState) : StepRes (Nat × ℚ) :=
  match heapPopMin st.prospects with
  | none =>
    match heapPopMin st.yieldQueue with
    | none => .done
    | some (p, rest) => .yield (p.1, p.2) { prospects := st.prospects, yieldQueue := rest }
  | some (top, prospects1) =>
    match nodeGet t top.1 with
    | none => .panic
    | some nd =>
      match t.data.get? nd.center with
      | none => .panic
      | some cp => mainStep dist loc q top prospects1 st.yieldQueue nd cp

/-- One body of `KnnIterator::next`.  It is the same state machine as
`knnStep`; the only difference is the yielded payload: the drain branch
reads `data[p.index]` and the main branch reads `data[nodes[yv.index].center]`
(we yield the data index used, resolving the extra `center` hop). -/
def knnStepElem (t : VpAvl Point) (q : Loc) (st : KnnState) : StepRes (Nat × ℚ) :=
  match heapPopMin st.prospects with
  | none =>
    match heapPopMin st.yieldQueue with
    | none => .done
    | some (p, rest) => .yield (p.1, p.2) { prospects := st.prospects, yieldQueue := rest }
  | some (top, prospects1) =>
    match nodeGet t top.1 with
    | none => .panic
    | some nd =>
      match t.data.get? nd.center with
      | none => .panic
      | some cp => mainStepElem dist loc t q top prospects1 st.yieldQueue nd cp

/-- Run `KnnIndexIterator` to exhaustion, collecting every yielded pair, with
fuel for the total number of `next()` bodies executed. -/
def knnRunIdx : Nat → VpAvl Point → Loc → KnnState → Option (List (Nat × ℚ))
  | 0, _, _, _ => none
  | fuel + 1, t, q, st =>
    match knnStep dist loc t q st with
    | .panic => none
    | .done => some []
    | .yield o st2 => (knnRunIdx fuel t q st2).map (o :: ·)
    | .cont st2 => knnRunIdx fuel t q st2

/-- Run `KnnIterator` (`nn_dist_iter`) to exhaustion; each yielded pair is
`(data index, distance)`, the element being `data[index]`. -/
def knnRunElem : Nat → VpAvl Point → Loc → KnnState → Option (List (Nat × ℚ))
  | 0, _, _, _ => none
  | fuel + 1, t, q, st =>
    match knnStepElem dist loc t q st with
    | .panic => none
    | .done => some []
    | .yield o st2 => (knnRunElem fuel t q st2).map (o :: ·)
    | .cont st2 => knnRunElem fuel t q st2

/-- `nn_dist_iter` run to exhaustion: the Rust iterator's full yielded
sequence of `(element, distance)` pairs.  Fuel `2 * size + 2` covers every
well-formed tree (each node enters `prospects` once and `yield_queue`
once). -/
def nnDistIterSeq (t : VpAvl Point) (q : Loc) : Option (List (Point × ℚ)) := do
  let out ← knnRunElem dist loc (2 * t.nodes.length + 2) t q (knnInit t)
  out.mapM fun p => (t.data.get? p.1).map fun e => (e, p.2)

/-! ### Removal -/

/-- The search in `VpAvl::remove`:
`self.nn_index_iter(value).take_while(|nn| nn.1 <= 0.0).find(|nn| self.data[nn.0].location() == value)`,
executed lazily; `some none` = the combinator chain produced `None`
(no exact match), `some (some i)` = found index `i`, `none` = panic. -/
def removeSearch [DecidableEq Loc] (t : VpAvl Point) (value : Loc) :
    Nat → KnnState → Option (Option Nat)
  | 0, _ => none
  | fuel + 1, st =>
    match knnStep dist loc t value st with
    | .panic => none
    | .done => some none
    | .cont st2 => removeSearch t value fuel st2
    | .yield o st2 =>
      if o.2 ≤ 0 then
        match t.data.get? o.1 with
        | none => none
        | some p => if loc p = value then some (some o.1) else removeSearch t value fuel st2
      else some none

/-- `VpAvl::remove_index`: swap-and-pop the data slot, pop the node arena,
then rebuild the whole tree (with the size ≤ 1 special cases). -/
def removeIndex (t : VpAvl Point) (index : Nat) : Option (Point × VpAvl Point) := do
  let endv ← t.data.getLast?
  let data1 := t.data.dropLast
  let nodes1 := t.nodes.dropLast
  let (old, data2) ←
    if index = data1.length then pure (endv, data1)
    else (data1.get? index).map fun oldv => (oldv, data1.set index endv)
  let t1 : VpAvl Point := { root := t.root, nodes := nodes1, data := data2 }
  let indices := (List.range data2.length).drop 1
  if indices.isEmpty then
    if data2.length = 1 then do
      let t2 ← setNode t1 0 fun _ => Node.newLeaf 0 none
      pure (old, t2)
    else
      pure (old, t1)
  else do
    let t2 ← bulkBuildF dist loc (data2.length + 1) t1 0 indices
    pure (old, t2)

/-- `VpAvl::remove`.  The outer `Option` models panics; the inner value is
what the Rust function returns (it always returns `Some(..)` when it does
not panic, because of the `to_remove.unwrap()`). -/
def remove [DecidableEq Loc] (t : VpAvl Point) (value : Loc) :
    Option (Option Point × VpAvl Point) := do
  let found ← removeSearch dist loc t value (2 * t.nodes.length + 2) (knnInit t)
  match found with
  | none => none
  | some i =>
    (removeIndex dist loc t i).map fun (p, t2) => (some p, t2)

/-! ### Specification-side definitions: brute force and invariants -/

/-- The true distance from a query to the element stored in slot `i`. -/
def slotDist (t : VpAvl Point) (q : Loc) (i : Nat) : Option ℚ :=
  (t.data.get? i).map fun p => dist q (loc p)

/-- Brute force: the distances from the query to every stored element. -/
def bruteDists (t : VpAvl Point) (q : Loc) : List ℚ :=
  t.data.map fun p => dist q (loc p)

/-- Brute force: all stored distances sorted ascending. -/
def bruteSorted (t : VpAvl Point) (q : Loc) : List ℚ :=
  List.insertionSort (· ≤ ·) (bruteDists dist loc t q)

/-- The subtree enumeration used by well-formedness: fuel `nodes.length`
always suffices for trees whose links are acyclic. -/
def subtreeOf (t : VpAvl Point) (i : Nat) : Option (List Nat) :=
  childIndicesF t.nodes.length t i

/-- The element at node `i`'s center. -/
def pointAt (t : VpAvl Point) (i : Nat) : Option Point :=
  nodeIndexData t i

/-- Distance between the centers of two nodes. -/
def centerDistOf (t : VpAvl Point) (i j : Nat) : Option ℚ := do
  let pi ← pointAt t i
  let pj ← pointAt t j
  pure (dist (loc pi) (loc pj))

/-- Structural well-formedness: the arenas have equal length, node `i`
represents data slot `i`, and (for a nonempty tree) the post-order
enumeration from the root succeeds within fuel `nodes.length` and visits
every index exactly once. -/
def WF (t : VpAvl Point) : Prop :=
  t.nodes.length = t.data.length ∧
  (∀ p ∈ t.nodes.enum, p.2.center = p.1) ∧
  (t.nodes.length = 0 ∨
    (subtreeOf t t.root).elim False fun l => l.Perm (List.range t.nodes.length))

/-- The partition invariant actually maintained by the code (non-strict on
the interior side): every node of the interior subtree of `n` lies at
distance `≤ n.radius` from `n`'s center, and every node of the exterior
subtree at distance `≥ n.radius`. -/
def PartOk (t : VpAvl Point) : Prop :=
  ∀ p ∈ t.nodes.enum,
    (∀ c, p.2.interior = some c →
      (subtreeOf t c).elim False fun l =>
        ∀ j ∈ l, (centerDistOf dist loc t p.1 j).elim False fun d => d ≤ p.2.radius) ∧
    (∀ c, p.2.exterior = some c →
      (subtreeOf t c).elim False fun l =>
        ∀ j ∈ l, (centerDistOf dist loc t p.1 j).elim False fun d => p.2.radius ≤ d)

/-- The height value `set_height` would compute for node `n` in `t`. -/
def heightFor (t : VpAvl Point) (n : Node) : Option Nat := do
  let ih ← childHeightOpt t n.interior
  let eh ← childHeightOpt t n.exterior
  pure (max ih eh)

/-- Invariant I2, height bookkeeping, in the form the code computes it. -/
def HeightInv (t : VpAvl Point) : Prop :=
  ∀ p ∈ t.nodes.enum, (heightFor t p.2).elim False fun h => p.2.height = h

/-- The metric axioms the specification assumes of `distance`. -/
def MetricOk (dist : Loc → Loc → ℚ) : Prop :=
  (∀ a, dist a a = 0) ∧
  (∀ a b, 0 ≤ dist a b) ∧
  (∀ a b, dist a b = dist b a) ∧
  (∀ a b c, dist a c ≤ dist a b + dist b c)

end Model

section DecInstances

variable {Point Loc : Type}

instance {α : Type} {o : Option α} {P : α → Prop} [DecidablePred P] :
    Decidable (o.elim False P) := by
  cases o with
  | none => exact isFalse (fun h => h)
  | some a => exact decidable_of_iff (P a) Iff.rfl

instance (t : VpAvl Point) : Decidable (WF t) := by
  unfold WF; infer_instance

instance (dist : Loc → Loc → ℚ) (loc : Point → Loc) (t : VpAvl Point) :
    Decidable (PartOk dist loc t) := by
  unfold PartOk; infer_instance

instance (t : VpAvl Point) : Decidable (HeightInv t) := by
  unfold HeightInv; infer_instance

end DecInstances

section Model2

variable {Point Loc : Type} (dist : Loc → Loc → ℚ) (loc : Point → Loc)

/-- The true distance from the query to the element represented by node
`i` (`data[nodes[i].center]`). -/
def trueDistO (t : VpAvl Point) (q : Loc) (i : Nat) : Option ℚ :=
  (nodeIndexData t i).map fun p => dist q (loc p)

/-- The pure content of `remove`'s search combinator chain
(`take_while(|nn| nn.1 <= 0.0).find(|nn| self.data[nn.0].location() == value)`)
as a function of the index iterator's yielded sequence. -/
def findZero [DecidableEq Loc] (t : VpAvl Point) (value : Loc) :
    List (Nat × ℚ) → Option (Option Nat)
  | [] => some none
  | o :: rest =>
    if o.2 ≤ 0 then
      match t.data.get? o.1 with
      | none => none
      | some p => if loc p = value then some (some o.1) else findZero t value rest
    else some none

end Model2


/-! ### Concrete instances used by counterexamples and witnesses -/

/-- The one-dimensional Euclidean metric (`EuclideanMetric` restricted to
1-vectors): `distance(a, b) = |a − b|`, with `ℚ` standing for `f64`. -/
def qdist (a b : ℚ) : ℚ := |a - b|

/-- The tree built by `bulk_insert` from the points `0, 1, -1` under
`qdist`: both non-root points are at distance `1` from the vantage point
`0`, so the interior child ends up exactly on the radius. -/
def tieTree : VpAvl ℚ :=
  ⟨0, [⟨1, 0, 1, none, some 1, some 2⟩,
       ⟨0, 1, 0, some 0, none, none⟩,
       ⟨0, 2, 0, some 0, none, none⟩], [0, 1, -1]⟩

/-- The tree produced by inserting `0`, `8`, `12` in that order: a pure
exterior chain (each node's interior link is `none`). -/
def chainTree : VpAvl ℚ :=
  ⟨0, [⟨2, 0, 4, none, none, some 1⟩,
       ⟨1, 1, 4, some 0, none, some 2⟩,
       ⟨0, 2, 4, some 1, none, none⟩], [0, 8, 12]⟩

/-- The tree built by `bulk_insert` from `0, 8`: the single-index base case
of the bulk build. -/
def pairTree : VpAvl ℚ :=
  ⟨0, [⟨1, 0, 8, none, none, some 1⟩,
       ⟨0, 1, 0, some 0, none, none⟩], [0, 8]⟩

/-- A single-element tree holding the point `5`. -/
def oneTree : VpAvl ℚ :=
  ⟨0, [⟨0, 0, 0, none, none, none⟩], [5]⟩

/-- The initial arena state `bulk_insert` sets up for the batch `[0, 8]`
just before calling `bulk_build_indices(0, [1])`. -/
def pairStart : VpAvl ℚ :=
  ⟨0, [Node.newLeaf 0 none, Node.newLeaf 1 none], [0, 8]⟩

/-- The initial arena state `bulk_insert` sets up for the batch
`[0, 1, -1]` just before calling `bulk_build_indices(0, [1, 2])`. -/
def tieStart : VpAvl ℚ :=
  ⟨0, [Node.newLeaf 0 none, Node.newLeaf 1 none, Node.newLeaf 2 none], [0, 1, -1]⟩

/-! ### Specification-side height convention (for claims I2/I3) -/

/-- Modelled from the spec's height convention: the height of an optional
child as an integer, a missing child contributing `-1`. -/
def specChildHeight {Point : Type} (t : VpAvl Point) (c : Option Nat) : Option ℤ :=
  match c with
  | none => some (-1)
  | some i => (nodeGet t i).map fun m => (m.height : ℤ)

/-- Modelled from the spec: the balance trigger of invariant I3 exactly as
claim C6 words it, `|height(interior) − height(exterior)| > 1` with a
missing child counting as height `-1`.  Defined for comparison with the
code's `rebalance`, which uses `0` for a missing child. -/
def specTriggerI3 {Point : Type} (t : VpAvl Point) (root : Nat) : Option Bool := do
  let n ← nodeGet t root
  let hi ← specChildHeight t n.interior
  let he ← specChildHeight t n.exterior
  pure (decide (1 < (hi - he).natAbs))

/-- Modelled from the spec: the height value demanded by invariant I2 as
claim C5 words it, `1 + max(height(interior), height(exterior))` with a
missing child contributing `-1`. -/
def specHeightI2 {Point : Type} (t : VpAvl Point) (n : Node) : Option ℤ := do
  let hi ← specChildHeight t n.interior
  let he ← specChildHeight t n.exterior
  pure (1 + max hi he)

/-- Modelled from the spec: invariant I2 with the spec's height convention —
`height(n) = 1 + max(height(interior), height(exterior))` over `ℤ` with a
missing child contributing `-1` — at every node of the arena. -/
def SpecHeightInv {Point : Type} (t : VpAvl Point) : Prop :=
  ∀ p ∈ t.nodes.enum, (specHeightI2 t p.2).elim False fun h => ((p.2.height : ℤ)) = h

instance {Point : Type} (t : VpAvl Point) : Decidable (SpecHeightInv t) := by
  unfold SpecHeightInv; infer_instance

/-- Enumeration of an optional child link: `none` enumerates to `[]`. -/
def childEnumOpt {Point : Type} (f : Nat) (t : VpAvl Point) (c : Option Nat) :
    Option (List Nat) :=
  match c with
  | some j => childIndicesF f t j
  | none => some []

/-- Height bookkeeping at one node. -/
def heightOkAt {Point : Type} (t : VpAvl Point) (j : Nat) : Prop :=
  ∀ n, nodeGet t j = some n → (heightFor t n).elim False fun h => n.height = h

/-- The (non-strict) partition property at one node: every node of the
interior subtree within the radius, every node of the exterior subtree at
or beyond it. -/
def partOkAt {Point Loc : Type} (dist : Loc → Loc → ℚ) (loc : Point → Loc)
    (t : VpAvl Point) (j : Nat) : Prop :=
  ∀ n, nodeGet t j = some n →
    (∀ c, n.interior = some c →
      (subtreeOf t c).elim False fun l =>
        ∀ k ∈ l, (centerDistOf dist loc t j k).elim False fun d => d ≤ n.radius) ∧
    (∀ c, n.exterior = some c →
      (subtreeOf t c).elim False fun l =>
        ∀ k ∈ l, (centerDistOf dist loc t j k).elim False fun d => n.radius ≤ d)

/-- The invariant of one `prospects` entry during a run of the best-first
iterator: the entry's node has a subtree enumeration `l`, and (under the
metric axioms, on a tree satisfying the partition property) the entry's
recorded `min_distance` is a lower bound on the true query distance of
every node of that subtree. -/
def prospectOk {Point Loc : Type} (dist : Loc → Loc → ℚ) (loc : Point → Loc)
    (t : VpAvl Point) (q : Loc) (pe : Nat × ℚ) (l : List Nat) : Prop :=
  (∃ f, childIndicesF f t pe.1 = some l) ∧
  (MetricOk dist → PartOk dist loc t →
    ∀ j ∈ l, (trueDistO dist loc t q j).elim False fun d => pe.2 ≤ d)

/-! ### Basic lemmas about the arena operations -/

/-- `qdist` satisfies the metric axioms. -/
theorem qdist_metricOk : MetricOk qdist := by
  refine ⟨fun a => by simp [qdist], fun a b => abs_nonneg _,
    fun a b => abs_sub_comm a b, fun a b c => abs_sub_le a b c⟩

theorem setNode_eq_some {Point : Type} {t : VpAvl Point} {i : Nat} {f : Node → Node}
    {t2 : VpAvl Point} (h : setNode t i f = some t2) :
    ∃ n, nodeGet t i = some n ∧ t2 = { t with nodes := t.nodes.set i (f n) } := by
  unfold setNode at h
  cases hg : t.nodes.get? i with
  | none => rw [hg] at h; exact absurd h (by simp)
  | some n => rw [hg] at h; exact ⟨n, hg, by simpa using h.symm⟩

theorem setNode_data {Point : Type} {t : VpAvl Point} {i : Nat} {f : Node → Node}
    {t2 : VpAvl Point} (h : setNode t i f = some t2) : t2.data = t.data := by
  obtain ⟨n, -, rfl⟩ := setNode_eq_some h; rfl

theorem setNode_root {Point : Type} {t : VpAvl Point} {i : Nat} {f : Node → Node}
    {t2 : VpAvl Point} (h : setNode t i f = some t2) : t2.root = t.root := by
  obtain ⟨n, -, rfl⟩ := setNode_eq_some h; rfl

theorem setNode_length {Point : Type} {t : VpAvl Point} {i : Nat} {f : Node → Node}
    {t2 : VpAvl Point} (h : setNode t i f = some t2) :
    t2.nodes.length = t.nodes.length := by
  obtain ⟨n, -, rfl⟩ := setNode_eq_some h; simp

theorem nodeGet_setNode_self {Point : Type} {t : VpAvl Point} {i : Nat} {f : Node → Node}
    {t2 : VpAvl Point} (h : setNode t i f = some t2) :
    nodeGet t2 i = (nodeGet t i).map f := by
  obtain ⟨n, hn, rfl⟩ := setNode_eq_some h
  have hi : i < t.nodes.length := by
    by_contra hlt
    have := List.get?_eq_none.2 (Nat.le_of_not_lt hlt)
    rw [nodeGet, this] at hn; exact absurd hn (by simp)
  simp only [nodeGet] at hn ⊢
  rw [List.get?_set_eq_of_lt _ hi, hn]
  rfl

theorem nodeGet_setNode_other {Point : Type} {t : VpAvl Point} {i j : Nat} {f : Node → Node}
    {t2 : VpAvl Point} (h : setNode t i f = some t2) (hij : i ≠ j) :
    nodeGet t2 j = nodeGet t j := by
  obtain ⟨n, hn, rfl⟩ := setNode_eq_some h
  simp only [nodeGet]
  exact List.get?_set_ne _ _ hij

theorem setNode_isSome {Point : Type} {t : VpAvl Point} {i : Nat} {f : Node → Node}
    {n : Node} (h : nodeGet t i = some n) :
    setNode t i f = some { t with nodes := t.nodes.set i (f n) } := by
  unfold setNode
  rw [show t.nodes.get? i = some n from h]

/-! ### Lemmas about the subtree enumeration -/

theorem childIndicesF_succ_eq {Point : Type} {f : Nat} {t : VpAvl Point} {i : Nat} :
    childIndicesF (f + 1) t i =
      (nodeGet t i).bind fun n =>
        (childEnumOpt f t n.interior).bind fun lInt =>
          (childEnumOpt f t n.exterior).bind fun lExt =>
            some (lInt ++ lExt ++ [i]) := by
  cases hn : nodeGet t i with
  | none =>
    conv_lhs => rw [childIndicesF]
    rw [hn]
    rfl
  | some n =>
    conv_lhs => rw [childIndicesF]
    rw [hn]
    simp only [Option.bind_eq_bind, Option.some_bind]
    cases n.interior <;> cases n.exterior <;> rfl

theorem childEnumOpt_none {Point : Type} {f : Nat} {t : VpAvl Point} {l : List Nat}
    (h : childEnumOpt f t none = some l) : l = [] := by
  simpa [childEnumOpt] using h.symm

theorem childEnumOpt_some {Point : Type} {f : Nat} {t : VpAvl Point} {j : Nat} :
    childEnumOpt f t (some j) = childIndicesF f t j :=
  rfl

theorem childIndicesF_unfold {Point : Type} {f : Nat} {t : VpAvl Point} {i : Nat}
    {l : List Nat} (h : childIndicesF (f + 1) t i = some l) :
    ∃ n lInt lExt, nodeGet t i = some n ∧ childEnumOpt f t n.interior = some lInt ∧
      childEnumOpt f t n.exterior = some lExt ∧ l = lInt ++ lExt ++ [i] := by
  rw [childIndicesF_succ_eq] at h
  obtain ⟨n, hn, h⟩ := Option.bind_eq_some.1 h
  obtain ⟨lInt, hInt, h⟩ := Option.bind_eq_some.1 h
  obtain ⟨lExt, hExt, h⟩ := Option.bind_eq_some.1 h
  exact ⟨n, lInt, lExt, hn, hInt, hExt, by simpa using h.symm⟩

theorem childIndicesF_build {Point : Type} {f : Nat} {t : VpAvl Point} {i : Nat}
    {n : Node} {lInt lExt : List Nat} (hn : nodeGet t i = some n)
    (hInt : childEnumOpt f t n.interior = some lInt)
    (hExt : childEnumOpt f t n.exterior = some lExt) :
    childIndicesF (f + 1) t i = some (lInt ++ lExt ++ [i]) := by
  rw [childIndicesF_succ_eq, hn, Option.some_bind, hInt, Option.some_bind, hExt,
    Option.some_bind]

theorem childEnumOpt_mono {Point : Type}
    (hmono : ∀ {f g : Nat} {t : VpAvl Point} {i : Nat} {l : List Nat},
      childIndicesF f t i = some l → f ≤ g → childIndicesF g t i = some l)
    {f g : Nat} {t : VpAvl Point} {c : Option Nat} {l : List Nat}
    (h : childEnumOpt f t c = some l) (hfg : f ≤ g) : childEnumOpt g t c = some l := by
  cases c with
  | none => exact h
  | some j => exact hmono h hfg

theorem childIndicesF_mono {Point : Type} :
    ∀ {f g : Nat} {t : VpAvl Point} {i : Nat} {l : List Nat},
      childIndicesF f t i = some l → f ≤ g → childIndicesF g t i = some l := by
  intro f
  induction f with
  | zero => intro g t i l h; exact absurd h (by simp [childIndicesF])
  | succ f ih =>
    intro g t i l h hfg
    obtain ⟨g1, rfl⟩ : ∃ g1, g = g1 + 1 := ⟨g - 1, by omega⟩
    obtain ⟨n, lInt, lExt, hn, hInt, hExt, rfl⟩ := childIndicesF_unfold h
    have hfg1 : f ≤ g1 := by omega
    have hInt1 : childEnumOpt g1 t n.interior = some lInt := by
      cases c : n.interior with
      | none => rw [c] at hInt; exact hInt
      | some j =>
        rw [c, childEnumOpt_some] at hInt
        rw [childEnumOpt_some]
        exact ih hInt hfg1
    have hExt1 : childEnumOpt g1 t n.exterior = some lExt := by
      cases c : n.exterior with
      | none => rw [c] at hExt; exact hExt
      | some j =>
        rw [c, childEnumOpt_some] at hExt
        rw [childEnumOpt_some]
        exact ih hExt hfg1
    exact childIndicesF_build hn hInt1 hExt1

theorem childIndicesF_self_mem {Point : Type} {f : Nat} {t : VpAvl Point} {i : Nat}
    {l : List Nat} (h : childIndicesF f t i = some l) : i ∈ l := by
  cases f with
  | zero => exact absurd h (by simp [childIndicesF])
  | succ f =>
    obtain ⟨n, lInt, lExt, -, -, -, rfl⟩ := childIndicesF_unfold h
    simp

theorem childIndicesF_isSome {Point : Type} :
    ∀ {f : Nat} {t : VpAvl Point} {i : Nat} {l : List Nat},
      childIndicesF f t i = some l → ∀ j ∈ l, (nodeGet t j).isSome := by
  intro f
  induction f with
  | zero => intro t i l h; exact absurd h (by simp [childIndicesF])
  | succ f ih =>
    intro t i l h j hj
    obtain ⟨n, lInt, lExt, hn, hInt, hExt, rfl⟩ := childIndicesF_unfold h
    rcases List.mem_append.1 hj with hj | hj
    · rcases List.mem_append.1 hj with hj | hj
      · cases c : n.interior with
        | none => rw [c] at hInt; rw [childEnumOpt_none hInt] at hj; cases hj
        | some ic => rw [c, childEnumOpt_some] at hInt; exact ih hInt j hj
      · cases c : n.exterior with
        | none => rw [c] at hExt; rw [childEnumOpt_none hExt] at hj; cases hj
        | some e => rw [c, childEnumOpt_some] at hExt; exact ih hExt j hj
    · have hji : j = i := by simpa using hj
      subst hji
      simp [hn]

theorem childIndicesF_frame {Point : Type} :
    ∀ {f : Nat} {t t2 : VpAvl Point} {i : Nat} {l : List Nat},
      childIndicesF f t i = some l → (∀ j ∈ l, nodeGet t2 j = nodeGet t j) →
      childIndicesF f t2 i = some l := by
  intro f
  induction f with
  | zero => intro t t2 i l h; exact absurd h (by simp [childIndicesF])
  | succ f ih =>
    intro t t2 i l h hagree
    obtain ⟨n, lInt, lExt, hn, hInt, hExt, rfl⟩ := childIndicesF_unfold h
    have hn2 : nodeGet t2 i = some n := by rw [hagree i (by simp), hn]
    have hInt2 : childEnumOpt f t2 n.interior = some lInt := by
      cases c : n.interior with
      | none => rw [c] at hInt; exact hInt
      | some j =>
        rw [c, childEnumOpt_some] at hInt
        rw [childEnumOpt_some]
        exact ih hInt fun k hk => hagree k (by simp [hk])
    have hExt2 : childEnumOpt f t2 n.exterior = some lExt := by
      cases c : n.exterior with
      | none => rw [c] at hExt; exact hExt
      | some j =>
        rw [c, childEnumOpt_some] at hExt
        rw [childEnumOpt_some]
        exact ih hExt fun k hk => hagree k (by simp [hk])
    exact childIndicesF_build hn2 hInt2 hExt2

theorem childIndicesF_shrink {Point : Type} :
    ∀ {f : Nat} {t : VpAvl Point} {i : Nat} {l : List Nat},
      childIndicesF f t i = some l → childIndicesF l.length t i = some l := by
  intro f
  induction f with
  | zero => intro t i l h; exact absurd h (by simp [childIndicesF])
  | succ f ih =>
    intro t i l h
    obtain ⟨n, lInt, lExt, hn, hInt, hExt, rfl⟩ := childIndicesF_unfold h
    have hlen : (lInt ++ lExt ++ [i]).length = (lInt.length + lExt.length) + 1 := by
      simp only [List.length_append, List.length_cons, List.length_nil]
    rw [hlen]
    have hInt1 : childEnumOpt (lInt.length + lExt.length) t n.interior = some lInt := by
      cases c : n.interior with
      | none => rw [c] at hInt; exact hInt
      | some j =>
        rw [c, childEnumOpt_some] at hInt
        rw [childEnumOpt_some]
        exact childIndicesF_mono (ih hInt) (by omega)
    have hExt1 : childEnumOpt (lInt.length + lExt.length) t n.exterior = some lExt := by
      cases c : n.exterior with
      | none => rw [c] at hExt; exact hExt
      | some j =>
        rw [c, childEnumOpt_some] at hExt
        rw [childEnumOpt_some]
        exact childIndicesF_mono (ih hExt) (by omega)
    exact childIndicesF_build hn hInt1 hExt1

theorem childIndicesF_unique {Point : Type} {f g : Nat} {t : VpAvl Point} {i : Nat}
    {l l2 : List Nat} (h : childIndicesF f t i = some l)
    (h2 : childIndicesF g t i = some l2) : l = l2 := by
  have e1 := childIndicesF_mono h (Nat.le_max_left f g)
  have e2 := childIndicesF_mono h2 (Nat.le_max_right f g)
  rw [e1] at e2
  exact Option.some_inj.1 e2

theorem childIndicesF_sub_enum {Point : Type} :
    ∀ {f : Nat} {t : VpAvl Point} {i : Nat} {l : List Nat},
      childIndicesF f t i = some l →
      ∀ j ∈ l, ∃ lj, childIndicesF f t j = some lj ∧ lj ⊆ l := by
  intro f
  induction f with
  | zero => intro t i l h; exact absurd h (by simp [childIndicesF])
  | succ f ih =>
    intro t i l h j hj
    obtain ⟨n, lInt, lExt, hn, hInt, hExt, rfl⟩ := childIndicesF_unfold h
    rcases List.mem_append.1 hj with hj | hj
    · rcases List.mem_append.1 hj with hj | hj
      · cases c : n.interior with
        | none => rw [c] at hInt; rw [childEnumOpt_none hInt] at hj; cases hj
        | some ic =>
          rw [c, childEnumOpt_some] at hInt
          obtain ⟨lj, hlj, hsub⟩ := ih hInt j hj
          exact ⟨lj, childIndicesF_mono hlj (Nat.le_succ f),
            fun x hx => by simp [hsub hx]⟩
      · cases c : n.exterior with
        | none => rw [c] at hExt; rw [childEnumOpt_none hExt] at hj; cases hj
        | some e =>
          rw [c, childEnumOpt_some] at hExt
          obtain ⟨lj, hlj, hsub⟩ := ih hExt j hj
          exact ⟨lj, childIndicesF_mono hlj (Nat.le_succ f),
            fun x hx => by simp [hsub hx]⟩
    · have hji : j = i := by simpa using hj
      subst hji
      exact ⟨lInt ++ lExt ++ [j], h, fun x hx => hx⟩

theorem childHeightOpt_agree {Point : Type} {t t2 : VpAvl Point} {c : Option Nat}
    (h : ∀ j, c = some j → nodeGet t2 j = nodeGet t j) :
    childHeightOpt t2 c = childHeightOpt t c := by
  cases c with
  | none => rfl
  | some j => simp only [childHeightOpt]; rw [h j rfl]

theorem heightFor_agree {Point : Type} {t t2 : VpAvl Point} {n : Node}
    (hInt : ∀ j, n.interior = some j → nodeGet t2 j = nodeGet t j)
    (hExt : ∀ j, n.exterior = some j → nodeGet t2 j = nodeGet t j) :
    heightFor t2 n = heightFor t n := by
  unfold heightFor
  rw [childHeightOpt_agree hInt, childHeightOpt_agree hExt]

theorem mem_of_childEnumOpt_some {Point : Type} {f : Nat} {t : VpAvl Point} {j : Nat}
    {c : Option Nat} {lc : List Nat} (hc : c = some j)
    (h : childEnumOpt f t c = some lc) : j ∈ lc := by
  subst hc
  rw [childEnumOpt_some] at h
  exact childIndicesF_self_mem h

theorem heightOkAt_frame {Point : Type} {t t2 : VpAvl Point} {j : Nat} {f : Nat}
    {lj : List Nat} (hj : childIndicesF f t j = some lj)
    (hagree : ∀ k ∈ lj, nodeGet t2 k = nodeGet t k)
    (hh : heightOkAt t j) : heightOkAt t2 j := by
  intro n hn2
  have hjj : nodeGet t2 j = nodeGet t j := hagree j (childIndicesF_self_mem hj)
  rw [hjj] at hn2
  have hmain := hh n hn2
  obtain ⟨f1, rfl⟩ : ∃ f1, f = f1 + 1 := by
    cases f with
    | zero => exact absurd hj (by simp [childIndicesF])
    | succ f1 => exact ⟨f1, rfl⟩
  obtain ⟨n2, lInt, lExt, hn3, hInt, hExt, rfl⟩ := childIndicesF_unfold hj
  rw [hn2] at hn3
  have hn4 : n2 = n := (Option.some_inj.1 hn3).symm
  subst hn4
  have heq : heightFor t2 n2 = heightFor t n2 := by
    refine heightFor_agree ?_ ?_
    · intro k hk
      exact hagree k (by simp [mem_of_childEnumOpt_some hk hInt])
    · intro k hk
      exact hagree k (by simp [mem_of_childEnumOpt_some hk hExt])
  rw [heq]
  exact hmain

theorem centerDistOf_agree {Point Loc : Type} {dist : Loc → Loc → ℚ} {loc : Point → Loc}
    {t t2 : VpAvl Point} {j k : Nat}
    (hdata : t2.data = t.data)
    (hj : nodeGet t2 j = nodeGet t j) (hk : nodeGet t2 k = nodeGet t k) :
    centerDistOf dist loc t2 j k = centerDistOf dist loc t j k := by
  unfold centerDistOf pointAt nodeIndexData
  rw [hj, hk, hdata]

theorem partOkAt_frame {Point Loc : Type} {dist : Loc → Loc → ℚ} {loc : Point → Loc}
    {t t2 : VpAvl Point} {j : Nat} {f : Nat} {lj : List Nat}
    (hflen : f + 1 ≤ t.nodes.length)
    (hlen : t2.nodes.length = t.nodes.length) (hdata : t2.data = t.data)
    (hj : childIndicesF (f + 1) t j = some lj)
    (hagree : ∀ k ∈ lj, nodeGet t2 k = nodeGet t k)
    (hp : partOkAt dist loc t j) : partOkAt dist loc t2 j := by
  intro n hn2
  have hjj : nodeGet t2 j = nodeGet t j := hagree j (childIndicesF_self_mem hj)
  rw [hjj] at hn2
  obtain ⟨hpi, hpe⟩ := hp n hn2
  obtain ⟨n2, lInt, lExt, hn3, hInt, hExt, rfl⟩ := childIndicesF_unfold hj
  rw [hn2] at hn3
  have hn4 : n2 = n := (Option.some_inj.1 hn3).symm
  subst hn4
  constructor
  · intro c hc
    have hthis := hpi c hc
    rw [hc, childEnumOpt_some] at hInt
    have hsct : subtreeOf t c = some lInt :=
      childIndicesF_mono hInt (by omega)
    rw [hsct] at hthis
    have h1 : childIndicesF f t2 c = some lInt :=
      childIndicesF_frame hInt fun k hk => hagree k (by simp [hk])
    have hsct2 : subtreeOf t2 c = some lInt :=
      childIndicesF_mono h1 (by omega)
    rw [hsct2]
    intro k hk
    rw [centerDistOf_agree hdata hjj (hagree k (by simp [hk]))]
    exact hthis k hk
  · intro c hc
    have hthis := hpe c hc
    rw [hc, childEnumOpt_some] at hExt
    have hsct : subtreeOf t c = some lExt :=
      childIndicesF_mono hExt (by omega)
    rw [hsct] at hthis
    have h1 : childIndicesF f t2 c = some lExt :=
      childIndicesF_frame hExt fun k hk => hagree k (by simp [hk])
    have hsct2 : subtreeOf t2 c = some lExt :=
      childIndicesF_mono h1 (by omega)
    rw [hsct2]
    intro k hk
    rw [centerDistOf_agree hdata hjj (hagree k (by simp [hk]))]
    exact hthis k hk

theorem nodup_lt_length_le {l : List Nat} {n : Nat} (hnd : l.Nodup)
    (hlt : ∀ x ∈ l, x < n) : l.length ≤ n := by
  have h1 : l.toFinset ⊆ Finset.range n := by
    intro x hx
    simp only [List.mem_toFinset] at hx
    exact Finset.mem_range.2 (hlt x hx)
  have h2 := Finset.card_le_card h1
  rw [List.toFinset_card_of_nodup hnd, Finset.card_range] at h2
  exact h2

theorem childIndicesF_mem_lt {Point : Type} {f : Nat} {t : VpAvl Point} {i : Nat}
    {l : List Nat} (h : childIndicesF f t i = some l) :
    ∀ j ∈ l, j < t.nodes.length := by
  intro j hj
  have hs := childIndicesF_isSome h j hj
  unfold nodeGet at hs
  by_contra hbig
  rw [List.get?_eq_none.2 (Nat.le_of_not_lt hbig)] at hs
  simp at hs

theorem distancesLoop_spec {Point Loc : Type} {dist : Loc → Loc → ℚ} {loc : Point → Loc}
    {t : VpAvl Point} {pr : Point} :
    ∀ {l : List Nat} {ds : List (Nat × ℚ)},
      distancesLoop dist loc t pr l = some ds →
      ds.map Prod.fst = l ∧
      ∀ p ∈ ds, ∃ pk, nodeIndexData t p.1 = some pk ∧ p.2 = dist (loc pr) (loc pk) := by
  intro l
  induction l with
  | nil =>
    intro ds h
    have h2 : ([] : List (Nat × ℚ)) = ds := by simpa [distancesLoop] using h
    subst h2
    simp
  | cons i rest ih =>
    intro ds h
    simp only [distancesLoop, Option.bind_eq_bind] at h
    obtain ⟨p, hp, h⟩ := Option.bind_eq_some.1 h
    obtain ⟨ds1, hds1, h⟩ := Option.bind_eq_some.1 h
    obtain rfl : (i, dist (loc pr) (loc p)) :: ds1 = ds := by simpa using h
    obtain ⟨hfst, hmem⟩ := ih hds1
    constructor
    · simp [hfst]
    · intro q hq
      rcases List.mem_cons.1 hq with rfl | hq
      · exact ⟨p, hp, rfl⟩
      · exact hmem q hq

theorem sortedDists_perm (ds : List (Nat × ℚ)) : (sortedDists ds).Perm ds :=
  List.perm_insertionSort _ ds

instance : IsTotal (Nat × ℚ) (fun a b => a.2 ≤ b.2) :=
  ⟨fun a b => le_total a.2 b.2⟩

instance : IsTrans (Nat × ℚ) (fun a b => a.2 ≤ b.2) :=
  ⟨fun _ _ _ hab hbc => le_trans hab hbc⟩

theorem sortedDists_sorted (ds : List (Nat × ℚ)) :
    List.Sorted (fun a b : Nat × ℚ => a.2 ≤ b.2) (sortedDists ds) :=
  List.sorted_insertionSort _ ds

theorem interiorPart_append_exteriorPart (ds : List (Nat × ℚ)) :
    interiorPartOf ds ++ exteriorPartOf ds = sortedDists ds :=
  List.take_append_drop _ _

theorem halfOf_pos {ds : List (Nat × ℚ)} (h : 2 ≤ ds.length) : 1 ≤ halfOf ds := by
  unfold halfOf
  omega

theorem halfOf_lt {ds : List (Nat × ℚ)} (h : 2 ≤ ds.length) : halfOf ds < ds.length := by
  unfold halfOf
  omega

theorem interiorPartOf_length {ds : List (Nat × ℚ)} (h : 2 ≤ ds.length) :
    (interiorPartOf ds).length = halfOf ds := by
  unfold interiorPartOf
  rw [List.length_take, (sortedDists_perm ds).length_eq]
  exact Nat.min_eq_left (Nat.le_of_lt (halfOf_lt h))

theorem exteriorPartOf_length {ds : List (Nat × ℚ)} :
    (exteriorPartOf ds).length = ds.length - halfOf ds := by
  unfold exteriorPartOf
  rw [List.length_drop, (sortedDists_perm ds).length_eq]

theorem interiorPartOf_ne_nil {ds : List (Nat × ℚ)} (h : 2 ≤ ds.length) :
    interiorPartOf ds ≠ [] := by
  intro hc
  have h1 := interiorPartOf_length h
  rw [hc] at h1
  have h2 := halfOf_pos h
  simp only [List.length_nil] at h1
  omega

theorem exteriorPartOf_ne_nil {ds : List (Nat × ℚ)} (h : 2 ≤ ds.length) :
    exteriorPartOf ds ≠ [] := by
  intro hc
  have h1 := @exteriorPartOf_length ds
  rw [hc] at h1
  have h2 := halfOf_lt h
  simp only [List.length_nil] at h1
  omega

theorem interiorPart_le_exteriorPart {ds : List (Nat × ℚ)} {a b : Nat × ℚ}
    (ha : a ∈ interiorPartOf ds) (hb : b ∈ exteriorPartOf ds) : a.2 ≤ b.2 :=
  (sortedDists_sorted ds).rel_of_mem_take_of_mem_drop ha hb

theorem setNode_center_map {Point : Type} {t : VpAvl Point} {i : Nat} {f : Node → Node}
    {t2 : VpAvl Point} (h : setNode t i f = some t2)
    (hf : ∀ n, (f n).center = n.center) :
    ∀ j, (nodeGet t2 j).map (·.center) = (nodeGet t j).map (·.center) := by
  intro j
  by_cases hji : i = j
  · subst hji
    rw [nodeGet_setNode_self h]
    cases nodeGet t i <;> simp [hf]
  · rw [nodeGet_setNode_other h hji]

theorem pointAt_agree {Point : Type} {t t2 : VpAvl Point} {k : Nat}
    (hc : (nodeGet t2 k).map (·.center) = (nodeGet t k).map (·.center))
    (hd : t2.data = t.data) : pointAt t2 k = pointAt t k := by
  unfold pointAt nodeIndexData
  cases h1 : nodeGet t k with
  | none =>
    rw [h1] at hc
    cases h2 : nodeGet t2 k with
    | none => rfl
    | some nk2 => rw [h2] at hc; exact absurd hc (by simp)
  | some nk =>
    rw [h1] at hc
    cases h2 : nodeGet t2 k with
    | none => rw [h2] at hc; exact absurd hc (by simp)
    | some nk2 =>
      rw [h2] at hc
      have hcc : nk2.center = nk.center := by simpa using hc
      simp only [Option.some_bind]
      rw [hd, hcc]

theorem centerDistOf_center_agree {Point Loc : Type} {dist : Loc → Loc → ℚ}
    {loc : Point → Loc} {t t2 : VpAvl Point} {j k : Nat}
    (hcj : (nodeGet t2 j).map (·.center) = (nodeGet t j).map (·.center))
    (hck : (nodeGet t2 k).map (·.center) = (nodeGet t k).map (·.center))
    (hd : t2.data = t.data) :
    centerDistOf dist loc t2 j k = centerDistOf dist loc t j k := by
  unfold centerDistOf
  rw [pointAt_agree hcj hd, pointAt_agree hck hd]

theorem setParentOpt_cases {Point : Type} {t : VpAvl Point} {c : Option Nat}
    {root : Nat} {t2 : VpAvl Point} (h : setParentOpt t c root = some t2) :
    (c = none ∧ t2 = t) ∨
    (∃ ic, c = some ic ∧ setNode t ic (fun n => { n with parent := some root }) = some t2) := by
  cases c with
  | none =>
    left
    exact ⟨rfl, by simpa [setParentOpt] using h.symm⟩
  | some ic => exact Or.inr ⟨ic, rfl, h⟩

theorem buildChildOpt_cases {Point : Type}
    {bb : VpAvl Point → Nat → List Nat → Option (VpAvl Point)} {t : VpAvl Point}
    {c : Option Nat} {idx : List Nat} {hprev : Nat} {p : Nat × VpAvl Point}
    (h : buildChildOpt bb t c idx hprev = some p) :
    (c = none ∧ p = (hprev, t)) ∨
    (∃ ic t5 m, c = some ic ∧ bb t ic idx = some t5 ∧ nodeGet t5 ic = some m ∧
      p = (max hprev m.height, t5)) := by
  cases c with
  | none =>
    left
    exact ⟨rfl, by simpa [buildChildOpt] using h.symm⟩
  | some ic =>
    right
    simp only [buildChildOpt, Option.bind_eq_bind] at h
    obtain ⟨t5, ht5, h⟩ := Option.bind_eq_some.1 h
    obtain ⟨m, hm, h⟩ := Option.bind_eq_some.1 h
    exact ⟨ic, t5, m, rfl, ht5, hm, by simpa using h.symm⟩

theorem dropLast_append_of_getLast? {α : Type} {l : List α} {a : α}
    (h : l.getLast? = some a) : l.dropLast ++ [a] = l := by
  cases l with
  | nil => exact absurd h (by simp)
  | cons x xs =>
    have hne : x :: xs ≠ [] := by simp
    rw [List.getLast?_eq_getLast_of_ne_nil hne] at h
    have ha : a = (x :: xs).getLast hne := by
      exact (Option.some_inj.1 h).symm
    subst ha
    exact List.dropLast_append_getLast hne

theorem cons_perm_of_getLast? {α : Type} {l : List α} {a : α}
    (h : l.getLast? = some a) : (a :: l.dropLast).Perm l := by
  have h1 := dropLast_append_of_getLast? h
  calc (a :: l.dropLast).Perm (l.dropLast ++ [a]) := (List.perm_append_singleton a _).symm
    _ = l := h1

theorem minExtOf_cases {ds : List (Nat × ℚ)} {mE : ℚ} (h : minExtOf ds = some mE) :
    ∃ b tail, exteriorPartOf ds = b :: tail ∧ mE = b.2 := by
  unfold minExtOf at h
  cases he : exteriorPartOf ds with
  | nil => rw [he] at h; exact absurd h (by simp)
  | cons b tail =>
    rw [he] at h
    have h2 : b.2 = mE := by simpa using h
    exact ⟨b, tail, rfl, h2.symm⟩

theorem interiorPart_le_minExt {ds : List (Nat × ℚ)} {mE : ℚ} {a : Nat × ℚ}
    (h : minExtOf ds = some mE) (ha : a ∈ interiorPartOf ds) : a.2 ≤ mE := by
  obtain ⟨b, tail, he, rfl⟩ := minExtOf_cases h
  exact interiorPart_le_exteriorPart ha (by rw [he]; simp)

theorem minExt_le_exteriorPart {ds : List (Nat × ℚ)} {mE : ℚ} {a : Nat × ℚ}
    (h : minExtOf ds = some mE) (ha : a ∈ exteriorPartOf ds) : mE ≤ a.2 := by
  obtain ⟨b, tail, he, rfl⟩ := minExtOf_cases h
  have hsorted : List.Sorted (fun x y : Nat × ℚ => x.2 ≤ y.2) (exteriorPartOf ds) :=
    List.Pairwise.sublist (List.drop_sublist _ _) (sortedDists_sorted ds)
  rw [he] at ha hsorted
  rcases List.mem_cons.1 ha with rfl | ha
  · exact le_refl _
  · exact List.rel_of_sorted_cons hsorted a ha

/-- Master correctness lemma for `bulk_build_indices`: when it succeeds on a
duplicate-free index set, it rebuilds exactly the subtree `root :: indices`
(leaving every other node untouched and every center and the data arena
unchanged), establishes the height bookkeeping and the non-strict partition
property on every rebuilt node, and the rebuilt subtree enumerates to a
permutation of `root :: indices`. -/
theorem bulkBuild_master {Point Loc : Type} (dist : Loc → Loc → ℚ) (loc : Point → Loc) :
    ∀ {fuel : Nat} {t t2 : VpAvl Point} {root : Nat} {indices : List Nat},
      bulkBuildF dist loc fuel t root indices = some t2 →
      (root :: indices).Nodup →
      t2.root = t.root ∧ t2.data = t.data ∧ t2.nodes.length = t.nodes.length ∧
      (∀ j, j ∉ root :: indices → nodeGet t2 j = nodeGet t j) ∧
      (∀ j, (nodeGet t2 j).map (·.center) = (nodeGet t j).map (·.center)) ∧
      (∃ l, childIndicesF (indices.length + 1) t2 root = some l ∧
        l.Perm (root :: indices)) ∧
      (∀ j ∈ root :: indices, heightOkAt t2 j) ∧
      (∀ j ∈ root :: indices, partOkAt dist loc t2 j) := by
  intro fuel
  induction fuel with
  | zero =>
    intro t t2 root indices h
    exact absurd h (by simp [bulkBuildF])
  | succ fuel ih =>
    intro t t2 root indices h hnd
    cases indices with
    | nil =>
      replace h : setNode t root (fun n =>
          { n with height := 0, interior := none, exterior := none }) = some t2 := h
      obtain ⟨n0, hn0, -⟩ := setNode_eq_some h
      have hself : nodeGet t2 root =
          some { n0 with height := 0, interior := none, exterior := none } := by
        rw [nodeGet_setNode_self h, hn0]; rfl
      refine ⟨setNode_root h, setNode_data h, setNode_length h, ?_, ?_, ?_, ?_, ?_⟩
      · intro j hj
        have hne : root ≠ j := fun e => hj (by simp [e])
        exact nodeGet_setNode_other h hne
      · exact setNode_center_map h (fun n => rfl)
      · refine ⟨[root], ?_, List.Perm.refl _⟩
        have hb := @childIndicesF_build _ 0 _ _ _ _ _ hself rfl rfl
        simpa using hb
      · intro j hj
        have hjr : j = root := by simpa using hj
        subst hjr
        intro n hn
        rw [hself] at hn
        obtain rfl := Option.some_inj.1 hn
        exact rfl
      · intro j hj
        have hjr : j = root := by simpa using hj
        subst hjr
        intro n hn
        rw [hself] at hn
        obtain rfl := Option.some_inj.1 hn
        exact ⟨fun c hc => Option.noConfusion hc, fun c hc => Option.noConfusion hc⟩
    | cons e1 tail =>
      cases tail with
      | nil =>
        replace h : ((nodeIndexData t root).bind fun pr =>
            (nodeIndexData t e1).bind fun pe =>
            (setNode t root fun n =>
              { n with exterior := some e1, radius := dist (loc pr) (loc pe),
                       height := 1, interior := none }).bind fun t1 =>
            (setNode t1 e1 fun n => { n with parent := some root }).bind fun tp =>
            bulkBuildF dist loc fuel tp e1 []) = some t2 := h
        obtain ⟨pr, hpr, h⟩ := Option.bind_eq_some.1 h
        obtain ⟨pe, hpe, h⟩ := Option.bind_eq_some.1 h
        obtain ⟨t1, ht1, h⟩ := Option.bind_eq_some.1 h
        obtain ⟨tp, htp, h⟩ := Option.bind_eq_some.1 h
        have hre : root ≠ e1 := by
          intro e
          rw [e] at hnd
          simp at hnd
        obtain ⟨i5root, i5data, i5len, i5frame, i5centers, ⟨le, hle, hleperm⟩,
          i5heights, i5parts⟩ := ih h (by simp)
        have hle2 : le = [e1] := List.perm_singleton.1 hleperm
        subst hle2
        obtain ⟨n0, hn0, -⟩ := setNode_eq_some ht1
        have ht1root : nodeGet t1 root =
            some { n0 with
                    exterior := some e1, radius := dist (loc pr) (loc pe),
                    height := 1, interior := none } := by
          rw [nodeGet_setNode_self ht1, hn0]; rfl
        have hrootnode : nodeGet t2 root =
            some { n0 with
                    exterior := some e1, radius := dist (loc pr) (loc pe),
                    height := 1, interior := none } := by
          rw [i5frame root (by simp [hre]), nodeGet_setNode_other htp (Ne.symm hre), ht1root]
        have hleaf : ∃ ne, nodeGet t2 e1 = some ne ∧ ne.interior = none ∧
            ne.exterior = none := by
          obtain ⟨ne, lInt, lExt, hnee, hInt, hExt, heq⟩ := childIndicesF_unfold hle
          have hcl := congrArg List.length heq
          simp only [List.length_append, List.length_cons, List.length_nil] at hcl
          have hI0 : lInt = [] := List.length_eq_zero.1 (by omega)
          have hE0 : lExt = [] := List.length_eq_zero.1 (by omega)
          subst hI0; subst hE0
          refine ⟨ne, hnee, ?_, ?_⟩
          · cases c : ne.interior with
            | none => rfl
            | some x =>
              rw [c, childEnumOpt_some] at hInt
              exact absurd hInt (by simp [childIndicesF])
          · cases c : ne.exterior with
            | none => rfl
            | some x =>
              rw [c, childEnumOpt_some] at hExt
              exact absurd hExt (by simp [childIndicesF])
        obtain ⟨ne, hnee, hni, hnx⟩ := hleaf
        have hne0 : ne.height = 0 := by
          have hh := i5heights e1 (by simp) ne hnee
          have hhf : heightFor t2 ne = some 0 := by
            unfold heightFor
            rw [hni, hnx]
            rfl
          rw [hhf] at hh
          exact hh
        have hdata : t2.data = t.data := by
          rw [i5data, setNode_data htp, setNode_data ht1]
        have hcenters : ∀ j, (nodeGet t2 j).map (·.center) =
            (nodeGet t j).map (·.center) := by
          intro j
          rw [i5centers j, setNode_center_map htp (fun n => rfl) j,
            setNode_center_map ht1 (fun n => rfl) j]
        have hlenq : t2.nodes.length = t.nodes.length := by
          rw [i5len, setNode_length htp, setNode_length ht1]
        have hrlt : root < t.nodes.length := by
          by_contra hbig
          rw [nodeGet, List.get?_eq_none.2 (Nat.le_of_not_lt hbig)] at hn0
          exact Option.noConfusion hn0
        refine ⟨?_, hdata, hlenq, ?_, hcenters, ?_, ?_, ?_⟩
        · rw [i5root, setNode_root htp, setNode_root ht1]
        · intro j hj
          have hj1 : j ≠ root := fun e => hj (by simp [e])
          have hj2 : j ≠ e1 := fun e => hj (by simp [e])
          rw [i5frame j (by simp [hj2]), nodeGet_setNode_other htp (Ne.symm hj2),
            nodeGet_setNode_other ht1 (Ne.symm hj1)]
        · refine ⟨[] ++ [e1] ++ [root], ?_, ?_⟩
          · have hb := @childIndicesF_build _ 1 _ _ _ _ _ hrootnode rfl
              (by rw [childEnumOpt_some]; exact hle)
            simpa using hb
          · simp only [List.nil_append]
            exact List.Perm.swap root e1 []
        · intro j hj
          rcases List.mem_cons.1 hj with rfl | hj
          · intro n hn
            rw [hrootnode] at hn
            obtain rfl := Option.some_inj.1 hn
            have hhf : heightFor t2
                { n0 with
                   exterior := some e1, radius := dist (loc pr) (loc pe),
                   height := 1, interior := none } =
                some 1 := by
              show ((some 0 : Option Nat).bind fun ih2 =>
                ((nodeGet t2 e1).map fun m => m.height + 1).bind fun eh =>
                  some (max ih2 eh)) = some 1
              rw [hnee]
              simp [hne0]
            rw [hhf]
            exact rfl
          · have hje : j = e1 := by simpa using hj
            subst hje
            exact i5heights j (by simp)
        · intro j hj
          obtain hjr | hj := List.mem_cons.1 hj
          · subst j
            intro n hn
            rw [hrootnode] at hn
            obtain rfl := Option.some_inj.1 hn
            refine ⟨fun c hc => Option.noConfusion hc, ?_⟩
            intro c hc
            have hcc : e1 = c := by simpa using hc
            subst c
            have hsub : subtreeOf t2 e1 = some [e1] := by
              refine childIndicesF_mono hle ?_
              rw [hlenq]
              simp only [List.length_nil]
              omega
            rw [hsub]
            intro k hk
            have hkk : k = e1 := by simpa using hk
            subst k
            have hcd : centerDistOf dist loc t2 root e1 =
                some (dist (loc pr) (loc pe)) := by
              unfold centerDistOf
              rw [pointAt_agree (hcenters root) hdata, pointAt_agree (hcenters e1) hdata]
              show ((nodeIndexData t root).bind fun pi =>
                (nodeIndexData t e1).bind fun pj => some (dist (loc pi) (loc pj))) =
                some (dist (loc pr) (loc pe))
              rw [hpr, hpe]
              rfl
            rw [hcd]
            exact le_refl _
          · have hje : j = e1 := by simpa using hj
            subst hje
            exact i5parts j (by simp)
      | cons e2 rest =>
        replace h : ((nodeIndexData t root).bind fun pr =>
            (distancesLoop dist loc t pr (e1 :: e2 :: rest)).bind fun ds =>
            (minExtOf ds).bind fun mE =>
            (setNode t root fun n => { n with radius := mE }).bind fun t1 =>
            (setNode t1 root fun n =>
              { n with interior := interiorCenterOf ds,
                       exterior := exteriorCenterOf ds }).bind fun t2a =>
            (setParentOpt t2a (interiorCenterOf ds) root).bind fun t3 =>
            (setParentOpt t3 (exteriorCenterOf ds) root).bind fun t4 =>
            (buildChildOpt (bulkBuildF dist loc fuel) t4 (interiorCenterOf ds)
              (interiorIndicesOf ds) 0).bind fun p5 =>
            (buildChildOpt (bulkBuildF dist loc fuel) p5.2 (exteriorCenterOf ds)
              (exteriorIndicesOf ds) p5.1).bind fun p6 =>
            setNode p6.2 root fun n => { n with height := p6.1 + 1 }) = some t2 := h
        obtain ⟨pr, hpr, h⟩ := Option.bind_eq_some.1 h
        obtain ⟨ds, hds, h⟩ := Option.bind_eq_some.1 h
        obtain ⟨mE, hmE, h⟩ := Option.bind_eq_some.1 h
        obtain ⟨t1, ht1, h⟩ := Option.bind_eq_some.1 h
        obtain ⟨t2a, ht2a, h⟩ := Option.bind_eq_some.1 h
        obtain ⟨t3, ht3, h⟩ := Option.bind_eq_some.1 h
        obtain ⟨t4, ht4, h⟩ := Option.bind_eq_some.1 h
        obtain ⟨p5, hp5, h⟩ := Option.bind_eq_some.1 h
        obtain ⟨p6, hp6, h⟩ := Option.bind_eq_some.1 h
        obtain ⟨hfst, hdsmem⟩ := distancesLoop_spec hds
        have hdslen : ds.length = (e1 :: e2 :: rest).length := by
          rw [← hfst]; simp
        have hds2 : 2 ≤ ds.length := by
          rw [hdslen]
          simp only [List.length_cons]
          omega
        have hIne : (interiorPartOf ds).map (·.1) ≠ [] := by
          intro hcon
          exact interiorPartOf_ne_nil hds2 (List.map_eq_nil.1 hcon)
        have hEne : (exteriorPartOf ds).map (·.1) ≠ [] := by
          intro hcon
          exact exteriorPartOf_ne_nil hds2 (List.map_eq_nil.1 hcon)
        obtain ⟨ic, hic⟩ : ∃ x, interiorCenterOf ds = some x :=
          ⟨_, List.getLast?_eq_getLast_of_ne_nil hIne⟩
        obtain ⟨ec, hec⟩ : ∃ x, exteriorCenterOf ds = some x :=
          ⟨_, List.getLast?_eq_getLast_of_ne_nil hEne⟩
        obtain ⟨ic2, hic2, ht3s⟩ : ∃ x, interiorCenterOf ds = some x ∧
            setNode t2a x (fun n => { n with parent := some root }) = some t3 := by
          rcases setParentOpt_cases ht3 with ⟨hcn, -⟩ | hgood
          · rw [hic] at hcn; cases hcn
          · exact hgood
        rw [hic] at hic2
        have hicic : ic = ic2 := Option.some_inj.1 hic2
        subst ic2
        obtain ⟨ec2, hec2, ht4s⟩ : ∃ x, exteriorCenterOf ds = some x ∧
            setNode t3 x (fun n => { n with parent := some root }) = some t4 := by
          rcases setParentOpt_cases ht4 with ⟨hcn, -⟩ | hgood
          · rw [hec] at hcn; cases hcn
          · exact hgood
        rw [hec] at hec2
        have hecec : ec = ec2 := Option.some_inj.1 hec2
        subst ec2
        obtain ⟨ic3, t5, mIc, hic3, hrec5, hmIc, hp5eq⟩ :
            ∃ x t5 m, interiorCenterOf ds = some x ∧
              bulkBuildF dist loc fuel t4 x (interiorIndicesOf ds) = some t5 ∧
              nodeGet t5 x = some m ∧ p5 = (max 0 m.height, t5) := by
          rcases buildChildOpt_cases hp5 with ⟨hcn, -⟩ | hgood
          · rw [hic] at hcn; cases hcn
          · exact hgood
        rw [hic] at hic3
        have hicic3 : ic = ic3 := Option.some_inj.1 hic3
        subst ic3
        have hp51 : p5.1 = max 0 mIc.height := by rw [hp5eq]
        have hp52 : p5.2 = t5 := by rw [hp5eq]
        rw [hp51, hp52] at hp6
        obtain ⟨ec3, t6, mEc, hec3, hrec6, hmEc, hp6eq⟩ :
            ∃ x t6 m, exteriorCenterOf ds = some x ∧
              bulkBuildF dist loc fuel t5 x (exteriorIndicesOf ds) = some t6 ∧
              nodeGet t6 x = some m ∧ p6 = (max (max 0 mIc.height) m.height, t6) := by
          rcases buildChildOpt_cases hp6 with ⟨hcn, -⟩ | hgood
          · rw [hec] at hcn; cases hcn
          · exact hgood
        rw [hec] at hec3
        have hecec3 : ec = ec3 := Option.some_inj.1 hec3
        subst ec3
        have hp61 : p6.1 = max (max 0 mIc.height) mEc.height := by rw [hp6eq]
        have hp62 : p6.2 = t6 := by rw [hp6eq]
        rw [hp61, hp62] at h
        have hIMLeq : interiorIndicesOf ds ++ [ic] = (interiorPartOf ds).map (·.1) :=
          dropLast_append_of_getLast? hic
        have hEMLeq : exteriorIndicesOf ds ++ [ec] = (exteriorPartOf ds).map (·.1) :=
          dropLast_append_of_getLast? hec
        have hpermI : (ic :: interiorIndicesOf ds).Perm ((interiorPartOf ds).map (·.1)) :=
          cons_perm_of_getLast? hic
        have hpermE : (ec :: exteriorIndicesOf ds).Perm ((exteriorPartOf ds).map (·.1)) :=
          cons_perm_of_getLast? hec
        have hsplit : (interiorPartOf ds).map (·.1) ++ (exteriorPartOf ds).map (·.1) =
            (sortedDists ds).map (·.1) := by
          rw [← List.map_append, interiorPart_append_exteriorPart]
        have hpermIdx : ((interiorPartOf ds).map (·.1) ++
            (exteriorPartOf ds).map (·.1)).Perm (e1 :: e2 :: rest) := by
          rw [hsplit, ← hfst]
          exact (sortedDists_perm ds).map _
        have hNodupIdx : (e1 :: e2 :: rest).Nodup := hnd.of_cons
        have hrootNotMem : root ∉ (e1 :: e2 :: rest) := (List.nodup_cons.1 hnd).1
        have hNodupIE : ((interiorPartOf ds).map (·.1) ++
            (exteriorPartOf ds).map (·.1)).Nodup := hpermIdx.symm.nodup hNodupIdx
        obtain ⟨hNodupIML, hNodupEML, hdisj⟩ := List.nodup_append.1 hNodupIE
        have hNodI : (ic :: interiorIndicesOf ds).Nodup := hpermI.symm.nodup hNodupIML
        have hNodE : (ec :: exteriorIndicesOf ds).Nodup := hpermE.symm.nodup hNodupEML
        have hsubI : ∀ x ∈ ic :: interiorIndicesOf ds, x ∈ (e1 :: e2 :: rest) := by
          intro x hx
          exact hpermIdx.subset (List.mem_append_left _ (hpermI.subset hx))
        have hsubE : ∀ x ∈ ec :: exteriorIndicesOf ds, x ∈ (e1 :: e2 :: rest) := by
          intro x hx
          exact hpermIdx.subset (List.mem_append_right _ (hpermE.subset hx))
        have hrootI : root ∉ ic :: interiorIndicesOf ds := fun hx => hrootNotMem (hsubI root hx)
        have hrootE : root ∉ ec :: exteriorIndicesOf ds := fun hx => hrootNotMem (hsubE root hx)
        have hicne : root ≠ ic := fun e => hrootI (by simp [e])
        have hecne : root ≠ ec := fun e => hrootE (by simp [e])
        have hdisjIE : ∀ x ∈ ic :: interiorIndicesOf ds,
            x ∉ ec :: exteriorIndicesOf ds := by
          intro x hx hx2
          exact hdisj (hpermI.subset hx) (hpermE.subset hx2)
        obtain ⟨i5root, i5data, i5len, i5frame, i5centers, ⟨lIc, hlIc, hlIcperm⟩,
          i5heights, i5parts⟩ := ih hrec5 hNodI
        obtain ⟨i6root, i6data, i6len, i6frame, i6centers, ⟨lEc, hlEc, hlEcperm⟩,
          i6heights, i6parts⟩ := ih hrec6 hNodE
        obtain ⟨n0, hn0, -⟩ := setNode_eq_some ht1
        have ht1r : nodeGet t1 root = some { n0 with radius := mE } := by
          rw [nodeGet_setNode_self ht1, hn0]; rfl
        have ht2ar : nodeGet t2a root =
            some { n0 with
                    radius := mE, interior := some ic, exterior := some ec } := by
          rw [nodeGet_setNode_self ht2a, ht1r, hic, hec]
          rfl
        have ht3r : nodeGet t3 root = nodeGet t2a root :=
          nodeGet_setNode_other ht3s (Ne.symm hicne)
        have ht4r : nodeGet t4 root = nodeGet t3 root :=
          nodeGet_setNode_other ht4s (Ne.symm hecne)
        have ht5r : nodeGet t5 root = nodeGet t4 root := i5frame root hrootI
        have ht6r : nodeGet t6 root = nodeGet t5 root := i6frame root hrootE
        have hfinroot : nodeGet t2 root =
            some { n0 with
                    radius := mE, interior := some ic, exterior := some ec,
                    height := max (max 0 mIc.height) mEc.height + 1 } := by
          rw [nodeGet_setNode_self h, ht6r, ht5r, ht4r, ht3r, ht2ar]
          rfl
        have hic_t2 : nodeGet t2 ic = some mIc := by
          rw [nodeGet_setNode_other h hicne, i6frame ic (hdisjIE ic (by simp)), hmIc]
        have hec_t2 : nodeGet t2 ec = some mEc := by
          rw [nodeGet_setNode_other h hecne, hmEc]
        have hlIcsub : ∀ k ∈ lIc, k ∈ ic :: interiorIndicesOf ds :=
          fun k hk => hlIcperm.subset hk
        have hlEcsub : ∀ k ∈ lEc, k ∈ ec :: exteriorIndicesOf ds :=
          fun k hk => hlEcperm.subset hk
        have hagree5 : ∀ k ∈ lIc, nodeGet t2 k = nodeGet t5 k := by
          intro k hk
          have hkI := hlIcsub k hk
          have hkroot : root ≠ k := fun e => hrootI (e ▸ hkI)
          rw [nodeGet_setNode_other h hkroot, i6frame k (hdisjIE k hkI)]
        have hagree6 : ∀ k ∈ lEc, nodeGet t2 k = nodeGet t6 k := by
          intro k hk
          have hkE := hlEcsub k hk
          have hkroot : root ≠ k := fun e => hrootE (e ▸ hkE)
          rw [nodeGet_setNode_other h hkroot]
        have hlIc2 : childIndicesF ((interiorIndicesOf ds).length + 1) t2 ic = some lIc :=
          childIndicesF_frame hlIc hagree5
        have hlEc2 : childIndicesF ((exteriorIndicesOf ds).length + 1) t2 ec = some lEc :=
          childIndicesF_frame hlEc hagree6
        have hhalf : (interiorPartOf ds).length = halfOf ds := interiorPartOf_length hds2
        have hiIdxlen : (interiorIndicesOf ds).length = halfOf ds - 1 := by
          unfold interiorIndicesOf
          rw [List.length_dropLast, List.length_map, hhalf]
        have heIdxlen : (exteriorIndicesOf ds).length = ds.length - halfOf ds - 1 := by
          unfold exteriorIndicesOf
          rw [List.length_dropLast, List.length_map, exteriorPartOf_length]
        have hhalfb1 : 1 ≤ halfOf ds := halfOf_pos hds2
        have hhalfb2 : halfOf ds < ds.length := halfOf_lt hds2
        have hhalfb3 : halfOf ds ≤ ds.length - 1 := by
          unfold halfOf
          omega
        have hdataq : t2.data = t.data := by
          rw [setNode_data h, i6data, i5data, setNode_data ht4s, setNode_data ht3s,
            setNode_data ht2a, setNode_data ht1]
        have hlenq : t2.nodes.length = t.nodes.length := by
          rw [setNode_length h, i6len, i5len, setNode_length ht4s, setNode_length ht3s,
            setNode_length ht2a, setNode_length ht1]
        have hrootq : t2.root = t.root := by
          rw [setNode_root h, i6root, i5root, setNode_root ht4s, setNode_root ht3s,
            setNode_root ht2a, setNode_root ht1]
        have hlen5 : t5.nodes.length = t.nodes.length := by
          rw [i5len, setNode_length ht4s, setNode_length ht3s, setNode_length ht2a,
            setNode_length ht1]
        have hdata5 : t5.data = t.data := by
          rw [i5data, setNode_data ht4s, setNode_data ht3s, setNode_data ht2a,
            setNode_data ht1]
        have hlen6 : t6.nodes.length = t.nodes.length := by rw [i6len, hlen5]
        have hdata6 : t6.data = t.data := by rw [i6data, hdata5]
        have hcenq : ∀ j, (nodeGet t2 j).map (·.center) = (nodeGet t j).map (·.center) := by
          intro j
          rw [setNode_center_map h (fun n => rfl) j, i6centers j, i5centers j,
            setNode_center_map ht4s (fun n => rfl) j,
            setNode_center_map ht3s (fun n => rfl) j,
            setNode_center_map ht2a (fun n => rfl) j,
            setNode_center_map ht1 (fun n => rfl) j]
        have hframeq : ∀ j, j ∉ root :: e1 :: e2 :: rest → nodeGet t2 j = nodeGet t j := by
          intro j hj
          have hjroot : root ≠ j := fun e => hj (by simp [e])
          have hjI : j ∉ ic :: interiorIndicesOf ds := fun hx => hj (by simp [hsubI j hx])
          have hjE : j ∉ ec :: exteriorIndicesOf ds := fun hx => hj (by simp [hsubE j hx])
          have hjic : ic ≠ j := fun e => hjI (by simp [e])
          have hjec : ec ≠ j := fun e => hjE (by simp [e])
          rw [nodeGet_setNode_other h hjroot, i6frame j hjE, i5frame j hjI,
            nodeGet_setNode_other ht4s hjec, nodeGet_setNode_other ht3s hjic,
            nodeGet_setNode_other ht2a hjroot, nodeGet_setNode_other ht1 hjroot]
        have hidxlt : ∀ x ∈ (e1 :: e2 :: rest), x < t.nodes.length := by
          intro x hx
          have hxds : x ∈ ds.map Prod.fst := by rw [hfst]; exact hx
          obtain ⟨q, hq, hq1⟩ := List.mem_map.1 hxds
          obtain ⟨pk, hpk, -⟩ := hdsmem q hq
          rw [← hq1]
          unfold nodeIndexData at hpk
          cases hng : nodeGet t q.1 with
          | none => rw [hng] at hpk; exact absurd hpk (by simp)
          | some nq =>
            unfold nodeGet at hng
            by_contra hbig
            rw [List.get?_eq_none.2 (Nat.le_of_not_lt hbig)] at hng
            exact Option.noConfusion hng
        have hrootlt : root < t.nodes.length := by
          by_contra hbig
          rw [nodeGet, List.get?_eq_none.2 (Nat.le_of_not_lt hbig)] at hn0
          exact Option.noConfusion hn0
        have hcount : (e1 :: e2 :: rest).length + 1 ≤ t.nodes.length := by
          have hq := nodup_lt_length_le hnd (by
            intro x hx
            rcases List.mem_cons.1 hx with rfl | hx
            · exact hrootlt
            · exact hidxlt x hx)
          simpa using hq
        have hfI : (interiorIndicesOf ds).length + 1 ≤ (e1 :: e2 :: rest).length := by
          rw [hiIdxlen, ← hdslen]
          omega
        have hfE : (exteriorIndicesOf ds).length + 1 ≤ (e1 :: e2 :: rest).length := by
          rw [heIdxlen, ← hdslen]
          omega
        have hsubtree : childIndicesF ((e1 :: e2 :: rest).length + 1) t2 root =
            some (lIc ++ lEc ++ [root]) := by
          refine childIndicesF_build hfinroot ?_ ?_
          · show childIndicesF (e1 :: e2 :: rest).length t2 ic = some lIc
            exact childIndicesF_mono hlIc2 hfI
          · show childIndicesF (e1 :: e2 :: rest).length t2 ec = some lEc
            exact childIndicesF_mono hlEc2 hfE
        have hpermFinal : (lIc ++ lEc ++ [root]).Perm (root :: e1 :: e2 :: rest) := by
          have h1 : (lIc ++ lEc).Perm ((interiorPartOf ds).map (·.1) ++
              (exteriorPartOf ds).map (·.1)) :=
            List.Perm.append (hlIcperm.trans hpermI) (hlEcperm.trans hpermE)
          have h2 : (lIc ++ lEc).Perm (e1 :: e2 :: rest) := h1.trans hpermIdx
          exact (h2.append_right [root]).trans (List.perm_append_singleton _ _)
        have hcover : ∀ j ∈ (e1 :: e2 :: rest),
            j ∈ ic :: interiorIndicesOf ds ∨ j ∈ ec :: exteriorIndicesOf ds := by
          intro j hj
          have hq : j ∈ (interiorPartOf ds).map (·.1) ++ (exteriorPartOf ds).map (·.1) :=
            hpermIdx.symm.subset hj
          rcases List.mem_append.1 hq with h1 | h1
          · exact Or.inl (hpermI.symm.subset h1)
          · exact Or.inr (hpermE.symm.subset h1)
        have hheights : ∀ j ∈ root :: e1 :: e2 :: rest, heightOkAt t2 j := by
          intro j hj
          obtain hjr | hj := List.mem_cons.1 hj
          · subst j
            intro n hn
            rw [hfinroot] at hn
            obtain rfl := Option.some_inj.1 hn
            have hhf : heightFor t2
                { n0 with
                   radius := mE, interior := some ic, exterior := some ec,
                   height := max (max 0 mIc.height) mEc.height + 1 } =
                some (max (mIc.height + 1) (mEc.height + 1)) := by
              show (((nodeGet t2 ic).map fun m => m.height + 1).bind fun ih2 =>
                ((nodeGet t2 ec).map fun m => m.height + 1).bind fun eh =>
                  some (max ih2 eh)) = some (max (mIc.height + 1) (mEc.height + 1))
              rw [hic_t2, hec_t2]
              rfl
            rw [hhf]
            show max (max 0 mIc.height) mEc.height + 1 = max (mIc.height + 1) (mEc.height + 1)
            omega
          · rcases hcover j hj with hjs | hjs
            · obtain ⟨lj, hlj, hljsub⟩ :=
                childIndicesF_sub_enum hlIc j (hlIcperm.symm.subset hjs)
              exact heightOkAt_frame hlj (fun k hk => hagree5 k (hljsub hk))
                (i5heights j hjs)
            · obtain ⟨lj, hlj, hljsub⟩ :=
                childIndicesF_sub_enum hlEc j (hlEcperm.symm.subset hjs)
              exact heightOkAt_frame hlj (fun k hk => hagree6 k (hljsub hk))
                (i6heights j hjs)
        have hparts : ∀ j ∈ root :: e1 :: e2 :: rest, partOkAt dist loc t2 j := by
          intro j hj
          obtain hjr | hj := List.mem_cons.1 hj
          · subst j
            intro n hn
            rw [hfinroot] at hn
            obtain rfl := Option.some_inj.1 hn
            constructor
            · intro c hc
              have hcic : ic = c := by simpa using hc
              subst c
              have hsub2 : subtreeOf t2 ic = some lIc := by
                refine childIndicesF_mono hlIc2 ?_
                rw [hlenq]
                omega
              rw [hsub2]
              intro k hk
              have hkI : k ∈ (interiorPartOf ds).map (·.1) :=
                hpermI.subset (hlIcsub k hk)
              obtain ⟨q, hq, hq1⟩ := List.mem_map.1 hkI
              obtain ⟨pk, hpk, hq2⟩ := hdsmem q
                ((sortedDists_perm ds).subset ((List.take_subset _ _) hq))
              have hcd : centerDistOf dist loc t2 root k =
                  some (dist (loc pr) (loc pk)) := by
                unfold centerDistOf
                rw [pointAt_agree (hcenq root) hdataq, pointAt_agree (hcenq k) hdataq]
                show ((nodeIndexData t root).bind fun pi =>
                  (nodeIndexData t k).bind fun pj => some (dist (loc pi) (loc pj))) =
                  some (dist (loc pr) (loc pk))
                rw [hpr, ← hq1, hpk]
                rfl
              rw [hcd]
              show dist (loc pr) (loc pk) ≤ mE
              rw [← hq2]
              exact interiorPart_le_minExt hmE hq
            · intro c hc
              have hcec : ec = c := by simpa using hc
              subst c
              have hsub2 : subtreeOf t2 ec = some lEc := by
                refine childIndicesF_mono hlEc2 ?_
                rw [hlenq]
                omega
              rw [hsub2]
              intro k hk
              have hkE : k ∈ (exteriorPartOf ds).map (·.1) :=
                hpermE.subset (hlEcsub k hk)
              obtain ⟨q, hq, hq1⟩ := List.mem_map.1 hkE
              obtain ⟨pk, hpk, hq2⟩ := hdsmem q
                ((sortedDists_perm ds).subset ((List.drop_subset _ _) hq))
              have hcd : centerDistOf dist loc t2 root k =
                  some (dist (loc pr) (loc pk)) := by
                unfold centerDistOf
                rw [pointAt_agree (hcenq root) hdataq, pointAt_agree (hcenq k) hdataq]
                show ((nodeIndexData t root).bind fun pi =>
                  (nodeIndexData t k).bind fun pj => some (dist (loc pi) (loc pj))) =
                  some (dist (loc pr) (loc pk))
                rw [hpr, ← hq1, hpk]
                rfl
              rw [hcd]
              show mE ≤ dist (loc pr) (loc pk)
              rw [← hq2]
              exact minExt_le_exteriorPart hmE hq
          · rcases hcover j hj with hjs | hjs
            · obtain ⟨lj, hlj, hljsub⟩ :=
                childIndicesF_sub_enum hlIc j (hlIcperm.symm.subset hjs)
              obtain ⟨f1, hf1⟩ : ∃ f1, (interiorIndicesOf ds).length = f1 := ⟨_, rfl⟩
              refine partOkAt_frame ?_ ?_ ?_ hlj
                (fun k hk => hagree5 k (hljsub hk)) (i5parts j hjs)
              · rw [hlen5]
                omega
              · rw [hlenq, hlen5]
              · rw [hdataq, hdata5]
            · obtain ⟨lj, hlj, hljsub⟩ :=
                childIndicesF_sub_enum hlEc j (hlEcperm.symm.subset hjs)
              refine partOkAt_frame ?_ ?_ ?_ hlj
                (fun k hk => hagree6 k (hljsub hk)) (i6parts j hjs)
              · rw [hlen6]
                omega
              · rw [hlenq, hlen6]
              · rw [hdataq, hdata6]
        exact ⟨hrootq, hdataq, hlenq, hframeq, hcenq,
          ⟨lIc ++ lEc ++ [root], hsubtree, hpermFinal⟩, hheights, hparts⟩

/-! ### Claim C2 -/

/-- Claim C2 (code bug): the strict partition invariant — interior elements
strictly closer than the radius — is asserted by the code's own
`check_validity_node`, but `bulk_insert` violates it whenever the sorted
distance list has a tie straddling the half-way split.  Concretely, for the
points `0, 1, -1` under the (genuine) metric `qdist`, the built tree has
radius `1` at the root and the interior child `1` at distance exactly `1`,
so the code's own validity check reports failure. -/
theorem c2_bulk_insert_breaks_strict_partition :
    MetricOk qdist ∧
    bulkInsert qdist id [(0 : ℚ), 1, -1] = some tieTree ∧
    checkValidity qdist id tieTree = some false ∧
    (nodeGet tieTree 0).map (·.interior) = some (some 1) ∧
    (nodeGet tieTree 0).map (·.radius) = some 1 ∧
    centerDistOf qdist id tieTree 0 1 = some 1 :=
  ⟨qdist_metricOk, of_decide_eq_true (by with_unfolding_all rfl),
   of_decide_eq_true (by with_unfolding_all rfl),
   of_decide_eq_true (by with_unfolding_all rfl),
   of_decide_eq_true (by with_unfolding_all rfl),
   of_decide_eq_true (by with_unfolding_all rfl)⟩

/-! ### Claim C3 -/

/-- Claim C3 (code bug): `remove` of a location with no exact match executes
`to_remove.unwrap()` on `None` and panics (`none` in the model) — it never
returns the absent result the specification requires.  This happens both on
the empty tree and on a nonempty tree queried at an absent location. -/
theorem c3_remove_absent_location_panics :
    remove qdist id (vpNew : VpAvl ℚ) 0 = none ∧
    insert qdist id (vpNew : VpAvl ℚ) 5 = some oneTree ∧
    remove qdist id oneTree 7 = none :=
  ⟨by decide, of_decide_eq_true (by with_unfolding_all rfl),
   of_decide_eq_true (by with_unfolding_all rfl)⟩

/-! ### Claim C4 -/

/-- Claim C4 (code bug): `bulk_insert` applied to an empty batch panics with
an index-out-of-bounds (`self.nodes[root].height = 0` with an empty node
arena) instead of returning a valid empty tree, for every metric and every
element type. -/
theorem c4_bulk_insert_empty_batch_panics {Point Loc : Type}
    (dist : Loc → Loc → ℚ) (loc : Point → Loc) :
    bulkInsert dist loc ([] : List Point) = none :=
  rfl

/-! ### Claim C6 -/

/-- Counterexample to claim C6: inserting `0`, then `8`, then `12` (1-D
Euclidean) produces the pure exterior chain `chainTree`.  At the root — a
node on the insertion path — the interior child is missing and the exterior
subtree has height `1`, so the claim's trigger (missing child counted as
height `-1`, difference `|-1 - 1| = 2 > 1`) demands a rebuild; the code
leaves the subtree unchanged (its trigger counts a missing child as `0`),
and a bulk rebuild at the root would produce a different subtree. -/
theorem c6_counterexample_missing_child_trigger :
    ((insert qdist id (vpNew : VpAvl ℚ) 0).bind fun t => insert qdist id t 8).bind
        (fun t => insert qdist id t 12) = some chainTree ∧
    specTriggerI3 chainTree 0 = some true ∧
    (nodeGet chainTree 0).map (·.interior) = some none ∧
    rebalanceRebuild qdist id chainTree 0 ≠ some chainTree :=
  ⟨of_decide_eq_true (by with_unfolding_all rfl),
   of_decide_eq_true (by with_unfolding_all rfl),
   of_decide_eq_true (by with_unfolding_all rfl),
   of_decide_eq_true (by with_unfolding_all rfl)⟩

/-- Claim C6 as amended: at each node the insertion path's rebalance step
visits, letting a *missing child count as height `0`* (the code's
convention, not the claim's `-1`): if the two child heights differ by more
than `1` the whole subtree is flattened and rebuilt from scratch via the
bulk partition algorithm, and otherwise the tree is left unchanged. -/
theorem c6_rebalance_missing_child_counts_zero {Point Loc : Type}
    (dist : Loc → Loc → ℚ) (loc : Point → Loc) (t : VpAvl Point) (root : Nat)
    {n : Node} (hn : nodeGet t root = some n)
    {hi : Nat} (hhi : codeChildHeight t n.interior = some hi)
    {he : Nat} (hhe : codeChildHeight t n.exterior = some he) :
    (hi ≤ he + 1 → he ≤ hi + 1 → rebalance dist loc t root = some t) ∧
    ((he + 1 < hi ∨ hi + 1 < he) →
      rebalance dist loc t root = rebalanceRebuild dist loc t root) := by
  have eq1 : rebalance dist loc t root =
      (codeChildHeight t n.interior).bind fun ih =>
        (codeChildHeight t n.exterior).bind fun eh =>
          if eh + 1 < ih then rebalanceRebuild dist loc t root
          else if ih + 1 < eh then rebalanceRebuild dist loc t root
          else some t := by
    unfold rebalance
    rw [hn]
    simp only [Option.bind_eq_bind, Option.some_bind]
    rfl
  rw [eq1, hhi, hhe]
  constructor
  · intro h1 h2
    simp only [Option.some_bind]
    rw [if_neg (by omega), if_neg (by omega)]
  · intro h1
    simp only [Option.some_bind]
    rcases h1 with h1 | h1
    · rw [if_pos h1]
    · by_cases h2 : he + 1 < hi
      · rw [if_pos h2]
      · rw [if_neg h2, if_pos h1]

/-- Witness for the amended C6 at a concrete input: at `chainTree`'s root
the code-convention heights are `0` (missing interior) and `1`, within the
threshold, so `rebalance` leaves the tree unchanged. -/
theorem c6_rebalance_missing_child_counts_zero_witness :
    nodeGet chainTree 0 = some ⟨2, 0, 4, none, none, some 1⟩ ∧
    codeChildHeight chainTree none = some 0 ∧
    codeChildHeight chainTree (some 1) = some 1 ∧
    rebalance qdist id chainTree 0 = some chainTree :=
  ⟨rfl, rfl, rfl,
   (c6_rebalance_missing_child_counts_zero qdist id chainTree 0 rfl rfl rfl).1
     (by decide) (by decide)⟩

/-! ### Claim C8 -/

/-- Counterexample to claim C8: `bulk_insert` of the two points `0, 8`
reaches the single-index base case with the root's prior radius `0` (a
fresh leaf).  The claim says the radius becomes the pairwise distance
clamped into `[0/2, 0]`, i.e. `0`; the code stores the raw distance `8`
with no clamp. -/
theorem c8_counterexample_radius_not_clamped :
    bulkInsert qdist id [(0 : ℚ), 8] = some pairTree ∧
    (nodeGet pairTree 0).map (·.radius) = some 8 ∧
    fclamp (qdist 0 8) (0 / 2) 0 = 0 ∧
    (8 : ℚ) ≠ 0 :=
  ⟨of_decide_eq_true (by with_unfolding_all rfl),
   of_decide_eq_true (by with_unfolding_all rfl),
   of_decide_eq_true (by with_unfolding_all rfl),
   of_decide_eq_true (by with_unfolding_all rfl)⟩

/-- Claim C8 as amended: in the bulk-build base case with exactly one
remaining index, that element becomes the sole (exterior) child of the
current root, built as a leaf, and the root's radius is set to the *raw*
pairwise distance between the root's center and that child — no clamping
is applied. -/
theorem c8_single_index_sole_exterior_child_raw_radius {Point Loc : Type}
    (dist : Loc → Loc → ℚ) (loc : Point → Loc) (fuel : Nat) (t t2 : VpAvl Point)
    (root e : Nat) (hne : root ≠ e)
    {pr pe : Point} (hpr : nodeIndexData t root = some pr)
    (hpe : nodeIndexData t e = some pe)
    (h : bulkBuildF dist loc (fuel + 2) t root [e] = some t2) :
    (nodeGet t2 root).map (fun n => (n.interior, n.exterior, n.radius, n.height)) =
      some (none, some e, dist (loc pr) (loc pe), 1) ∧
    (nodeGet t2 e).map (fun n => (n.interior, n.exterior, n.height)) =
      some (none, none, 0) := by
  have hunfold : bulkBuildF dist loc (fuel + 2) t root [e] = (do
      let p1 ← nodeIndexData t root
      let p2 ← nodeIndexData t e
      let t1 ← setNode t root fun n =>
        { n with exterior := some e, radius := dist (loc p1) (loc p2),
                 height := 1, interior := none }
      let tp ← setNode t1 e fun n => { n with parent := some root }
      setNode tp e fun n =>
        { n with height := 0, interior := none, exterior := none }) := rfl
  rw [hunfold, hpr, hpe] at h
  simp only [Option.bind_eq_bind, Option.some_bind] at h
  obtain ⟨t1, ht1, h⟩ := Option.bind_eq_some.1 h
  obtain ⟨tp, htp, h⟩ := Option.bind_eq_some.1 h
  obtain ⟨n0, hn0, -⟩ := setNode_eq_some ht1
  have hT1root : nodeGet t1 root =
      some { n0 with
              exterior := some e, radius := dist (loc pr) (loc pe),
              height := 1, interior := none } := by
    rw [nodeGet_setNode_self ht1, hn0]; rfl
  obtain ⟨n1, hn1, -⟩ := setNode_eq_some htp
  have hTpe : nodeGet tp e = some { n1 with parent := some root } := by
    rw [nodeGet_setNode_self htp, hn1]; rfl
  have hTproot : nodeGet tp root =
      some { n0 with
              exterior := some e, radius := dist (loc pr) (loc pe),
              height := 1, interior := none } := by
    rw [nodeGet_setNode_other htp (Ne.symm hne), hT1root]
  refine ⟨?_, ?_⟩
  · rw [nodeGet_setNode_other h (Ne.symm hne), hTproot]; rfl
  · rw [nodeGet_setNode_self h, hTpe]; rfl

/-- Witness for the amended C8 at a concrete input: building the batch
`[0, 8]`, the single-index case stores the raw distance `qdist 0 8 = 8`
and makes index `1` the sole exterior leaf. -/
theorem c8_single_index_sole_exterior_child_raw_radius_witness :
    (0 : Nat) ≠ 1 ∧
    nodeIndexData pairStart 0 = some 0 ∧
    nodeIndexData pairStart 1 = some 8 ∧
    bulkBuildF qdist id 3 pairStart 0 [1] = some pairTree ∧
    (nodeGet pairTree 0).map (fun n => (n.interior, n.exterior, n.radius, n.height)) =
      some (none, some 1, qdist 0 8, 1) ∧
    (nodeGet pairTree 1).map (fun n => (n.interior, n.exterior, n.height)) =
      some (none, none, 0) :=
  have h : bulkBuildF qdist id 3 pairStart 0 [1] = some pairTree :=
    of_decide_eq_true (by with_unfolding_all rfl)
  ⟨by decide, rfl, rfl, h,
   (c8_single_index_sole_exterior_child_raw_radius qdist id 1 pairStart pairTree 0 1
     (by decide) rfl rfl h).1,
   (c8_single_index_sole_exterior_child_raw_radius qdist id 1 pairStart pairTree 0 1
     (by decide) rfl rfl h).2⟩

/-! ### Claim C7 -/

/-- Claim C7 (confirmed): in the bulk build recursion, whenever at least two
indices remain (on a duplicate-free index set, as in every reachable call),
the computed distance pairs are sorted ascending by distance to the current
root's center location, the interior side receives exactly the lower
`⌈n/2⌉` of them and the exterior side exactly the rest, and the root's
radius is set to the smallest distance occurring in the exterior half. -/
theorem c7_bulk_split_sorted_halves {Point Loc : Type} (dist : Loc → Loc → ℚ)
    (loc : Point → Loc) {fuel : Nat} {t t2 : VpAvl Point} {root i1 i2 : Nat}
    {irest : List Nat}
    (h : bulkBuildF dist loc fuel t root (i1 :: i2 :: irest) = some t2)
    (hnd : (root :: i1 :: i2 :: irest).Nodup) :
    ∃ pr ds,
      nodeIndexData t root = some pr ∧
      distancesLoop dist loc t pr (i1 :: i2 :: irest) = some ds ∧
      ds.map Prod.fst = i1 :: i2 :: irest ∧
      (∀ q ∈ ds, ∃ p, nodeIndexData t q.1 = some p ∧
        q.2 = dist (loc pr) (loc p)) ∧
      List.Sorted (fun a b : Nat × ℚ => a.2 ≤ b.2) (sortedDists ds) ∧
      (sortedDists ds).Perm ds ∧
      interiorPartOf ds ++ exteriorPartOf ds = sortedDists ds ∧
      (interiorPartOf ds).length = ((i1 :: i2 :: irest).length + 1) / 2 ∧
      ∃ n2, nodeGet t2 root = some n2 ∧
        minExtOf ds = some n2.radius ∧
        (∀ q ∈ exteriorPartOf ds, n2.radius ≤ q.2) ∧
        (∃ q ∈ exteriorPartOf ds, q.2 = n2.radius) ∧
        ∃ ic ec lI lE,
          n2.interior = some ic ∧ n2.exterior = some ec ∧
          childIndicesF (i1 :: i2 :: irest).length t2 ic = some lI ∧
          childIndicesF (i1 :: i2 :: irest).length t2 ec = some lE ∧
          lI.Perm ((interiorPartOf ds).map Prod.fst) ∧
          lE.Perm ((exteriorPartOf ds).map Prod.fst) := by
  cases fuel with
  | zero => exact absurd h (by simp [bulkBuildF])
  | succ fuel =>
    replace h : ((nodeIndexData t root).bind fun pr =>
        (distancesLoop dist loc t pr (i1 :: i2 :: irest)).bind fun ds =>
        (minExtOf ds).bind fun mE =>
        (setNode t root fun n => { n with radius := mE }).bind fun t1 =>
        (setNode t1 root fun n =>
          { n with interior := interiorCenterOf ds,
                   exterior := exteriorCenterOf ds }).bind fun t2a =>
        (setParentOpt t2a (interiorCenterOf ds) root).bind fun t3 =>
        (setParentOpt t3 (exteriorCenterOf ds) root).bind fun t4 =>
        (buildChildOpt (bulkBuildF dist loc fuel) t4 (interiorCenterOf ds)
          (interiorIndicesOf ds) 0).bind fun p5 =>
        (buildChildOpt (bulkBuildF dist loc fuel) p5.2 (exteriorCenterOf ds)
          (exteriorIndicesOf ds) p5.1).bind fun p6 =>
        setNode p6.2 root fun n => { n with height := p6.1 + 1 }) = some t2 := h
    obtain ⟨pr, hpr, h⟩ := Option.bind_eq_some.1 h
    obtain ⟨ds, hds, h⟩ := Option.bind_eq_some.1 h
    obtain ⟨mE, hmE, h⟩ := Option.bind_eq_some.1 h
    obtain ⟨t1, ht1, h⟩ := Option.bind_eq_some.1 h
    obtain ⟨t2a, ht2a, h⟩ := Option.bind_eq_some.1 h
    obtain ⟨t3, ht3, h⟩ := Option.bind_eq_some.1 h
    obtain ⟨t4, ht4, h⟩ := Option.bind_eq_some.1 h
    obtain ⟨p5, hp5, h⟩ := Option.bind_eq_some.1 h
    obtain ⟨p6, hp6, h⟩ := Option.bind_eq_some.1 h
    obtain ⟨hfst, hdsmem⟩ := distancesLoop_spec hds
    have hdslen : ds.length = (i1 :: i2 :: irest).length := by
      rw [← hfst]; simp
    have hds2 : 2 ≤ ds.length := by
      rw [hdslen]
      simp only [List.length_cons]
      omega
    have hIne : (interiorPartOf ds).map (·.1) ≠ [] := by
      intro hcon
      exact interiorPartOf_ne_nil hds2 (List.map_eq_nil.1 hcon)
    have hEne : (exteriorPartOf ds).map (·.1) ≠ [] := by
      intro hcon
      exact exteriorPartOf_ne_nil hds2 (List.map_eq_nil.1 hcon)
    obtain ⟨ic, hic⟩ : ∃ x, interiorCenterOf ds = some x :=
      ⟨_, List.getLast?_eq_getLast_of_ne_nil hIne⟩
    obtain ⟨ec, hec⟩ : ∃ x, exteriorCenterOf ds = some x :=
      ⟨_, List.getLast?_eq_getLast_of_ne_nil hEne⟩
    obtain ⟨ic2, hic2, ht3s⟩ : ∃ x, interiorCenterOf ds = some x ∧
        setNode t2a x (fun n => { n with parent := some root }) = some t3 := by
      rcases setParentOpt_cases ht3 with ⟨hcn, -⟩ | hgood
      · rw [hic] at hcn; cases hcn
      · exact hgood
    rw [hic] at hic2
    have hicic : ic = ic2 := Option.some_inj.1 hic2
    subst ic2
    obtain ⟨ec2, hec2, ht4s⟩ : ∃ x, exteriorCenterOf ds = some x ∧
        setNode t3 x (fun n => { n with parent := some root }) = some t4 := by
      rcases setParentOpt_cases ht4 with ⟨hcn, -⟩ | hgood
      · rw [hec] at hcn; cases hcn
      · exact hgood
    rw [hec] at hec2
    have hecec : ec = ec2 := Option.some_inj.1 hec2
    subst ec2
    obtain ⟨ic3, t5, mIc, hic3, hrec5, hmIc, hp5eq⟩ :
        ∃ x t5 m, interiorCenterOf ds = some x ∧
          bulkBuildF dist loc fuel t4 x (interiorIndicesOf ds) = some t5 ∧
          nodeGet t5 x = some m ∧ p5 = (max 0 m.height, t5) := by
      rcases buildChildOpt_cases hp5 with ⟨hcn, -⟩ | hgood
      · rw [hic] at hcn; cases hcn
      · exact hgood
    rw [hic] at hic3
    have hicic3 : ic = ic3 := Option.some_inj.1 hic3
    subst ic3
    have hp51 : p5.1 = max 0 mIc.height := by rw [hp5eq]
    have hp52 : p5.2 = t5 := by rw [hp5eq]
    rw [hp51, hp52] at hp6
    obtain ⟨ec3, t6, mEc, hec3, hrec6, hmEc, hp6eq⟩ :
        ∃ x t6 m, exteriorCenterOf ds = some x ∧
          bulkBuildF dist loc fuel t5 x (exteriorIndicesOf ds) = some t6 ∧
          nodeGet t6 x = some m ∧ p6 = (max (max 0 mIc.height) m.height, t6) := by
      rcases buildChildOpt_cases hp6 with ⟨hcn, -⟩ | hgood
      · rw [hec] at hcn; cases hcn
      · exact hgood
    rw [hec] at hec3
    have hecec3 : ec = ec3 := Option.some_inj.1 hec3
    subst ec3
    have hp61 : p6.1 = max (max 0 mIc.height) mEc.height := by rw [hp6eq]
    have hp62 : p6.2 = t6 := by rw [hp6eq]
    rw [hp61, hp62] at h
    have hpermI : (ic :: interiorIndicesOf ds).Perm ((interiorPartOf ds).map (·.1)) :=
      cons_perm_of_getLast? hic
    have hpermE : (ec :: exteriorIndicesOf ds).Perm ((exteriorPartOf ds).map (·.1)) :=
      cons_perm_of_getLast? hec
    have hsplit : (interiorPartOf ds).map (·.1) ++ (exteriorPartOf ds).map (·.1) =
        (sortedDists ds).map (·.1) := by
      rw [← List.map_append, interiorPart_append_exteriorPart]
    have hpermIdx : ((interiorPartOf ds).map (·.1) ++
        (exteriorPartOf ds).map (·.1)).Perm (i1 :: i2 :: irest) := by
      rw [hsplit, ← hfst]
      exact (sortedDists_perm ds).map _
    have hNodupIdx : (i1 :: i2 :: irest).Nodup := hnd.of_cons
    have hrootNotMem : root ∉ (i1 :: i2 :: irest) := (List.nodup_cons.1 hnd).1
    have hNodupIE : ((interiorPartOf ds).map (·.1) ++
        (exteriorPartOf ds).map (·.1)).Nodup := hpermIdx.symm.nodup hNodupIdx
    obtain ⟨hNodupIML, hNodupEML, hdisj⟩ := List.nodup_append.1 hNodupIE
    have hNodI : (ic :: interiorIndicesOf ds).Nodup := hpermI.symm.nodup hNodupIML
    have hNodE : (ec :: exteriorIndicesOf ds).Nodup := hpermE.symm.nodup hNodupEML
    have hsubI : ∀ x ∈ ic :: interiorIndicesOf ds, x ∈ (i1 :: i2 :: irest) := by
      intro x hx
      exact hpermIdx.subset (List.mem_append_left _ (hpermI.subset hx))
    have hsubE : ∀ x ∈ ec :: exteriorIndicesOf ds, x ∈ (i1 :: i2 :: irest) := by
      intro x hx
      exact hpermIdx.subset (List.mem_append_right _ (hpermE.subset hx))
    have hrootI : root ∉ ic :: interiorIndicesOf ds := fun hx => hrootNotMem (hsubI root hx)
    have hrootE : root ∉ ec :: exteriorIndicesOf ds := fun hx => hrootNotMem (hsubE root hx)
    have hicne : root ≠ ic := fun e => hrootI (by simp [e])
    have hecne : root ≠ ec := fun e => hrootE (by simp [e])
    have hdisjIE : ∀ x ∈ ic :: interiorIndicesOf ds,
        x ∉ ec :: exteriorIndicesOf ds := by
      intro x hx hx2
      exact hdisj (hpermI.subset hx) (hpermE.subset hx2)
    obtain ⟨-, -, -, i5frame, -, ⟨lIc, hlIc, hlIcperm⟩, -, -⟩ :=
      bulkBuild_master dist loc hrec5 hNodI
    obtain ⟨-, -, -, i6frame, -, ⟨lEc, hlEc, hlEcperm⟩, -, -⟩ :=
      bulkBuild_master dist loc hrec6 hNodE
    obtain ⟨n0, hn0, -⟩ := setNode_eq_some ht1
    have ht1r : nodeGet t1 root = some { n0 with radius := mE } := by
      rw [nodeGet_setNode_self ht1, hn0]; rfl
    have ht2ar : nodeGet t2a root =
        some { n0 with
                radius := mE, interior := some ic, exterior := some ec } := by
      rw [nodeGet_setNode_self ht2a, ht1r, hic, hec]
      rfl
    have ht3r : nodeGet t3 root = nodeGet t2a root :=
      nodeGet_setNode_other ht3s (Ne.symm hicne)
    have ht4r : nodeGet t4 root = nodeGet t3 root :=
      nodeGet_setNode_other ht4s (Ne.symm hecne)
    have ht5r : nodeGet t5 root = nodeGet t4 root := i5frame root hrootI
    have ht6r : nodeGet t6 root = nodeGet t5 root := i6frame root hrootE
    have hfinroot : nodeGet t2 root =
        some { n0 with
                radius := mE, interior := some ic, exterior := some ec,
                height := max (max 0 mIc.height) mEc.height + 1 } := by
      rw [nodeGet_setNode_self h, ht6r, ht5r, ht4r, ht3r, ht2ar]
      rfl
    have hlIcsub : ∀ k ∈ lIc, k ∈ ic :: interiorIndicesOf ds :=
      fun k hk => hlIcperm.subset hk
    have hlEcsub : ∀ k ∈ lEc, k ∈ ec :: exteriorIndicesOf ds :=
      fun k hk => hlEcperm.subset hk
    have hagree5 : ∀ k ∈ lIc, nodeGet t2 k = nodeGet t5 k := by
      intro k hk
      have hkI := hlIcsub k hk
      have hkroot : root ≠ k := fun e => hrootI (e ▸ hkI)
      rw [nodeGet_setNode_other h hkroot, i6frame k (hdisjIE k hkI)]
    have hagree6 : ∀ k ∈ lEc, nodeGet t2 k = nodeGet t6 k := by
      intro k hk
      have hkE := hlEcsub k hk
      have hkroot : root ≠ k := fun e => hrootE (e ▸ hkE)
      rw [nodeGet_setNode_other h hkroot]
    have hlIc2 : childIndicesF ((interiorIndicesOf ds).length + 1) t2 ic = some lIc :=
      childIndicesF_frame hlIc hagree5
    have hlEc2 : childIndicesF ((exteriorIndicesOf ds).length + 1) t2 ec = some lEc :=
      childIndicesF_frame hlEc hagree6
    have hhalf : (interiorPartOf ds).length = halfOf ds := interiorPartOf_length hds2
    have hiIdxlen : (interiorIndicesOf ds).length = halfOf ds - 1 := by
      unfold interiorIndicesOf
      rw [List.length_dropLast, List.length_map, hhalf]
    have heIdxlen : (exteriorIndicesOf ds).length = ds.length - halfOf ds - 1 := by
      unfold exteriorIndicesOf
      rw [List.length_dropLast, List.length_map, exteriorPartOf_length]
    have hhalfb1 : 1 ≤ halfOf ds := halfOf_pos hds2
    have hhalfb2 : halfOf ds < ds.length := halfOf_lt hds2
    have hfI : (interiorIndicesOf ds).length + 1 ≤ (i1 :: i2 :: irest).length := by
      rw [hiIdxlen, ← hdslen]
      omega
    have hfE : (exteriorIndicesOf ds).length + 1 ≤ (i1 :: i2 :: irest).length := by
      rw [heIdxlen, ← hdslen]
      omega
    refine ⟨pr, ds, hpr, hds, hfst, hdsmem, sortedDists_sorted ds, sortedDists_perm ds,
      interiorPart_append_exteriorPart ds, ?_, ?_⟩
    · rw [interiorPartOf_length hds2]
      unfold halfOf
      rw [hdslen]
      simp only [List.length_cons]
      omega
    · refine ⟨_, hfinroot, ?_, ?_, ?_, ic, ec, lIc, lEc, rfl, rfl, ?_, ?_, ?_, ?_⟩
      · exact hmE
      · intro q hq
        exact minExt_le_exteriorPart hmE hq
      · obtain ⟨b, tail, he, hbe⟩ := minExtOf_cases hmE
        refine ⟨b, ?_, hbe.symm⟩
        rw [he]
        exact List.mem_cons_self b tail
      · exact childIndicesF_mono hlIc2 hfI
      · exact childIndicesF_mono hlEc2 hfE
      · exact hlIcperm.trans hpermI
      · exact hlEcperm.trans hpermE

/-- Witness for claim C7: the concrete bulk build of `[0, 1, -1]` under the
1-D Euclidean metric, whose recursion top call has the two indices
`[1, 2]`. -/
theorem c7_bulk_split_sorted_halves_witness :
    ∃ pr ds,
      nodeIndexData tieStart 0 = some pr ∧
      distancesLoop qdist id tieStart pr (1 :: 2 :: []) = some ds ∧
      ds.map Prod.fst = 1 :: 2 :: [] ∧
      (∀ q ∈ ds, ∃ p, nodeIndexData tieStart q.1 = some p ∧
        q.2 = qdist (id pr) (id p)) ∧
      List.Sorted (fun a b : Nat × ℚ => a.2 ≤ b.2) (sortedDists ds) ∧
      (sortedDists ds).Perm ds ∧
      interiorPartOf ds ++ exteriorPartOf ds = sortedDists ds ∧
      (interiorPartOf ds).length = ((1 :: 2 :: []).length + 1) / 2 ∧
      ∃ n2, nodeGet tieTree 0 = some n2 ∧
        minExtOf ds = some n2.radius ∧
        (∀ q ∈ exteriorPartOf ds, n2.radius ≤ q.2) ∧
        (∃ q ∈ exteriorPartOf ds, q.2 = n2.radius) ∧
        ∃ ic ec lI lE,
          n2.interior = some ic ∧ n2.exterior = some ec ∧
          childIndicesF (1 :: 2 :: []).length tieTree ic = some lI ∧
          childIndicesF (1 :: 2 :: []).length tieTree ec = some lE ∧
          lI.Perm ((interiorPartOf ds).map Prod.fst) ∧
          lE.Perm ((exteriorPartOf ds).map Prod.fst) :=
  c7_bulk_split_sorted_halves qdist id
    (show bulkBuildF qdist id 4 tieStart 0 (1 :: 2 :: []) = some tieTree from
      of_decide_eq_true (by with_unfolding_all rfl))
    (by decide)

/-! ### Heap-model and alignment lemmas for the iterator -/

theorem heapPopMin_eq_none {l : List (Nat × ℚ)} : heapPopMin l = none ↔ l = [] := by
  cases l with
  | nil => simp [heapPopMin]
  | cons x xs =>
    simp only [heapPopMin]
    cases hxs : heapPopMin xs with
    | none => simp
    | some pr =>
      obtain ⟨m, rest⟩ := pr
      by_cases hle : x.2 ≤ m.2 <;> simp [hle]

theorem heapPopMin_spec :
    ∀ {l : List (Nat × ℚ)} {m : Nat × ℚ} {rest : List (Nat × ℚ)},
      heapPopMin l = some (m, rest) →
      (m :: rest).Perm l ∧ ∀ x ∈ l, m.2 ≤ x.2 := by
  intro l
  induction l with
  | nil => intro m rest h; exact absurd h (by simp [heapPopMin])
  | cons x xs ih =>
    intro m rest h
    rw [heapPopMin] at h
    cases hxs : heapPopMin xs with
    | none =>
      rw [hxs] at h
      have h2 : (x, ([] : List (Nat × ℚ))) = (m, rest) := Option.some_inj.1 h
      injection h2 with hA hB
      subst hA
      subst hB
      have hxsnil : xs = [] := heapPopMin_eq_none.1 hxs
      subst hxsnil
      refine ⟨List.Perm.refl _, ?_⟩
      intro y hy
      rcases List.mem_singleton.1 hy with rfl
      exact le_refl _
    | some pr =>
      obtain ⟨m1, r1⟩ := pr
      rw [hxs] at h
      obtain ⟨hperm1, hmin1⟩ := ih hxs
      replace h : (if x.2 ≤ m1.2 then some (x, xs) else some (m1, x :: r1)) =
        some (m, rest) := h
      by_cases hle : x.2 ≤ m1.2
      · rw [if_pos hle] at h
        have h2 : (x, xs) = (m, rest) := Option.some_inj.1 h
        injection h2 with hA hB
        subst hA
        subst hB
        refine ⟨List.Perm.refl _, ?_⟩
        intro y hy
        rcases List.mem_cons.1 hy with rfl | hy
        · exact le_refl _
        · exact le_trans hle (hmin1 y hy)
      · rw [if_neg hle] at h
        have h2 : (m1, x :: r1) = (m, rest) := Option.some_inj.1 h
        injection h2 with hA hB
        subst hA
        subst hB
        refine ⟨(List.Perm.swap x m1 r1).trans (hperm1.cons x), ?_⟩
        intro y hy
        rcases List.mem_cons.1 hy with rfl | hy
        · exact le_of_not_le hle
        · exact hmin1 y hy

theorem heapPeekMin_eq_some {l : List (Nat × ℚ)} {m : Nat × ℚ}
    (h : heapPeekMin l = some m) : ∃ rest, heapPopMin l = some (m, rest) := by
  unfold heapPeekMin at h
  cases hl : heapPopMin l with
  | none => rw [hl] at h; cases h
  | some pr =>
    obtain ⟨m1, rest⟩ := pr
    rw [hl] at h
    have hm : m1 = m := by simpa using h
    subst hm
    exact ⟨rest, rfl⟩

theorem forall2_mem_right {α β : Type} {R : α → β → Prop} :
    ∀ {as : List α} {bs : List β}, List.Forall₂ R as bs →
      ∀ b ∈ bs, ∃ a ∈ as, R a b := by
  intro as
  induction as with
  | nil => intro bs h b hb; cases h; cases hb
  | cons a as ih =>
    intro bs h b hb
    cases h with
    | cons hR hF =>
      rcases List.mem_cons.1 hb with rfl | hb
      · exact ⟨a, by simp, hR⟩
      · obtain ⟨a2, ha2, hR2⟩ := ih hF b hb
        exact ⟨a2, by simp [ha2], hR2⟩

theorem forall2_popMin {Q : (Nat × ℚ) → List Nat → Prop} :
    ∀ {P : List (Nat × ℚ)} {ls : List (List Nat)} {m : Nat × ℚ}
      {rest : List (Nat × ℚ)},
      heapPopMin P = some (m, rest) → List.Forall₂ Q P ls →
      ∃ lm ls2, Q m lm ∧ List.Forall₂ Q rest ls2 ∧
        ls.join.Perm (lm ++ ls2.join) := by
  intro P
  induction P with
  | nil => intro ls m rest h hF; exact absurd h (by simp [heapPopMin])
  | cons x xs ih =>
    intro ls m rest h hF
    cases hF with
    | cons hQx hFxs =>
      rename_i lx lxs
      rw [heapPopMin] at h
      cases hxs : heapPopMin xs with
      | none =>
        rw [hxs] at h
        have h2 : (x, ([] : List (Nat × ℚ))) = (m, rest) := Option.some_inj.1 h
        injection h2 with hA hB
        subst hA
        subst hB
        have hxsnil : xs = [] := heapPopMin_eq_none.1 hxs
        subst hxsnil
        have hlxs : lxs = [] := by cases hFxs; rfl
        subst hlxs
        exact ⟨lx, [], hQx, List.Forall₂.nil, by simp⟩
      | some pr =>
        obtain ⟨m1, r1⟩ := pr
        rw [hxs] at h
        replace h : (if x.2 ≤ m1.2 then some (x, xs) else some (m1, x :: r1)) =
          some (m, rest) := h
        by_cases hle : x.2 ≤ m1.2
        · rw [if_pos hle] at h
          have h2 : (x, xs) = (m, rest) := Option.some_inj.1 h
          injection h2 with hA hB
          subst hA
          subst hB
          exact ⟨lx, lxs, hQx, hFxs, by simp⟩
        · rw [if_neg hle] at h
          have h2 : (m1, x :: r1) = (m, rest) := Option.some_inj.1 h
          injection h2 with hA hB
          subst hA
          subst hB
          obtain ⟨lm, ls2, hQm, hF2, hperm⟩ := ih hxs hFxs
          refine ⟨lm, lx :: ls2, hQm, List.Forall₂.cons hQx hF2, ?_⟩
          have h3 : (lx :: lxs).join = lx ++ lxs.join := by simp
          have h5 : (lx :: ls2).join = lx ++ ls2.join := by simp
          rw [h3, h5]
          refine (List.Perm.append_left lx hperm).trans ?_
          rw [← List.append_assoc, ← List.append_assoc]
          exact List.perm_append_comm.append_right _

theorem get?_mem_enum {α : Type} {l : List α} {i : Nat} {a : α}
    (h : l.get? i = some a) : (i, a) ∈ l.enum :=
  List.mem_enum_iff_get?.2 h

theorem nodeGet_lt_length {Point : Type} {t : VpAvl Point} {i : Nat} {n : Node}
    (h : nodeGet t i = some n) : i < t.nodes.length := by
  by_contra hbig
  rw [nodeGet, List.get?_eq_none.2 (Nat.le_of_not_lt hbig)] at h
  exact Option.noConfusion h

theorem center_eq_of_nodeGet {Point : Type} {t : VpAvl Point}
    (hcent : ∀ p ∈ t.nodes.enum, p.2.center = p.1) {i : Nat} {n : Node}
    (h : nodeGet t i = some n) : n.center = i :=
  hcent (i, n) (get?_mem_enum h)

theorem nodeIndexData_of_center {Point : Type} {t : VpAvl Point}
    (hdata : t.nodes.length = t.data.length)
    (hcent : ∀ p ∈ t.nodes.enum, p.2.center = p.1) {i : Nat} {n : Node}
    (hn : nodeGet t i = some n) :
    ∃ p, t.data.get? i = some p ∧ nodeIndexData t i = some p := by
  have hc : n.center = i := center_eq_of_nodeGet hcent hn
  have hi : i < t.data.length := hdata ▸ nodeGet_lt_length hn
  cases hp : t.data.get? i with
  | none =>
    have := List.get?_eq_none.1 hp
    omega
  | some p =>
    refine ⟨p, rfl, ?_⟩
    show (nodeGet t i).bind (fun n => t.data.get? n.center) = some p
    rw [hn, Option.some_bind, hc, hp]

theorem knnStep_drain_done {Point Loc : Type} {dist : Loc → Loc → ℚ}
    {loc : Point → Loc} {t : VpAvl Point} {q : Loc} {st : KnnState}
    (h1 : heapPopMin st.prospects = none) (h2 : heapPopMin st.yieldQueue = none) :
    knnStep dist loc t q st = .done := by
  unfold knnStep
  rw [h1, h2]

theorem knnStep_drain_yield {Point Loc : Type} {dist : Loc → Loc → ℚ}
    {loc : Point → Loc} {t : VpAvl Point} {q : Loc} {st : KnnState}
    {p : Nat × ℚ} {rest : List (Nat × ℚ)}
    (h1 : heapPopMin st.prospects = none)
    (h2 : heapPopMin st.yieldQueue = some (p, rest)) :
    knnStep dist loc t q st =
      .yield (p.1, p.2) { prospects := st.prospects, yieldQueue := rest } := by
  unfold knnStep
  rw [h1, h2]

theorem knnStep_main_eq {Point Loc : Type} {dist : Loc → Loc → ℚ}
    {loc : Point → Loc} {t : VpAvl Point} {q : Loc} {st : KnnState}
    {top : Nat × ℚ} {P1 : List (Nat × ℚ)} {nd : Node} {cp : Point}
    (hpop : heapPopMin st.prospects = some (top, P1))
    (hnd : nodeGet t top.1 = some nd)
    (hcp : t.data.get? nd.center = some cp) :
    knnStep dist loc t q st = mainStep dist loc q top P1 st.yieldQueue nd cp := by
  unfold knnStep
  rw [hpop]
  show (match nodeGet t top.1 with
    | none => StepRes.panic
    | some nd =>
      match t.data.get? nd.center with
      | none => StepRes.panic
      | some cp => mainStep dist loc q top P1 st.yieldQueue nd cp) =
    mainStep dist loc q top P1 st.yieldQueue nd cp
  rw [hnd]
  show (match t.data.get? nd.center with
    | none => StepRes.panic
    | some cp => mainStep dist loc q top P1 st.yieldQueue nd cp) =
    mainStep dist loc q top P1 st.yieldQueue nd cp
  rw [hcp]

theorem knnStepElem_drain_done {Point Loc : Type} {dist : Loc → Loc → ℚ}
    {loc : Point → Loc} {t : VpAvl Point} {q : Loc} {st : KnnState}
    (h1 : heapPopMin st.prospects = none) (h2 : heapPopMin st.yieldQueue = none) :
    knnStepElem dist loc t q st = .done := by
  unfold knnStepElem
  rw [h1, h2]

theorem knnStepElem_drain_yield {Point Loc : Type} {dist : Loc → Loc → ℚ}
    {loc : Point → Loc} {t : VpAvl Point} {q : Loc} {st : KnnState}
    {p : Nat × ℚ} {rest : List (Nat × ℚ)}
    (h1 : heapPopMin st.prospects = none)
    (h2 : heapPopMin st.yieldQueue = some (p, rest)) :
    knnStepElem dist loc t q st =
      .yield (p.1, p.2) { prospects := st.prospects, yieldQueue := rest } := by
  unfold knnStepElem
  rw [h1, h2]

theorem knnStepElem_main_eq {Point Loc : Type} {dist : Loc → Loc → ℚ}
    {loc : Point → Loc} {t : VpAvl Point} {q : Loc} {st : KnnState}
    {top : Nat × ℚ} {P1 : List (Nat × ℚ)} {nd : Node} {cp : Point}
    (hpop : heapPopMin st.prospects = some (top, P1))
    (hnd : nodeGet t top.1 = some nd)
    (hcp : t.data.get? nd.center = some cp) :
    knnStepElem dist loc t q st = mainStepElem dist loc t q top P1 st.yieldQueue nd cp := by
  unfold knnStepElem
  rw [hpop]
  show (match nodeGet t top.1 with
    | none => StepRes.panic
    | some nd =>
      match t.data.get? nd.center with
      | none => StepRes.panic
      | some cp => mainStepElem dist loc t q top P1 st.yieldQueue nd cp) =
    mainStepElem dist loc t q top P1 st.yieldQueue nd cp
  rw [hnd]
  show (match t.data.get? nd.center with
    | none => StepRes.panic
    | some cp => mainStepElem dist loc t q top P1 st.yieldQueue nd cp) =
    mainStepElem dist loc t q top P1 st.yieldQueue nd cp
  rw [hcp]

theorem mainStep_eq {Point Loc : Type} (dist : Loc → Loc → ℚ) (loc : Point → Loc)
    (q : Loc) (top : Nat × ℚ) (P1 Y : List (Nat × ℚ)) (nd : Node) (cp : Point) :
    mainStep dist loc q top P1 Y nd cp =
      (if gateOf (heapPush Y (top.1, dist q (loc cp)))
          (pushChild (pushChild P1 nd.interior (max (dist q (loc cp) - nd.radius) 0))
            nd.exterior (max (-(dist q (loc cp) - nd.radius)) 0)) then
        match heapPopMin (heapPush Y (top.1, dist q (loc cp))) with
        | some (yv, yqRest) => .yield (yv.1, yv.2)
            (KnnState.mk
              (pushChild (pushChild P1 nd.interior (max (dist q (loc cp) - nd.radius) 0))
                nd.exterior (max (-(dist q (loc cp) - nd.radius)) 0))
              yqRest)
        | none => .panic
      else
        .cont (KnnState.mk
          (pushChild (pushChild P1 nd.interior (max (dist q (loc cp) - nd.radius) 0))
            nd.exterior (max (-(dist q (loc cp) - nd.radius)) 0))
          (heapPush Y (top.1, dist q (loc cp))))) := rfl

theorem mainStepElem_eq {Point Loc : Type} (dist : Loc → Loc → ℚ) (loc : Point → Loc)
    (t : VpAvl Point) (q : Loc) (top : Nat × ℚ) (P1 Y : List (Nat × ℚ))
    (nd : Node) (cp : Point) :
    mainStepElem dist loc t q top P1 Y nd cp =
      (if gateOf (heapPush Y (top.1, dist q (loc cp)))
          (pushChild (pushChild P1 nd.interior (max (dist q (loc cp) - nd.radius) 0))
            nd.exterior (max (-(dist q (loc cp) - nd.radius)) 0)) then
        match heapPopMin (heapPush Y (top.1, dist q (loc cp))) with
        | some (yv, yqRest) =>
          match nodeGet t yv.1 with
          | none => .panic
          | some nv => .yield (nv.center, yv.2)
              (KnnState.mk
                (pushChild (pushChild P1 nd.interior (max (dist q (loc cp) - nd.radius) 0))
                  nd.exterior (max (-(dist q (loc cp) - nd.radius)) 0))
                yqRest)
        | none => .panic
      else
        .cont (KnnState.mk
          (pushChild (pushChild P1 nd.interior (max (dist q (loc cp) - nd.radius) 0))
            nd.exterior (max (-(dist q (loc cp) - nd.radius)) 0))
          (heapPush Y (top.1, dist q (loc cp))))) := rfl

theorem centerDistOf_cases {Point Loc : Type} {dist : Loc → Loc → ℚ}
    {loc : Point → Loc} {t : VpAvl Point} {i j : Nat} {d : ℚ}
    (h : centerDistOf dist loc t i j = some d) :
    ∃ pi pj, pointAt t i = some pi ∧ pointAt t j = some pj ∧
      d = dist (loc pi) (loc pj) := by
  replace h : ((pointAt t i).bind fun pi =>
      (pointAt t j).bind fun pj => some (dist (loc pi) (loc pj))) = some d := h
  obtain ⟨pi, hpi, h⟩ := Option.bind_eq_some.1 h
  obtain ⟨pj, hpj, h⟩ := Option.bind_eq_some.1 h
  exact ⟨pi, pj, hpi, hpj, (Option.some_inj.1 h).symm⟩

theorem partOk_int_bound {Point Loc : Type} {dist : Loc → Loc → ℚ}
    {loc : Point → Loc} {t : VpAvl Point}
    (hPart : PartOk dist loc t) {i : Nat} {nd : Node}
    (hnd : nodeGet t i = some nd) {ci : Nat} (hInt : nd.interior = some ci)
    {f : Nat} {l : List Nat} (hl : childIndicesF f t ci = some l) :
    ∀ j ∈ l, ∃ d, centerDistOf dist loc t i j = some d ∧ d ≤ nd.radius := by
  have hp := (hPart (i, nd) (get?_mem_enum hnd)).1 ci hInt
  cases hsub : subtreeOf t ci with
  | none =>
    rw [hsub] at hp
    exact (show False from hp).elim
  | some l2 =>
    rw [hsub] at hp
    have huq : l2 = l := childIndicesF_unique hsub hl
    subst huq
    intro j hj
    have h2 := hp j hj
    cases hcd : centerDistOf dist loc t i j with
    | none =>
      rw [hcd] at h2
      exact (show False from h2).elim
    | some d =>
      rw [hcd] at h2
      exact ⟨d, rfl, h2⟩

theorem partOk_ext_bound {Point Loc : Type} {dist : Loc → Loc → ℚ}
    {loc : Point → Loc} {t : VpAvl Point}
    (hPart : PartOk dist loc t) {i : Nat} {nd : Node}
    (hnd : nodeGet t i = some nd) {ce : Nat} (hExt : nd.exterior = some ce)
    {f : Nat} {l : List Nat} (hl : childIndicesF f t ce = some l) :
    ∀ j ∈ l, ∃ d, centerDistOf dist loc t i j = some d ∧ nd.radius ≤ d := by
  have hp := (hPart (i, nd) (get?_mem_enum hnd)).2 ce hExt
  cases hsub : subtreeOf t ce with
  | none =>
    rw [hsub] at hp
    exact (show False from hp).elim
  | some l2 =>
    rw [hsub] at hp
    have huq : l2 = l := childIndicesF_unique hsub hl
    subst huq
    intro j hj
    have h2 := hp j hj
    cases hcd : centerDistOf dist loc t i j with
    | none =>
      rw [hcd] at h2
      exact (show False from h2).elim
    | some d =>
      rw [hcd] at h2
      exact ⟨d, rfl, h2⟩

theorem pushChild_forall2 {Point Loc : Type} {dist : Loc → Loc → ℚ}
    {loc : Point → Loc} {t : VpAvl Point} {q : Loc} {P : List (Nat × ℚ)}
    {ls : List (List Nat)}
    (hF : List.Forall₂ (prospectOk dist loc t q) P ls)
    {c : Option Nat} {b : ℚ} {le : List Nat}
    (hsome : ∀ i, c = some i → prospectOk dist loc t q (i, b) le)
    (hnone : c = none → le = []) :
    ∃ ls2, List.Forall₂ (prospectOk dist loc t q) (pushChild P c b) ls2 ∧
      ls2.join = ls.join ++ le := by
  cases c with
  | none =>
    refine ⟨ls, hF, ?_⟩
    rw [hnone rfl]
    simp
  | some i =>
    refine ⟨ls ++ [le], ?_, ?_⟩
    · exact List.rel_append hF (List.Forall₂.cons (hsome i rfl) List.Forall₂.nil)
    · simp

theorem knnRunIdx_succ {Point Loc : Type} {dist : Loc → Loc → ℚ}
    {loc : Point → Loc} {fuel : Nat} {t : VpAvl Point} {q : Loc} {st : KnnState} :
    knnRunIdx dist loc (fuel + 1) t q st =
      match knnStep dist loc t q st with
      | .panic => none
      | .done => some []
      | .yield o st2 => (knnRunIdx dist loc fuel t q st2).map (o :: ·)
      | .cont st2 => knnRunIdx dist loc fuel t q st2 := rfl

theorem knnRunElem_succ {Point Loc : Type} {dist : Loc → Loc → ℚ}
    {loc : Point → Loc} {fuel : Nat} {t : VpAvl Point} {q : Loc} {st : KnnState} :
    knnRunElem dist loc (fuel + 1) t q st =
      match knnStepElem dist loc t q st with
      | .panic => none
      | .done => some []
      | .yield o st2 => (knnRunElem dist loc fuel t q st2).map (o :: ·)
      | .cont st2 => knnRunElem dist loc fuel t q st2 := rfl

/-- Master lemma for both best-first iterators: starting from a state whose
prospect entries carry subtree enumerations (with, conditionally on the
metric axioms and the partition property, valid lower bounds) and whose
yield queue carries true distances, both iterators run to completion within
the stated fuel, produce the same output, cover exactly the queued and
prospect-subtree nodes, record true distances, and (under the metric axioms
and the partition property) yield in non-decreasing distance order. -/
theorem knnRun_master {Point Loc : Type} (dist : Loc → Loc → ℚ) (loc : Point → Loc)
    (t : VpAvl Point) (q : Loc)
    (hdata : t.nodes.length = t.data.length)
    (hcent : ∀ p ∈ t.nodes.enum, p.2.center = p.1) :
    ∀ fuel (st : KnnState) (ls : List (List Nat)),
      List.Forall₂ (prospectOk dist loc t q) st.prospects ls →
      (∀ ye ∈ st.yieldQueue, trueDistO dist loc t q ye.1 = some ye.2) →
      2 * ls.join.length + st.yieldQueue.length + 1 ≤ fuel →
      ∃ out, knnRunIdx dist loc fuel t q st = some out ∧
        knnRunElem dist loc fuel t q st = some out ∧
        (out.map Prod.fst).Perm (st.yieldQueue.map Prod.fst ++ ls.join) ∧
        (∀ pe ∈ out, trueDistO dist loc t q pe.1 = some pe.2) ∧
        (MetricOk dist → PartOk dist loc t →
          List.Sorted (fun a b : ℚ => a ≤ b) (out.map Prod.snd)) := by
  intro fuel
  induction fuel with
  | zero =>
    intro st ls hF hY hfuel
    exact absurd hfuel (by omega)
  | succ fuel ih =>
    intro st ls hF hY hfuel
    cases hpop : heapPopMin st.prospects with
    | none =>
      have hPnil : st.prospects = [] := heapPopMin_eq_none.1 hpop
      have hlsnil : ls = [] := by
        rw [hPnil] at hF
        cases hF
        rfl
      subst hlsnil
      cases hpy : heapPopMin st.yieldQueue with
      | none =>
        have hYnil : st.yieldQueue = [] := heapPopMin_eq_none.1 hpy
        have hstep := @knnStep_drain_done Point Loc dist loc t q st hpop hpy
        have hstepE := @knnStepElem_drain_done Point Loc dist loc t q st hpop hpy
        refine ⟨[], ?_, ?_, ?_, ?_, ?_⟩
        · rw [knnRunIdx_succ, hstep]
        · rw [knnRunElem_succ, hstepE]
        · rw [hYnil]
          simp
        · intro pe hpe
          cases hpe
        · intro hM hPart
          simp
      | some pr =>
        obtain ⟨p, rest⟩ := pr
        have hstep := @knnStep_drain_yield Point Loc dist loc t q st p rest hpop hpy
        have hstepE := @knnStepElem_drain_yield Point Loc dist loc t q st p rest hpop hpy
        obtain ⟨hpermY, hminY⟩ := heapPopMin_spec hpy
        have hY2 : ∀ ye ∈ rest, trueDistO dist loc t q ye.1 = some ye.2 := by
          intro ye hye
          exact hY ye (hpermY.subset (List.mem_cons_of_mem p hye))
        have hfuel2 : 2 * ([] : List (List Nat)).join.length + rest.length + 1 ≤ fuel := by
          have hlen : (p :: rest).length = st.yieldQueue.length := hpermY.length_eq
          simp only [List.join_nil, List.length_nil] at hfuel ⊢
          simp only [List.length_cons] at hlen
          omega
        obtain ⟨out1, hrun1, hrunE1, hperm1, htd1, hsort1⟩ :=
          ih (KnnState.mk st.prospects rest) [] (by rw [hPnil]; exact List.Forall₂.nil)
            hY2 hfuel2
        refine ⟨(p.1, p.2) :: out1, ?_, ?_, ?_, ?_, ?_⟩
        · rw [knnRunIdx_succ, hstep]
          show (knnRunIdx dist loc fuel t q (KnnState.mk st.prospects rest)).map
            ((p.1, p.2) :: ·) = some ((p.1, p.2) :: out1)
          rw [hrun1]
          rfl
        · rw [knnRunElem_succ, hstepE]
          show (knnRunElem dist loc fuel t q (KnnState.mk st.prospects rest)).map
            ((p.1, p.2) :: ·) = some ((p.1, p.2) :: out1)
          rw [hrunE1]
          rfl
        · simp only [List.map_cons, List.join_nil, List.append_nil] at hperm1 ⊢
          exact (hperm1.cons p.1).trans (by simpa using hpermY.map Prod.fst)
        · intro pe hpe
          rcases List.mem_cons.1 hpe with rfl | hpe
          · exact hY p (hpermY.subset (List.mem_cons_self p rest))
          · exact htd1 pe hpe
        · intro hM hPart
          have hs1 := hsort1 hM hPart
          simp only [List.map_cons]
          refine List.sorted_cons.2 ⟨?_, hs1⟩
          intro b hb
          obtain ⟨pe, hpe, rfl⟩ := List.mem_map.1 hb
          have hpe1 : pe.1 ∈ rest.map Prod.fst := by
            have h1 : pe.1 ∈ out1.map Prod.fst := List.mem_map_of_mem _ hpe
            have h2 := hperm1.subset h1
            simpa using h2
          obtain ⟨ye, hye, hyeeq⟩ := List.mem_map.1 hpe1
          have htdye := hY2 ye hye
          rw [hyeeq] at htdye
          have htdpe := htd1 pe hpe
          have heq : pe.2 = ye.2 := Option.some_inj.1 (htdpe.symm.trans htdye)
          rw [heq]
          exact hminY ye (hpermY.subset (List.mem_cons_of_mem p hye))
    | some pr =>
      obtain ⟨top, P1⟩ := pr
      obtain ⟨lTop, ls1, hQtop, hF1, hjoin1⟩ := forall2_popMin hpop hF
      obtain ⟨⟨ftop, hftop⟩, hbtop⟩ := hQtop
      cases ftop with
      | zero => exact absurd hftop (by simp [childIndicesF])
      | succ f' =>
        obtain ⟨nd, lInt, lExt, hnd, hInt, hExt, hlTop⟩ := childIndicesF_unfold hftop
        subst hlTop
        obtain ⟨cp, hcpdata, hcpnid⟩ := nodeIndexData_of_center hdata hcent hnd
        have hcc : nd.center = top.1 := center_eq_of_nodeGet hcent hnd
        have hcp : t.data.get? nd.center = some cp := by rw [hcc]; exact hcpdata
        have hstep := @knnStep_main_eq Point Loc dist loc t q st top P1 nd cp hpop hnd hcp
        have hstepE := @knnStepElem_main_eq Point Loc dist loc t q st top P1 nd cp hpop hnd hcp
        rw [mainStep_eq] at hstep
        rw [mainStepElem_eq] at hstepE
        obtain ⟨yq, hyq⟩ : ∃ yq, heapPush st.yieldQueue (top.1, dist q (loc cp)) = yq :=
          ⟨_, rfl⟩
        obtain ⟨ps2, hps2⟩ : ∃ ps2,
            pushChild (pushChild P1 nd.interior (max (dist q (loc cp) - nd.radius) 0))
              nd.exterior (max (-(dist q (loc cp) - nd.radius)) 0) = ps2 := ⟨_, rfl⟩
        rw [hyq, hps2] at hstep hstepE
        have htdtop : trueDistO dist loc t q top.1 = some (dist q (loc cp)) := by
          unfold trueDistO
          rw [hcpnid]
          rfl
        have hYq : ∀ ye ∈ yq, trueDistO dist loc t q ye.1 = some ye.2 := by
          intro ye hye
          rw [← hyq] at hye
          replace hye : ye ∈ st.yieldQueue ++ [(top.1, dist q (loc cp))] := hye
          rcases List.mem_append.1 hye with hye | hye
          · exact hY ye hye
          · rcases List.mem_singleton.1 hye with rfl
            exact htdtop
        have hQint : ∀ i, nd.interior = some i →
            prospectOk dist loc t q (i, max (dist q (loc cp) - nd.radius) 0) lInt := by
          intro i hi
          rw [hi, childEnumOpt_some] at hInt
          refine ⟨⟨f', hInt⟩, ?_⟩
          intro hM hPart j hj
          obtain ⟨d, hcd, hdr⟩ := partOk_int_bound hPart hnd hi hInt j hj
          obtain ⟨pi, pj, hpi, hpj, hdeq⟩ := centerDistOf_cases hcd
          have hpieq : pi = cp := by
            have h2 : nodeIndexData t top.1 = some pi := hpi
            rw [hcpnid] at h2
            exact (Option.some_inj.1 h2).symm
          rw [hpieq] at hdeq
          have htdj : trueDistO dist loc t q j = some (dist q (loc pj)) := by
            unfold trueDistO
            rw [show nodeIndexData t j = some pj from hpj]
            rfl
          rw [htdj]
          show max (dist q (loc cp) - nd.radius) 0 ≤ dist q (loc pj)
          refine max_le ?_ (hM.2.1 q (loc pj))
          have htri := hM.2.2.2 q (loc pj) (loc cp)
          have hsymm : dist (loc pj) (loc cp) = dist (loc cp) (loc pj) := hM.2.2.1 _ _
          rw [hsymm, ← hdeq] at htri
          linarith
        have hQext : ∀ e, nd.exterior = some e →
            prospectOk dist loc t q (e, max (-(dist q (loc cp) - nd.radius)) 0) lExt := by
          intro e he
          rw [he, childEnumOpt_some] at hExt
          refine ⟨⟨f', hExt⟩, ?_⟩
          intro hM hPart j hj
          obtain ⟨d, hcd, hdr⟩ := partOk_ext_bound hPart hnd he hExt j hj
          obtain ⟨pi, pj, hpi, hpj, hdeq⟩ := centerDistOf_cases hcd
          have hpieq : pi = cp := by
            have h2 : nodeIndexData t top.1 = some pi := hpi
            rw [hcpnid] at h2
            exact (Option.some_inj.1 h2).symm
          rw [hpieq] at hdeq
          have htdj : trueDistO dist loc t q j = some (dist q (loc pj)) := by
            unfold trueDistO
            rw [show nodeIndexData t j = some pj from hpj]
            rfl
          rw [htdj]
          show max (-(dist q (loc cp) - nd.radius)) 0 ≤ dist q (loc pj)
          refine max_le ?_ (hM.2.1 q (loc pj))
          have htri := hM.2.2.2 (loc cp) q (loc pj)
          have hsymm : dist (loc cp) q = dist q (loc cp) := hM.2.2.1 _ _
          rw [hsymm, ← hdeq] at htri
          linarith
        have hIntNil : nd.interior = none → lInt = [] := by
          intro hi
          rw [hi] at hInt
          have h2 : (some [] : Option (List Nat)) = some lInt := hInt
          exact (Option.some_inj.1 h2).symm
        have hExtNil : nd.exterior = none → lExt = [] := by
          intro he
          rw [he] at hExt
          have h2 : (some [] : Option (List Nat)) = some lExt := hExt
          exact (Option.some_inj.1 h2).symm
        obtain ⟨lsA, hFA, hjoinA⟩ := pushChild_forall2 hF1 hQint hIntNil
        obtain ⟨ls2, hF2, hjoin2⟩ := pushChild_forall2 hFA hQext hExtNil
        rw [hps2] at hF2
        have hjoinls : ls.join.Perm (lInt ++ lExt ++ [top.1] ++ ls1.join) := by
          simpa using hjoin1
        have hlen2 : ls2.join.length + 1 = ls.join.length := by
          have h1 := hjoinls.length_eq
          rw [hjoin2, hjoinA]
          simp only [List.length_append, List.length_cons, List.length_nil] at h1 ⊢
          omega
        have hyqm : yq.map Prod.fst = st.yieldQueue.map Prod.fst ++ [top.1] := by
          rw [← hyq]
          simp [heapPush]
        have hyql : yq.length = st.yieldQueue.length + 1 := by
          rw [← hyq]
          simp [heapPush]
        have hcover : (yq.map Prod.fst ++ ls2.join).Perm
            (st.yieldQueue.map Prod.fst ++ ls.join) := by
          rw [hyqm, hjoin2, hjoinA]
          refine List.Perm.trans ?_ (List.Perm.append_left (st.yieldQueue.map Prod.fst)
            hjoinls.symm)
          refine Multiset.coe_eq_coe.mp ?_
          simp only [← Multiset.coe_add]
          abel
        cases hg : gateOf yq ps2 with
        | false =>
          have hstep2 : knnStep dist loc t q st = .cont (KnnState.mk ps2 yq) := by
            rw [hstep, hg]
            rfl
          have hstepE2 : knnStepElem dist loc t q st = .cont (KnnState.mk ps2 yq) := by
            rw [hstepE, hg]
            rfl
          have hfl2 : 2 * ls2.join.length + yq.length + 1 ≤ fuel := by
            rw [hyql]
            omega
          obtain ⟨out1, hrun1, hrunE1, hperm1, htd1, hsort1⟩ :=
            ih (KnnState.mk ps2 yq) ls2 hF2 hYq hfl2
          refine ⟨out1, ?_, ?_, ?_, htd1, hsort1⟩
          · rw [knnRunIdx_succ, hstep2]
            exact hrun1
          · rw [knnRunElem_succ, hstepE2]
            exact hrunE1
          · exact hperm1.trans hcover
        | true =>
          have hyqne : yq ≠ [] := by
            rw [← hyq]
            simp [heapPush]
          obtain ⟨pr2, hpyq⟩ : ∃ pr2, heapPopMin yq = some pr2 := by
            cases hpq : heapPopMin yq with
            | none => exact absurd (heapPopMin_eq_none.1 hpq) hyqne
            | some pr2 => exact ⟨pr2, rfl⟩
          obtain ⟨yv, yqRest⟩ := pr2
          obtain ⟨hpermYq, hminYq⟩ := heapPopMin_spec hpyq
          have hstep2 : knnStep dist loc t q st =
              .yield (yv.1, yv.2) (KnnState.mk ps2 yqRest) := by
            rw [hstep, hg, hpyq]
            rfl
          have htdyv : trueDistO dist loc t q yv.1 = some yv.2 :=
            hYq yv (hpermYq.subset (List.mem_cons_self _ _))
          obtain ⟨nv, hnv, hnvc⟩ : ∃ nv, nodeGet t yv.1 = some nv ∧ nv.center = yv.1 := by
            cases hni : nodeIndexData t yv.1 with
            | none =>
              rw [show trueDistO dist loc t q yv.1 =
                (nodeIndexData t yv.1).map (fun p => dist q (loc p)) from rfl, hni]
                at htdyv
              cases htdyv
            | some p =>
              have h2 : (nodeGet t yv.1).bind (fun n => t.data.get? n.center) = some p := hni
              obtain ⟨nv, hnv, -⟩ := Option.bind_eq_some.1 h2
              exact ⟨nv, hnv, center_eq_of_nodeGet hcent hnv⟩
          have hstepE2 : knnStepElem dist loc t q st =
              .yield (yv.1, yv.2) (KnnState.mk ps2 yqRest) := by
            rw [hstepE, hg, hpyq]
            show (match nodeGet t yv.1 with
              | none => StepRes.panic
              | some nv => StepRes.yield (nv.center, yv.2) (KnnState.mk ps2 yqRest)) =
              StepRes.yield (yv.1, yv.2) (KnnState.mk ps2 yqRest)
            rw [hnv]
            show StepRes.yield (nv.center, yv.2) (KnnState.mk ps2 yqRest) =
              StepRes.yield (yv.1, yv.2) (KnnState.mk ps2 yqRest)
            rw [hnvc]
          have hYrest : ∀ ye ∈ yqRest, trueDistO dist loc t q ye.1 = some ye.2 :=
            fun ye hye => hYq ye (hpermYq.subset (List.mem_cons_of_mem _ hye))
          have hyqrl : yqRest.length + 1 = yq.length := by
            have := hpermYq.length_eq
            simpa using this
          have hfl3 : 2 * ls2.join.length + yqRest.length + 1 ≤ fuel := by
            omega
          obtain ⟨out1, hrun1, hrunE1, hperm1, htd1, hsort1⟩ :=
            ih (KnnState.mk ps2 yqRest) ls2 hF2 hYrest hfl3
          refine ⟨(yv.1, yv.2) :: out1, ?_, ?_, ?_, ?_, ?_⟩
          · rw [knnRunIdx_succ, hstep2]
            show (knnRunIdx dist loc fuel t q (KnnState.mk ps2 yqRest)).map
              ((yv.1, yv.2) :: ·) = some ((yv.1, yv.2) :: out1)
            rw [hrun1]
            rfl
          · rw [knnRunElem_succ, hstepE2]
            show (knnRunElem dist loc fuel t q (KnnState.mk ps2 yqRest)).map
              ((yv.1, yv.2) :: ·) = some ((yv.1, yv.2) :: out1)
            rw [hrunE1]
            rfl
          · have h1 : ((yv.1, yv.2) :: out1).map Prod.fst = yv.1 :: out1.map Prod.fst := by
              simp
            rw [h1]
            refine (hperm1.cons yv.1).trans ?_
            have h2 : yv.1 :: (yqRest.map Prod.fst ++ ls2.join) =
                (yv.1 :: yqRest.map Prod.fst) ++ ls2.join := rfl
            rw [h2]
            have h3 : (yv.1 :: yqRest.map Prod.fst).Perm (yq.map Prod.fst) := by
              simpa using hpermYq.map Prod.fst
            exact (h3.append_right ls2.join).trans hcover
          · intro pe hpe
            rcases List.mem_cons.1 hpe with rfl | hpe
            · exact htdyv
            · exact htd1 pe hpe
          · intro hM hPart
            have hs1 := hsort1 hM hPart
            simp only [List.map_cons]
            refine List.sorted_cons.2 ⟨?_, hs1⟩
            intro b hb
            obtain ⟨pe, hpe, rfl⟩ := List.mem_map.1 hb
            have hpem : pe.1 ∈ yqRest.map Prod.fst ++ ls2.join :=
              hperm1.subset (List.mem_map_of_mem _ hpe)
            have htdpe := htd1 pe hpe
            rcases List.mem_append.1 hpem with hpem | hpem
            · obtain ⟨ye, hye, hyeeq⟩ := List.mem_map.1 hpem
              have htdye := hYrest ye hye
              rw [hyeeq] at htdye
              have heq : pe.2 = ye.2 := Option.some_inj.1 (htdpe.symm.trans htdye)
              rw [heq]
              exact hminYq ye (hpermYq.subset (List.mem_cons_of_mem _ hye))
            · obtain ⟨lj, hlj, hpelj⟩ := List.mem_join.1 hpem
              obtain ⟨pe2, hpe2, hQpe2⟩ := forall2_mem_right hF2 lj hlj
              have hb2 := hQpe2.2 hM hPart pe.1 hpelj
              rw [htdpe] at hb2
              have hb3 : pe2.2 ≤ pe.2 := hb2
              have hgate := hg
              unfold gateOf at hgate
              cases hpkY : heapPeekMin yq with
              | none =>
                rw [hpkY] at hgate
                cases hpkP : heapPeekMin ps2 with
                | none => rw [hpkP] at hgate; exact absurd hgate (by simp)
                | some pv => rw [hpkP] at hgate; exact absurd hgate (by simp)
              | some yv2 =>
                cases hpkP : heapPeekMin ps2 with
                | none =>
                  rw [hpkY, hpkP] at hgate
                  exact absurd hgate (by simp)
                | some pv =>
                  rw [hpkY, hpkP] at hgate
                  have hyvpv : yv2.2 ≤ pv.2 := of_decide_eq_true hgate
                  have h4 : heapPeekMin yq = some yv := by
                    unfold heapPeekMin
                    rw [hpyq]
                    rfl
                  rw [hpkY] at h4
                  have h5 : yv2 = yv := Option.some_inj.1 h4
                  rw [h5] at hyvpv
                  obtain ⟨restP, hpopP⟩ := heapPeekMin_eq_some hpkP
                  have hminP := (heapPopMin_spec hpopP).2
                  have hpvpe2 : pv.2 ≤ pe2.2 := hminP pe2 hpe2
                  exact le_trans (le_trans hyvpv hpvpe2) hb3

/-- The master lemma instantiated at the iterator's initial state: on any
structurally well-formed tree both iterators terminate within fuel
`2·|nodes| + 2`, visit exactly the node indices `0..n-1`, record true
distances, and (under the metric axioms and the partition property) yield
in non-decreasing distance order. -/
theorem knnRun_from_init {Point Loc : Type} (dist : Loc → Loc → ℚ) (loc : Point → Loc)
    (t : VpAvl Point) (q : Loc) (hWF : WF t) :
    ∃ out, knnRunIdx dist loc (2 * t.nodes.length + 2) t q (knnInit t) = some out ∧
      knnRunElem dist loc (2 * t.nodes.length + 2) t q (knnInit t) = some out ∧
      (out.map Prod.fst).Perm (List.range t.nodes.length) ∧
      (∀ pe ∈ out, trueDistO dist loc t q pe.1 = some pe.2) ∧
      (MetricOk dist → PartOk dist loc t →
        List.Sorted (fun a b : ℚ => a ≤ b) (out.map Prod.snd)) := by
  obtain ⟨hdata, hcent, hroot⟩ := hWF
  by_cases hn : t.nodes.length = 0
  · have hnil : t.nodes = [] := List.length_eq_zero.1 hn
    have hinit : knnInit t = KnnState.mk [] [] := by
      unfold knnInit
      rw [hnil]
      rfl
    obtain ⟨out, h1, h2, h3, h4, h5⟩ :=
      knnRun_master dist loc t q hdata hcent (2 * t.nodes.length + 2)
        (KnnState.mk [] []) [] List.Forall₂.nil (by intro ye hye; cases hye)
        (by simp)
    rw [hinit]
    refine ⟨out, h1, h2, ?_, h4, h5⟩
    rw [hn]
    simpa using h3
  · rcases hroot with hz | hsome
    · exact absurd hz hn
    obtain ⟨l0, hsub, hperm0⟩ : ∃ l0, subtreeOf t t.root = some l0 ∧
        l0.Perm (List.range t.nodes.length) := by
      cases hs : subtreeOf t t.root with
      | none => rw [hs] at hsome; exact (show False from hsome).elim
      | some l0 => rw [hs] at hsome; exact ⟨l0, rfl, hsome⟩
    have hne : t.nodes ≠ [] := by
      intro hc
      rw [hc] at hn
      exact hn rfl
    have hie : t.nodes.isEmpty = false := by
      cases hcn : t.nodes with
      | nil => exact absurd hcn hne
      | cons a l => rfl
    have hinit : knnInit t = KnnState.mk [(t.root, 0)] [] := by
      unfold knnInit
      rw [hie]
      rfl
    have hQ0 : prospectOk dist loc t q (t.root, 0) l0 := by
      refine ⟨⟨t.nodes.length, hsub⟩, ?_⟩
      intro hM hPart j hj
      have hjlt : j < t.nodes.length := childIndicesF_mem_lt hsub j hj
      obtain ⟨nj, hnj⟩ : ∃ nj, nodeGet t j = some nj := by
        cases hg : nodeGet t j with
        | none =>
          unfold nodeGet at hg
          have h2 := List.get?_eq_none.1 hg
          omega
        | some nj => exact ⟨nj, rfl⟩
      obtain ⟨p, hp, hnid⟩ := nodeIndexData_of_center hdata hcent hnj
      have htd : trueDistO dist loc t q j = some (dist q (loc p)) := by
        unfold trueDistO
        rw [hnid]
        rfl
      rw [htd]
      show (0 : ℚ) ≤ dist q (loc p)
      exact hM.2.1 q (loc p)
    have hF0 : List.Forall₂ (prospectOk dist loc t q) [(t.root, 0)] [l0] :=
      List.Forall₂.cons hQ0 List.Forall₂.nil
    have hfuel0 : 2 * ([l0] : List (List Nat)).join.length + ([] : List (Nat × ℚ)).length + 1 ≤
        2 * t.nodes.length + 2 := by
      have hl0 : l0.length = t.nodes.length := by
        have := hperm0.length_eq
        simpa using this
      have hj : ([l0] : List (List Nat)).join = l0 := by simp
      rw [hj]
      simp only [List.length_nil]
      omega
    obtain ⟨out, h1, h2, h3, h4, h5⟩ :=
      knnRun_master dist loc t q hdata hcent (2 * t.nodes.length + 2)
        (KnnState.mk [(t.root, 0)] []) [l0] hF0 (by intro ye hye; cases hye) hfuel0
    rw [hinit]
    refine ⟨out, h1, h2, ?_, h4, h5⟩
    refine h3.trans ?_
    simpa using hperm0

theorem map_range_get? {α β : Type} (f : α → β) (d0 : β) :
    ∀ (l : List α),
      (List.range l.length).map (fun i => ((l.get? i).map f).getD d0) = l.map f := by
  intro l
  induction l with
  | nil => simp
  | cons a l ih =>
    rw [List.length_cons, List.range_succ_eq_map]
    simp only [List.map_cons, List.map_map]
    congr 1

theorem mapM_total {α β : Type} {f : α → Option β} :
    ∀ {l : List α}, (∀ a ∈ l, ∃ b, f a = some b) →
      ∃ l2, l.mapM f = some l2 ∧ l2.length = l.length := by
  intro l
  induction l with
  | nil => intro h; exact ⟨[], rfl, rfl⟩
  | cons a l ih =>
    intro h
    obtain ⟨b, hb⟩ := h a (by simp)
    obtain ⟨l2, hl2, hlen⟩ := ih (fun x hx => h x (by simp [hx]))
    refine ⟨b :: l2, ?_, by simp [hlen]⟩
    rw [List.mapM_cons, hb, hl2]
    rfl

/-! ### Claim C10 -/

/-- Claim C10 (confirmed): on every structurally well-formed tree (as every
tree reachable through the public constructors is) and for every query
location, the nearest-neighbour iterator run to exhaustion is finite —
within fuel `2·size + 2` bodies of `next()` — and yields exactly `size()`
pairs, visiting each stored element exactly once (the yielded data indices
are a duplicate-free permutation of `0..size-1`); on an empty tree it
yields nothing immediately. -/
theorem c10_iterator_yields_each_element_once {Point Loc : Type}
    (dist : Loc → Loc → ℚ) (loc : Point → Loc) (t : VpAvl Point) (q : Loc)
    (hWF : WF t) :
    ∃ out, knnRunElem dist loc (2 * t.nodes.length + 2) t q (knnInit t) = some out ∧
      out.length = t.data.length ∧
      (out.map Prod.fst).Perm (List.range t.data.length) ∧
      (out.map Prod.fst).Nodup ∧
      ∃ seq, nnDistIterSeq dist loc t q = some seq ∧ seq.length = t.data.length := by
  obtain ⟨out, hidx, helem, hperm, htd, -⟩ := knnRun_from_init dist loc t q hWF
  have hdata := hWF.1
  have hpermd : (out.map Prod.fst).Perm (List.range t.data.length) := by
    rw [← hdata]
    exact hperm
  have hlen : out.length = t.data.length := by
    have h1 : (out.map Prod.fst).length = (List.range t.data.length).length :=
      hpermd.length_eq
    simpa using h1
  have hnd : (out.map Prod.fst).Nodup := hpermd.symm.nodup (List.nodup_range _)
  have hmapm : ∃ seq,
      out.mapM (fun p => (t.data.get? p.1).map fun e => (e, p.2)) = some seq ∧
      seq.length = out.length := by
    refine mapM_total ?_
    intro pe hpe
    have h1 : pe.1 ∈ out.map Prod.fst := List.mem_map_of_mem _ hpe
    have h2 : pe.1 ∈ List.range t.data.length := hpermd.subset h1
    have h3 : pe.1 < t.data.length := List.mem_range.1 h2
    cases hg : t.data.get? pe.1 with
    | none =>
      have h4 := List.get?_eq_none.1 hg
      omega
    | some e => exact ⟨(e, pe.2), rfl⟩
  obtain ⟨seq, hseq, hseqlen⟩ := hmapm
  refine ⟨out, helem, hlen, hpermd, hnd, seq, ?_, by rw [hseqlen, hlen]⟩
  show ((knnRunElem dist loc (2 * t.nodes.length + 2) t q (knnInit t)).bind fun o =>
    o.mapM fun p => (t.data.get? p.1).map fun e => (e, p.2)) = some seq
  rw [helem, Option.some_bind, hseq]

/-- Witness for claim C10: the three-element tree built from `[0, 1, -1]`. -/
theorem c10_iterator_yields_each_element_once_witness :
    ∃ out, knnRunElem qdist id (2 * tieTree.nodes.length + 2) tieTree 0
        (knnInit tieTree) = some out ∧
      out.length = tieTree.data.length ∧
      (out.map Prod.fst).Perm (List.range tieTree.data.length) ∧
      (out.map Prod.fst).Nodup ∧
      ∃ seq, nnDistIterSeq qdist id tieTree 0 = some seq ∧
        seq.length = tieTree.data.length :=
  c10_iterator_yields_each_element_once qdist id tieTree 0 (by decide)

/-! ### Claim C1 -/

/-- Claim C1 (confirmed): under the metric axioms, on every structurally
well-formed tree satisfying the partition property that the code maintains,
the sequence yielded by the nearest iterator is non-decreasing in its
distance component, every yielded pair carries the true distance of its
element, the full distance sequence equals the brute-force sorted distance
list over all stored elements, and hence for every `k` the first `k`
yielded distances are exactly the `k` smallest brute-force distances. -/
theorem c1_knn_sorted_matches_brute_force {Point Loc : Type}
    (dist : Loc → Loc → ℚ) (loc : Point → Loc) (t : VpAvl Point) (q : Loc)
    (hM : MetricOk dist) (hWF : WF t) (hPart : PartOk dist loc t) :
    ∃ out, knnRunElem dist loc (2 * t.nodes.length + 2) t q (knnInit t) = some out ∧
      List.Sorted (fun a b : ℚ => a ≤ b) (out.map Prod.snd) ∧
      (∀ pe ∈ out, ∃ p, t.data.get? pe.1 = some p ∧ pe.2 = dist q (loc p)) ∧
      out.map Prod.snd = bruteSorted dist loc t q ∧
      (∀ k, (out.map Prod.snd).take k = (bruteSorted dist loc t q).take k) := by
  obtain ⟨out, hidx, helem, hperm, htd, hsorted⟩ := knnRun_from_init dist loc t q hWF
  have hdata := hWF.1
  have hcent := hWF.2.1
  have hsort := hsorted hM hPart
  have hslot : ∀ pe ∈ out, ∃ p, t.data.get? pe.1 = some p ∧ pe.2 = dist q (loc p) := by
    intro pe hpe
    have h1 := htd pe hpe
    replace h1 : (nodeIndexData t pe.1).map (fun p => dist q (loc p)) = some pe.2 := h1
    cases hni : nodeIndexData t pe.1 with
    | none => rw [hni] at h1; cases h1
    | some p =>
      rw [hni] at h1
      have h2 : dist q (loc p) = pe.2 := by simpa using h1
      have h3 : (nodeGet t pe.1).bind (fun n => t.data.get? n.center) = some p := hni
      obtain ⟨n1, hn1, h4⟩ := Option.bind_eq_some.1 h3
      have h5 : n1.center = pe.1 := center_eq_of_nodeGet hcent hn1
      rw [h5] at h4
      exact ⟨p, h4, h2.symm⟩
  have hpermd : (out.map Prod.fst).Perm (List.range t.data.length) := by
    rw [← hdata]
    exact hperm
  have hmapg : out.map Prod.snd =
      (out.map Prod.fst).map
        (fun i => ((t.data.get? i).map (fun p => dist q (loc p))).getD 0) := by
    rw [List.map_map]
    refine List.map_congr_left ?_
    intro pe hpe
    obtain ⟨p, hp, hpe2⟩ := hslot pe hpe
    show pe.2 = ((t.data.get? pe.1).map fun p => dist q (loc p)).getD 0
    rw [hp]
    simpa using hpe2
  have hpermb : (out.map Prod.snd).Perm (bruteDists dist loc t q) := by
    rw [hmapg]
    show ((out.map Prod.fst).map
        (fun i => ((t.data.get? i).map (fun p => dist q (loc p))).getD 0)).Perm
      (t.data.map fun p => dist q (loc p))
    rw [← map_range_get? (fun p => dist q (loc p)) 0 t.data]
    exact hpermd.map _
  have hsortb : List.Sorted (fun a b : ℚ => a ≤ b) (bruteSorted dist loc t q) :=
    List.sorted_insertionSort _ _
  have hpermbs : (out.map Prod.snd).Perm (bruteSorted dist loc t q) :=
    hpermb.trans (List.perm_insertionSort _ _).symm
  have heq : out.map Prod.snd = bruteSorted dist loc t q :=
    List.eq_of_perm_of_sorted hpermbs hsort hsortb
  exact ⟨out, helem, hsort, hslot, heq, fun k => by rw [heq]⟩

/-- Witness for claim C1: the tree built from `[0, 1, -1]` under the 1-D
Euclidean metric, queried at `0`. -/
theorem c1_knn_sorted_matches_brute_force_witness :
    ∃ out, knnRunElem qdist id (2 * tieTree.nodes.length + 2) tieTree 0
        (knnInit tieTree) = some out ∧
      List.Sorted (fun a b : ℚ => a ≤ b) (out.map Prod.snd) ∧
      (∀ pe ∈ out, ∃ p, tieTree.data.get? pe.1 = some p ∧ pe.2 = qdist 0 (id p)) ∧
      out.map Prod.snd = bruteSorted qdist id tieTree 0 ∧
      (∀ k, (out.map Prod.snd).take k = (bruteSorted qdist id tieTree 0).take k) :=
  c1_knn_sorted_matches_brute_force qdist id tieTree 0 qdist_metricOk (by decide)
    (of_decide_eq_true (by with_unfolding_all rfl))

theorem removeSearch_succ {Point Loc : Type} [DecidableEq Loc]
    {dist : Loc → Loc → ℚ} {loc : Point → Loc} {t : VpAvl Point} {value : Loc}
    {fuel : Nat} {st : KnnState} :
    removeSearch dist loc t value (fuel + 1) st =
      (match knnStep dist loc t value st with
      | .panic => none
      | .done => some none
      | .cont st2 => removeSearch dist loc t value fuel st2
      | .yield o st2 =>
        if o.2 ≤ 0 then
          match t.data.get? o.1 with
          | none => none
          | some p => if loc p = value then some (some o.1)
            else removeSearch dist loc t value fuel st2
        else some none) := rfl

theorem findZero_cons {Point Loc : Type} [DecidableEq Loc] {loc : Point → Loc}
    {t : VpAvl Point} {value : Loc} {o : Nat × ℚ} {rest : List (Nat × ℚ)} :
    findZero loc t value (o :: rest) =
      (if o.2 ≤ 0 then
        match t.data.get? o.1 with
        | none => none
        | some p => if loc p = value then some (some o.1)
          else findZero loc t value rest
      else some none) := rfl

theorem removeSearch_eq_findZero {Point Loc : Type} [DecidableEq Loc]
    {dist : Loc → Loc → ℚ} {loc : Point → Loc} {t : VpAvl Point} {value : Loc} :
    ∀ {fuel : Nat} {st : KnnState} {out : List (Nat × ℚ)},
      knnRunIdx dist loc fuel t value st = some out →
      removeSearch dist loc t value fuel st = findZero loc t value out := by
  intro fuel
  induction fuel with
  | zero => intro st out h; exact absurd h (by simp [knnRunIdx])
  | succ fuel ih =>
    intro st out h
    rw [knnRunIdx_succ] at h
    cases hs : knnStep dist loc t value st with
    | panic =>
      rw [hs] at h
      replace h : (none : Option (List (Nat × ℚ))) = some out := h
      cases h
    | done =>
      rw [hs] at h
      replace h : some ([] : List (Nat × ℚ)) = some out := h
      obtain rfl : ([] : List (Nat × ℚ)) = out := Option.some_inj.1 h
      rw [removeSearch_succ, hs]
      rfl
    | cont st2 =>
      rw [hs] at h
      replace h : knnRunIdx dist loc fuel t value st2 = some out := h
      rw [removeSearch_succ, hs]
      show removeSearch dist loc t value fuel st2 = findZero loc t value out
      exact ih h
    | yield o st2 =>
      rw [hs] at h
      replace h : (knnRunIdx dist loc fuel t value st2).map (o :: ·) = some out := h
      cases hr : knnRunIdx dist loc fuel t value st2 with
      | none =>
        rw [hr] at h
        replace h : (none : Option (List (Nat × ℚ))) = some out := h
        cases h
      | some out1 =>
        rw [hr] at h
        replace h : some (o :: out1) = some out := h
        obtain rfl : o :: out1 = out := Option.some_inj.1 h
        rw [removeSearch_succ, hs, findZero_cons]
        show (if o.2 ≤ 0 then
            match t.data.get? o.1 with
            | none => none
            | some p => if loc p = value then some (some o.1)
              else removeSearch dist loc t value fuel st2
          else some none) =
          (if o.2 ≤ 0 then
            match t.data.get? o.1 with
            | none => none
            | some p => if loc p = value then some (some o.1)
              else findZero loc t value out1
          else some none)
        by_cases hle : o.2 ≤ 0
        · rw [if_pos hle, if_pos hle]
          cases hg : t.data.get? o.1 with
          | none => rfl
          | some p =>
            show (if loc p = value then some (some o.1)
                else removeSearch dist loc t value fuel st2) =
              (if loc p = value then some (some o.1) else findZero loc t value out1)
            by_cases hv : loc p = value
            · rw [if_pos hv, if_pos hv]
            · rw [if_neg hv, if_neg hv]
              exact ih hr
        · rw [if_neg hle, if_neg hle]

theorem findZero_finds {Point Loc : Type} [DecidableEq Loc] {loc : Point → Loc}
    {t : VpAvl Point} {value : Loc} :
    ∀ {out : List (Nat × ℚ)},
      List.Sorted (fun a b : ℚ => a ≤ b) (out.map Prod.snd) →
      (∀ pe ∈ out, 0 ≤ pe.2) →
      (∀ pe ∈ out, ∃ p, t.data.get? pe.1 = some p) →
      (∃ pe ∈ out, pe.2 = 0 ∧ ∃ p, t.data.get? pe.1 = some p ∧ loc p = value) →
      ∃ j p, findZero loc t value out = some (some j) ∧
        t.data.get? j = some p ∧ loc p = value := by
  intro out
  induction out with
  | nil =>
    intro hs hnn hvalid hex
    obtain ⟨pe, hpe, -⟩ := hex
    cases hpe
  | cons o rest ih =>
    intro hs hnn hvalid hex
    by_cases hle : o.2 ≤ 0
    · cases hg : t.data.get? o.1 with
      | none =>
        obtain ⟨p, hp⟩ := hvalid o (List.mem_cons_self _ _)
        rw [hg] at hp
        cases hp
      | some p =>
        by_cases hv : loc p = value
        · refine ⟨o.1, p, ?_, hg, hv⟩
          rw [findZero_cons, if_pos hle, hg]
          show (if loc p = value then some (some o.1)
              else findZero loc t value rest) = some (some o.1)
          rw [if_pos hv]
        · have hex2 : ∃ pe ∈ rest, pe.2 = 0 ∧
              ∃ p2, t.data.get? pe.1 = some p2 ∧ loc p2 = value := by
            obtain ⟨pe, hpe, hz, p2, hp2, hv2⟩ := hex
            rcases List.mem_cons.1 hpe with rfl | hpe
            · rw [hg] at hp2
              obtain rfl : p = p2 := Option.some_inj.1 hp2
              exact absurd hv2 hv
            · exact ⟨pe, hpe, hz, p2, hp2, hv2⟩
          have hs2 : List.Sorted (fun a b : ℚ => a ≤ b) (rest.map Prod.snd) := by
            simp only [List.map_cons] at hs
            exact hs.of_cons
          obtain ⟨j, p2, hfz, hj, hv2⟩ := ih hs2
            (fun pe hpe => hnn pe (List.mem_cons_of_mem _ hpe))
            (fun pe hpe => hvalid pe (List.mem_cons_of_mem _ hpe)) hex2
          refine ⟨j, p2, ?_, hj, hv2⟩
          rw [findZero_cons, if_pos hle, hg]
          show (if loc p = value then some (some o.1)
              else findZero loc t value rest) = some (some j)
          rw [if_neg hv]
          exact hfz
    · exfalso
      obtain ⟨pe, hpe, hz, -⟩ := hex
      rcases List.mem_cons.1 hpe with rfl | hpe
      · exact hle (le_of_eq hz)
      · have h1 : o.2 ≤ pe.2 := by
          simp only [List.map_cons] at hs
          exact List.rel_of_sorted_cons hs pe.2 (List.mem_map_of_mem _ hpe)
        have h2 : 0 ≤ o.2 := hnn o (List.mem_cons_self _ _)
        rw [hz] at h1
        exact hle h1

theorem nodeGet_of_lt {Point : Type} {t : VpAvl Point} {i : Nat}
    (h : i < t.nodes.length) : ∃ n, nodeGet t i = some n := by
  cases hg : nodeGet t i with
  | none =>
    unfold nodeGet at hg
    have h2 := List.get?_eq_none.1 hg
    omega
  | some n => exact ⟨n, rfl⟩

theorem centers_enum_preserved {Point : Type} {t t2 : VpAvl Point}
    (hmap : ∀ j, (nodeGet t2 j).map (·.center) = (nodeGet t j).map (·.center))
    (hc : ∀ p ∈ t.nodes.enum, p.2.center = p.1) :
    ∀ p ∈ t2.nodes.enum, p.2.center = p.1 := by
  intro p hp
  have hg : nodeGet t2 p.1 = some p.2 := List.mem_enum_iff_get?.1 hp
  have h1 := hmap p.1
  rw [hg] at h1
  cases hgt : nodeGet t p.1 with
  | none => rw [hgt] at h1; cases h1
  | some n =>
    rw [hgt] at h1
    have h2 : p.2.center = n.center := by simpa using h1
    rw [h2]
    exact hc (p.1, n) (get?_mem_enum hgt)

theorem distancesLoop_total {Point Loc : Type} {dist : Loc → Loc → ℚ}
    {loc : Point → Loc} {t : VpAvl Point} {pr : Point} :
    ∀ {l : List Nat}, (∀ i ∈ l, ∃ p, nodeIndexData t i = some p) →
      ∃ ds, distancesLoop dist loc t pr l = some ds := by
  intro l
  induction l with
  | nil => intro h; exact ⟨[], rfl⟩
  | cons i rest ih =>
    intro h
    obtain ⟨p, hp⟩ := h i (List.mem_cons_self _ _)
    obtain ⟨ds, hds⟩ := ih (fun x hx => h x (List.mem_cons_of_mem _ hx))
    refine ⟨(i, dist (loc pr) (loc p)) :: ds, ?_⟩
    show ((nodeIndexData t i).bind fun p =>
      (distancesLoop dist loc t pr rest).bind fun ds =>
        some ((i, dist (loc pr) (loc p)) :: ds)) =
      some ((i, dist (loc pr) (loc p)) :: ds)
    rw [hp, Option.some_bind, hds, Option.some_bind]

theorem minExtOf_total {ds : List (Nat × ℚ)} (h : 2 ≤ ds.length) :
    ∃ mE, minExtOf ds = some mE := by
  cases he : exteriorPartOf ds with
  | nil => exact absurd he (exteriorPartOf_ne_nil h)
  | cons b tail =>
    refine ⟨b.2, ?_⟩
    unfold minExtOf
    rw [he]
    rfl

/-- Totality of the bulk partition build: on a duplicate-free, in-range index
set over arenas of equal length whose node centers equal their indices,
`bulk_build_indices` cannot panic. -/
theorem bulkBuild_success {Point Loc : Type} (dist : Loc → Loc → ℚ) (loc : Point → Loc) :
    ∀ {fuel : Nat} {t : VpAvl Point} {root : Nat} {indices : List Nat},
      indices.length + 1 ≤ fuel →
      (root :: indices).Nodup →
      (∀ x ∈ root :: indices, x < t.nodes.length) →
      t.nodes.length = t.data.length →
      (∀ p ∈ t.nodes.enum, p.2.center = p.1) →
      ∃ t2, bulkBuildF dist loc fuel t root indices = some t2 := by
  intro fuel
  induction fuel with
  | zero =>
    intro t root indices hfuel hnd hbound hlen hcent
    exact absurd hfuel (by omega)
  | succ fuel ih =>
    intro t root indices hfuel hnd hbound hlen hcent
    have hrootlt : root < t.nodes.length := hbound root (List.mem_cons_self _ _)
    obtain ⟨nroot, hnroot⟩ := nodeGet_of_lt hrootlt
    cases indices with
    | nil =>
      exact ⟨_, @setNode_isSome Point t root (fun n =>
        { n with height := 0, interior := none, exterior := none }) nroot hnroot⟩
    | cons e1 tail =>
      cases tail with
      | nil =>
        obtain ⟨pr, hprd, hpr⟩ := nodeIndexData_of_center hlen hcent hnroot
        have he1lt : e1 < t.nodes.length := hbound e1 (by simp)
        obtain ⟨ne1, hne1⟩ := nodeGet_of_lt he1lt
        obtain ⟨pe, hped, hpe⟩ := nodeIndexData_of_center hlen hcent hne1
        obtain ⟨t1, ht1⟩ : ∃ t1, setNode t root (fun n =>
            { n with exterior := some e1, radius := dist (loc pr) (loc pe),
                     height := 1, interior := none }) = some t1 :=
          ⟨_, setNode_isSome hnroot⟩
        have he1lt1 : e1 < t1.nodes.length := by
          rw [setNode_length ht1]
          exact he1lt
        obtain ⟨ne1b, hne1b⟩ := nodeGet_of_lt he1lt1
        obtain ⟨t2x, ht2x⟩ : ∃ t2x,
            setNode t1 e1 (fun n => { n with parent := some root }) = some t2x :=
          ⟨_, setNode_isSome hne1b⟩
        have hlen2 : t2x.nodes.length = t2x.data.length := by
          rw [setNode_length ht2x, setNode_data ht2x, setNode_length ht1,
            setNode_data ht1]
          exact hlen
        have hcent2 : ∀ p ∈ t2x.nodes.enum, p.2.center = p.1 :=
          centers_enum_preserved (setNode_center_map ht2x (fun n => rfl))
            (centers_enum_preserved (setNode_center_map ht1 (fun n => rfl)) hcent)
        have hb2 : ∀ x ∈ e1 :: ([] : List Nat), x < t2x.nodes.length := by
          intro x hx
          rw [setNode_length ht2x, setNode_length ht1]
          rcases List.mem_cons.1 hx with rfl | hx
          · exact he1lt
          · cases hx
        obtain ⟨t3, ht3⟩ := ih
          (by simp only [List.length_cons, List.length_nil] at hfuel ⊢; omega)
          (by simp) hb2 hlen2 hcent2
        refine ⟨t3, ?_⟩
        show ((nodeIndexData t root).bind fun prb =>
          (nodeIndexData t e1).bind fun peb =>
          (setNode t root fun n =>
            { n with exterior := some e1, radius := dist (loc prb) (loc peb),
                     height := 1, interior := none }).bind fun t1b =>
          (setNode t1b e1 fun n => { n with parent := some root }).bind fun t2b =>
          bulkBuildF dist loc fuel t2b e1 []) = some t3
        rw [hpr, Option.some_bind, hpe, Option.some_bind, ht1, Option.some_bind,
          ht2x, Option.some_bind]
        exact ht3
      | cons e2 rest =>
        have hidxlt : ∀ x ∈ e1 :: e2 :: rest, x < t.nodes.length :=
          fun x hx => hbound x (List.mem_cons_of_mem _ hx)
        have hidxsub : ∀ i ∈ e1 :: e2 :: rest, ∃ p, nodeIndexData t i = some p := by
          intro i hi
          obtain ⟨ni, hni⟩ := nodeGet_of_lt (hidxlt i hi)
          obtain ⟨p, -, hp⟩ := nodeIndexData_of_center hlen hcent hni
          exact ⟨p, hp⟩
        obtain ⟨pr, hprd, hpr⟩ := nodeIndexData_of_center hlen hcent hnroot
        obtain ⟨ds, hds⟩ := distancesLoop_total hidxsub
        obtain ⟨hfst, hdsmem⟩ := distancesLoop_spec hds
        have hdslen : ds.length = (e1 :: e2 :: rest).length := by
          rw [← hfst]; simp
        have hds2 : 2 ≤ ds.length := by
          rw [hdslen]
          simp only [List.length_cons]
          omega
        obtain ⟨mE, hmE⟩ := minExtOf_total hds2
        obtain ⟨t1, ht1⟩ : ∃ t1, setNode t root (fun n => { n with radius := mE }) =
            some t1 := ⟨_, setNode_isSome hnroot⟩
        have hroot1 : root < t1.nodes.length := by
          rw [setNode_length ht1]
          exact hrootlt
        obtain ⟨nroot1, hnroot1⟩ := nodeGet_of_lt hroot1
        obtain ⟨t2a, ht2a⟩ : ∃ t2a, setNode t1 root (fun n =>
            { n with interior := interiorCenterOf ds,
                     exterior := exteriorCenterOf ds }) = some t2a :=
          ⟨_, setNode_isSome hnroot1⟩
        have hIne : (interiorPartOf ds).map (·.1) ≠ [] := by
          intro hcon
          exact interiorPartOf_ne_nil hds2 (List.map_eq_nil.1 hcon)
        have hEne : (exteriorPartOf ds).map (·.1) ≠ [] := by
          intro hcon
          exact exteriorPartOf_ne_nil hds2 (List.map_eq_nil.1 hcon)
        obtain ⟨ic, hic⟩ : ∃ x, interiorCenterOf ds = some x :=
          ⟨_, List.getLast?_eq_getLast_of_ne_nil hIne⟩
        obtain ⟨ec, hec⟩ : ∃ x, exteriorCenterOf ds = some x :=
          ⟨_, List.getLast?_eq_getLast_of_ne_nil hEne⟩
        have hpermI : (ic :: interiorIndicesOf ds).Perm ((interiorPartOf ds).map (·.1)) :=
          cons_perm_of_getLast? hic
        have hpermE : (ec :: exteriorIndicesOf ds).Perm ((exteriorPartOf ds).map (·.1)) :=
          cons_perm_of_getLast? hec
        have hsplit : (interiorPartOf ds).map (·.1) ++ (exteriorPartOf ds).map (·.1) =
            (sortedDists ds).map (·.1) := by
          rw [← List.map_append, interiorPart_append_exteriorPart]
        have hpermIdx : ((interiorPartOf ds).map (·.1) ++
            (exteriorPartOf ds).map (·.1)).Perm (e1 :: e2 :: rest) := by
          rw [hsplit, ← hfst]
          exact (sortedDists_perm ds).map _
        have hNodupIdx : (e1 :: e2 :: rest).Nodup := hnd.of_cons
        have hrootNotMem : root ∉ (e1 :: e2 :: rest) := (List.nodup_cons.1 hnd).1
        have hNodupIE : ((interiorPartOf ds).map (·.1) ++
            (exteriorPartOf ds).map (·.1)).Nodup := hpermIdx.symm.nodup hNodupIdx
        obtain ⟨hNodupIML, hNodupEML, hdisj⟩ := List.nodup_append.1 hNodupIE
        have hNodI : (ic :: interiorIndicesOf ds).Nodup := hpermI.symm.nodup hNodupIML
        have hNodE : (ec :: exteriorIndicesOf ds).Nodup := hpermE.symm.nodup hNodupEML
        have hsubI : ∀ x ∈ ic :: interiorIndicesOf ds, x ∈ (e1 :: e2 :: rest) := by
          intro x hx
          exact hpermIdx.subset (List.mem_append_left _ (hpermI.subset hx))
        have hsubE : ∀ x ∈ ec :: exteriorIndicesOf ds, x ∈ (e1 :: e2 :: rest) := by
          intro x hx
          exact hpermIdx.subset (List.mem_append_right _ (hpermE.subset hx))
        have hlen2a : t2a.nodes.length = t.nodes.length := by
          rw [setNode_length ht2a, setNode_length ht1]
        have hiclt : ic < t2a.nodes.length := by
          rw [hlen2a]
          exact hidxlt ic (hsubI ic (by simp))
        obtain ⟨nic, hnic⟩ := nodeGet_of_lt hiclt
        obtain ⟨t3, ht3set⟩ : ∃ t3,
            setNode t2a ic (fun n => { n with parent := some root }) = some t3 :=
          ⟨_, setNode_isSome hnic⟩
        have ht3 : setParentOpt t2a (interiorCenterOf ds) root = some t3 := by
          rw [hic]
          exact ht3set
        have heclt : ec < t3.nodes.length := by
          rw [setNode_length ht3set, hlen2a]
          exact hidxlt ec (hsubE ec (by simp))
        obtain ⟨nec, hnec⟩ := nodeGet_of_lt heclt
        obtain ⟨t4, ht4set⟩ : ∃ t4,
            setNode t3 ec (fun n => { n with parent := some root }) = some t4 :=
          ⟨_, setNode_isSome hnec⟩
        have ht4 : setParentOpt t3 (exteriorCenterOf ds) root = some t4 := by
          rw [hec]
          exact ht4set
        have hlen4 : t4.nodes.length = t.nodes.length := by
          rw [setNode_length ht4set, setNode_length ht3set, hlen2a]
        have hdata4 : t4.data = t.data := by
          rw [setNode_data ht4set, setNode_data ht3set, setNode_data ht2a,
            setNode_data ht1]
        have hdlen4 : t4.nodes.length = t4.data.length := by
          rw [hlen4, hdata4]
          exact hlen
        have hcent4 : ∀ p ∈ t4.nodes.enum, p.2.center = p.1 :=
          centers_enum_preserved (setNode_center_map ht4set (fun n => rfl))
            (centers_enum_preserved (setNode_center_map ht3set (fun n => rfl))
              (centers_enum_preserved (setNode_center_map ht2a (fun n => rfl))
                (centers_enum_preserved (setNode_center_map ht1 (fun n => rfl)) hcent)))
        have hhalf : (interiorPartOf ds).length = halfOf ds := interiorPartOf_length hds2
        have hiIdxlen : (interiorIndicesOf ds).length = halfOf ds - 1 := by
          unfold interiorIndicesOf
          rw [List.length_dropLast, List.length_map, hhalf]
        have heIdxlen : (exteriorIndicesOf ds).length = ds.length - halfOf ds - 1 := by
          unfold exteriorIndicesOf
          rw [List.length_dropLast, List.length_map, exteriorPartOf_length]
        have hhalfb1 : 1 ≤ halfOf ds := halfOf_pos hds2
        have hhalfb2 : halfOf ds < ds.length := halfOf_lt hds2
        have hfuelI : (interiorIndicesOf ds).length + 1 ≤ fuel := by
          rw [hiIdxlen]
          rw [show (e1 :: e2 :: rest).length = rest.length + 2 by simp] at hdslen
          simp only [List.length_cons] at hfuel
          omega
        have hfuelE : (exteriorIndicesOf ds).length + 1 ≤ fuel := by
          rw [heIdxlen]
          rw [show (e1 :: e2 :: rest).length = rest.length + 2 by simp] at hdslen
          simp only [List.length_cons] at hfuel
          omega
        have hbI : ∀ x ∈ ic :: interiorIndicesOf ds, x < t4.nodes.length := by
          intro x hx
          rw [hlen4]
          exact hidxlt x (hsubI x hx)
        obtain ⟨t5, hrec5⟩ := ih hfuelI hNodI hbI hdlen4 hcent4
        obtain ⟨-, i5data, i5len, -, i5cmap, -, -, -⟩ :=
          bulkBuild_master dist loc hrec5 hNodI
        have hcent5 := centers_enum_preserved i5cmap hcent4
        have hlen5 : t5.nodes.length = t.nodes.length := by rw [i5len, hlen4]
        have hdlen5 : t5.nodes.length = t5.data.length := by
          rw [i5len, i5data]
          exact hdlen4
        have hbE : ∀ x ∈ ec :: exteriorIndicesOf ds, x < t5.nodes.length := by
          intro x hx
          rw [hlen5]
          exact hidxlt x (hsubE x hx)
        obtain ⟨t6, hrec6⟩ := ih hfuelE hNodE hbE hdlen5 hcent5
        obtain ⟨-, -, i6len, -, -, -, -, -⟩ := bulkBuild_master dist loc hrec6 hNodE
        have hic5 : ic < t5.nodes.length := by
          rw [hlen5]
          exact hidxlt ic (hsubI ic (by simp))
        obtain ⟨mIc, hmIc⟩ := nodeGet_of_lt hic5
        have hec6 : ec < t6.nodes.length := by
          rw [i6len, hlen5]
          exact hidxlt ec (hsubE ec (by simp))
        obtain ⟨mEc, hmEc⟩ := nodeGet_of_lt hec6
        have hroot6 : root < t6.nodes.length := by
          rw [i6len, hlen5]
          exact hrootlt
        obtain ⟨nroot6, hnroot6⟩ := nodeGet_of_lt hroot6
        have hbc1 : buildChildOpt (bulkBuildF dist loc fuel) t4 (interiorCenterOf ds)
            (interiorIndicesOf ds) 0 = some (max 0 mIc.height, t5) := by
          rw [hic]
          show ((bulkBuildF dist loc fuel t4 ic (interiorIndicesOf ds)).bind fun t5b =>
            (nodeGet t5b ic).bind fun m => some (max 0 m.height, t5b)) =
            some (max 0 mIc.height, t5)
          rw [hrec5, Option.some_bind, hmIc, Option.some_bind]
        have hbc2 : buildChildOpt (bulkBuildF dist loc fuel) t5 (exteriorCenterOf ds)
            (exteriorIndicesOf ds) (max 0 mIc.height) =
            some (max (max 0 mIc.height) mEc.height, t6) := by
          rw [hec]
          show ((bulkBuildF dist loc fuel t5 ec (exteriorIndicesOf ds)).bind fun t6b =>
            (nodeGet t6b ec).bind fun m =>
              some (max (max 0 mIc.height) m.height, t6b)) =
            some (max (max 0 mIc.height) mEc.height, t6)
          rw [hrec6, Option.some_bind, hmEc, Option.some_bind]
        obtain ⟨tfin, hfin⟩ : ∃ tfin, setNode t6 root (fun n =>
            { n with height := max (max 0 mIc.height) mEc.height + 1 }) = some tfin :=
          ⟨_, setNode_isSome hnroot6⟩
        refine ⟨tfin, ?_⟩
        show ((nodeIndexData t root).bind fun prb =>
            (distancesLoop dist loc t prb (e1 :: e2 :: rest)).bind fun dsb =>
            (minExtOf dsb).bind fun mEb =>
            (setNode t root fun n => { n with radius := mEb }).bind fun t1b =>
            (setNode t1b root fun n =>
              { n with interior := interiorCenterOf dsb,
                       exterior := exteriorCenterOf dsb }).bind fun t2ab =>
            (setParentOpt t2ab (interiorCenterOf dsb) root).bind fun t3b =>
            (setParentOpt t3b (exteriorCenterOf dsb) root).bind fun t4b =>
            (buildChildOpt (bulkBuildF dist loc fuel) t4b (interiorCenterOf dsb)
              (interiorIndicesOf dsb) 0).bind fun p5 =>
            (buildChildOpt (bulkBuildF dist loc fuel) p5.2 (exteriorCenterOf dsb)
              (exteriorIndicesOf dsb) p5.1).bind fun p6 =>
            setNode p6.2 root fun n => { n with height := p6.1 + 1 }) = some tfin
        rw [hpr, Option.some_bind, hds, Option.some_bind, hmE, Option.some_bind,
          ht1, Option.some_bind, ht2a, Option.some_bind, ht3, Option.some_bind,
          ht4, Option.some_bind, hbc1, Option.some_bind, hbc2, Option.some_bind]
        exact hfin

theorem childIndicesF_getLast {Point : Type} {f : Nat} {t : VpAvl Point} {i : Nat}
    {l : List Nat} (h : childIndicesF f t i = some l) : l.getLast? = some i := by
  cases f with
  | zero => exact absurd h (by simp [childIndicesF])
  | succ f =>
    obtain ⟨n, lInt, lExt, -, -, -, rfl⟩ := childIndicesF_unfold h
    rw [show lInt ++ lExt ++ [i] = (lInt ++ lExt) ++ [i] from rfl]
    exact List.getLast?_concat _

theorem pointAt_setNode_center_preserved {Point : Type} {t t2 : VpAvl Point} {i : Nat}
    {f : Node → Node} (hset : setNode t i f = some t2)
    (hf : ∀ n, (f n).center = n.center) :
    ∀ k, pointAt t2 k = pointAt t k := by
  intro k
  have hd : t2.data = t.data := setNode_data hset
  show (nodeGet t2 k).bind (fun m => t2.data.get? m.center) =
    (nodeGet t k).bind fun m => t.data.get? m.center
  by_cases hik : i = k
  · subst hik
    obtain ⟨n, hn, -⟩ := setNode_eq_some hset
    rw [nodeGet_setNode_self hset, hn, hd]
    show t.data.get? (f n).center = t.data.get? n.center
    rw [hf n]
  · rw [nodeGet_setNode_other hset hik, hd]

theorem partOkAt_frame_ext {Point Loc : Type} {dist : Loc → Loc → ℚ}
    {loc : Point → Loc} {t t2 : VpAvl Point} {j : Nat} {f : Nat} {lj : List Nat}
    (hf1 : f + 1 ≤ t.nodes.length) (hf2 : f ≤ t2.nodes.length)
    (hj : childIndicesF (f + 1) t j = some lj)
    (hagree : ∀ k ∈ lj, nodeGet t2 k = nodeGet t k)
    (hpt : ∀ k ∈ lj, pointAt t2 k = pointAt t k)
    (hp : partOkAt dist loc t j) : partOkAt dist loc t2 j := by
  intro n hn2
  have hjj : nodeGet t2 j = nodeGet t j := hagree j (childIndicesF_self_mem hj)
  rw [hjj] at hn2
  obtain ⟨hpi, hpe⟩ := hp n hn2
  obtain ⟨n2, lInt, lExt, hn3, hInt, hExt, rfl⟩ := childIndicesF_unfold hj
  rw [hn2] at hn3
  have hn4 : n2 = n := (Option.some_inj.1 hn3).symm
  subst hn4
  have hjself : j ∈ lInt ++ lExt ++ [j] := by simp
  have hcda : ∀ k ∈ lInt ++ lExt ++ [j],
      centerDistOf dist loc t2 j k = centerDistOf dist loc t j k := by
    intro k hk
    unfold centerDistOf
    rw [hpt j hjself, hpt k hk]
  constructor
  · intro c hc
    have hthis := hpi c hc
    rw [hc, childEnumOpt_some] at hInt
    have hsct : subtreeOf t c = some lInt :=
      childIndicesF_mono hInt (by omega)
    rw [hsct] at hthis
    have h1 : childIndicesF f t2 c = some lInt :=
      childIndicesF_frame hInt fun k hk => hagree k (by simp [hk])
    have hsct2 : subtreeOf t2 c = some lInt :=
      childIndicesF_mono h1 (by omega)
    rw [hsct2]
    intro k hk
    rw [hcda k (by simp [hk])]
    exact hthis k hk
  · intro c hc
    have hthis := hpe c hc
    rw [hc, childEnumOpt_some] at hExt
    have hsct : subtreeOf t c = some lExt :=
      childIndicesF_mono hExt (by omega)
    rw [hsct] at hthis
    have h1 : childIndicesF f t2 c = some lExt :=
      childIndicesF_frame hExt fun k hk => hagree k (by simp [hk])
    have hsct2 : subtreeOf t2 c = some lExt :=
      childIndicesF_mono h1 (by omega)
    rw [hsct2]
    intro k hk
    rw [hcda k (by simp [hk])]
    exact hthis k hk

/-- The common tail of one `insert_root` level: `set_height(root)` followed
by `rebalance(root)`.  Starting from any state whose subtree at `root`
enumerates without duplicates, whose nodes other than `root` have correct
heights and all of whose nodes satisfy the partition property, the tail
succeeds and re-establishes both invariants on the whole subtree while
leaving every node outside it untouched. -/
theorem insertFinish {Point Loc : Type} (dist : Loc → Loc → ℚ) (loc : Point → Loc)
    {t1 : VpAvl Point} {root : Nat} {l2 : List Nat}
    (hlen1 : t1.nodes.length = t1.data.length)
    (hcent1 : ∀ p ∈ t1.nodes.enum, p.2.center = p.1)
    (hl2pre : childIndicesF l2.length t1 root = some l2)
    (hnd2 : l2.Nodup)
    (hh2 : ∀ j ∈ l2, j ≠ root → heightOkAt t1 j)
    (hp2 : ∀ j ∈ l2, partOkAt dist loc t1 j) :
    ∃ t3, ((setHeight t1 root).bind fun t2h => rebalance dist loc t2h root) = some t3 ∧
      t3.root = t1.root ∧ t3.data = t1.data ∧ t3.nodes.length = t1.nodes.length ∧
      (∀ p ∈ t3.nodes.enum, p.2.center = p.1) ∧
      (∀ j, j ∉ l2 → nodeGet t3 j = nodeGet t1 j) ∧
      (∃ l3, childIndicesF l3.length t3 root = some l3 ∧ l3.Perm l2) ∧
      (∀ j ∈ l2, heightOkAt t3 j) ∧
      (∀ j ∈ l2, partOkAt dist loc t3 j) := by
  have hrootmem := childIndicesF_self_mem hl2pre
  obtain ⟨k, hk⟩ : ∃ k, l2.length = k + 1 := by
    cases hc : l2.length with
    | zero =>
      rw [List.length_eq_zero] at hc
      rw [hc] at hrootmem
      cases hrootmem
    | succ k => exact ⟨k, rfl⟩
  have hl2 : childIndicesF (k + 1) t1 root = some l2 := by rw [← hk]; exact hl2pre
  obtain ⟨n, lInt, lExt, hn, hInt, hExt, hleq⟩ := childIndicesF_unfold hl2
  have hbound : ∀ x ∈ l2, x < t1.nodes.length := childIndicesF_mem_lt hl2
  have hlenle : l2.length ≤ t1.nodes.length := nodup_lt_length_le hnd2 hbound
  have h1nd : ((lInt ++ lExt) ++ [root]).Nodup := by
    rw [← hleq]
    exact hnd2
  obtain ⟨hndIE, hndR, hdisj1⟩ := List.nodup_append.1 h1nd
  have hrootnotIE : root ∉ lInt ++ lExt := by
    intro hx
    exact hdisj1 hx (List.mem_singleton_self root)
  obtain ⟨ihv, hihv⟩ : ∃ v, childHeightOpt t1 n.interior = some v := by
    cases c : n.interior with
    | none => exact ⟨0, rfl⟩
    | some ci =>
      have hIntc := hInt
      rw [c, childEnumOpt_some] at hIntc
      have hci : ci ∈ l2 := by
        rw [hleq]
        exact List.mem_append_left _ (List.mem_append_left _
          (childIndicesF_self_mem hIntc))
      obtain ⟨nc, hnc⟩ := nodeGet_of_lt (hbound ci hci)
      refine ⟨nc.height + 1, ?_⟩
      show (nodeGet t1 ci).map (fun m => m.height + 1) = some (nc.height + 1)
      rw [hnc]
      rfl
  obtain ⟨ehv, hehv⟩ : ∃ v, childHeightOpt t1 n.exterior = some v := by
    cases c : n.exterior with
    | none => exact ⟨0, rfl⟩
    | some ce =>
      have hExtc := hExt
      rw [c, childEnumOpt_some] at hExtc
      have hce : ce ∈ l2 := by
        rw [hleq]
        exact List.mem_append_left _ (List.mem_append_right _
          (childIndicesF_self_mem hExtc))
      obtain ⟨nc, hnc⟩ := nodeGet_of_lt (hbound ce hce)
      refine ⟨nc.height + 1, ?_⟩
      show (nodeGet t1 ce).map (fun m => m.height + 1) = some (nc.height + 1)
      rw [hnc]
      rfl
  obtain ⟨t2h, ht2h⟩ : ∃ t2h,
      setNode t1 root (fun m => { m with height := max ihv ehv }) = some t2h :=
    ⟨_, setNode_isSome hn⟩
  have hsetHeight : setHeight t1 root = some t2h := by
    show ((nodeGet t1 root).bind fun nb =>
      (childHeightOpt t1 nb.interior).bind fun ihb =>
      (childHeightOpt t1 nb.exterior).bind fun ehb =>
      setNode t1 root fun m => { m with height := max ihb ehb }) = some t2h
    rw [hn, Option.some_bind, hihv, Option.some_bind, hehv, Option.some_bind]
    exact ht2h
  have hlenH : t2h.nodes.length = t1.nodes.length := setNode_length ht2h
  have hdataH : t2h.data = t1.data := setNode_data ht2h
  have hrootH : t2h.root = t1.root := setNode_root ht2h
  have hcentH : ∀ p ∈ t2h.nodes.enum, p.2.center = p.1 :=
    centers_enum_preserved (setNode_center_map ht2h (fun n => rfl)) hcent1
  have hframeH : ∀ j, root ≠ j → nodeGet t2h j = nodeGet t1 j :=
    fun j hj => nodeGet_setNode_other ht2h hj
  have hrootnodeH : nodeGet t2h root = some { n with height := max ihv ehv } := by
    rw [nodeGet_setNode_self ht2h, hn]
    rfl
  have hptH : ∀ x, pointAt t2h x = pointAt t1 x :=
    pointAt_setNode_center_preserved ht2h (fun n => rfl)
  have hagreeIE : ∀ x ∈ lInt ++ lExt, nodeGet t2h x = nodeGet t1 x := by
    intro x hx
    refine hframeH x ?_
    intro heq
    exact hrootnotIE (heq ▸ hx)
  have hInt2 : childEnumOpt k t2h n.interior = some lInt := by
    cases c : n.interior with
    | none =>
      have hIntc := hInt
      rw [c] at hIntc
      exact hIntc
    | some ci =>
      have hIntc := hInt
      rw [c, childEnumOpt_some] at hIntc
      rw [childEnumOpt_some]
      refine childIndicesF_frame hIntc ?_
      intro x hx
      exact hagreeIE x (List.mem_append_left _ hx)
  have hExt2 : childEnumOpt k t2h n.exterior = some lExt := by
    cases c : n.exterior with
    | none =>
      have hExtc := hExt
      rw [c] at hExtc
      exact hExtc
    | some ce =>
      have hExtc := hExt
      rw [c, childEnumOpt_some] at hExtc
      rw [childEnumOpt_some]
      refine childIndicesF_frame hExtc ?_
      intro x hx
      exact hagreeIE x (List.mem_append_right _ hx)
  have hl2H : childIndicesF (k + 1) t2h root = some l2 := by
    rw [hleq]
    exact childIndicesF_build hrootnodeH hInt2 hExt2
  have hkle : k + 1 ≤ t1.nodes.length := by
    rw [← hk]
    exact hlenle
  have hintagree : ∀ ci, n.interior = some ci → nodeGet t2h ci = nodeGet t1 ci := by
    intro ci hci
    have hIntc := hInt
    rw [hci, childEnumOpt_some] at hIntc
    exact hagreeIE ci (List.mem_append_left _ (childIndicesF_self_mem hIntc))
  have hextagree : ∀ ce, n.exterior = some ce → nodeGet t2h ce = nodeGet t1 ce := by
    intro ce hce
    have hExtc := hExt
    rw [hce, childEnumOpt_some] at hExtc
    exact hagreeIE ce (List.mem_append_right _ (childIndicesF_self_mem hExtc))
  have hhH : ∀ j ∈ l2, heightOkAt t2h j := by
    intro j hj
    by_cases hjr : j = root
    · rw [hjr]
      intro m hm
      rw [hrootnodeH] at hm
      obtain rfl := Option.some_inj.1 hm
      have he1 : heightFor t2h { n with height := max ihv ehv } = some (max ihv ehv) := by
        have hia : childHeightOpt t2h n.interior = childHeightOpt t1 n.interior :=
          childHeightOpt_agree hintagree
        have hea : childHeightOpt t2h n.exterior = childHeightOpt t1 n.exterior :=
          childHeightOpt_agree hextagree
        show ((childHeightOpt t2h n.interior).bind fun ihb =>
          (childHeightOpt t2h n.exterior).bind fun ehb =>
          pure (max ihb ehb)) = some (max ihv ehv)
        rw [hia, hea, hihv, Option.some_bind, hehv, Option.some_bind]
        rfl
      rw [he1]
      exact rfl
    · have hjIE : j ∈ lInt ++ lExt := by
        have hj2 := hj
        rw [hleq] at hj2
        rcases List.mem_append.1 hj2 with h | h
        · exact h
        · exact absurd (by simpa using h) hjr
      rcases List.mem_append.1 hjIE with hjI | hjE
      · cases c : n.interior with
        | none =>
          have hIntc := hInt
          rw [c] at hIntc
          rw [childEnumOpt_none hIntc] at hjI
          cases hjI
        | some ci =>
          have hIntc := hInt
          rw [c, childEnumOpt_some] at hIntc
          obtain ⟨lj, hlj, hsub⟩ := childIndicesF_sub_enum hIntc j hjI
          exact heightOkAt_frame hlj
            (fun x hx => hagreeIE x (List.mem_append_left _ (hsub hx)))
            (hh2 j hj hjr)
      · cases c : n.exterior with
        | none =>
          have hExtc := hExt
          rw [c] at hExtc
          rw [childEnumOpt_none hExtc] at hjE
          cases hjE
        | some ce =>
          have hExtc := hExt
          rw [c, childEnumOpt_some] at hExtc
          obtain ⟨lj, hlj, hsub⟩ := childIndicesF_sub_enum hExtc j hjE
          exact heightOkAt_frame hlj
            (fun x hx => hagreeIE x (List.mem_append_right _ (hsub hx)))
            (hh2 j hj hjr)
  have hcd : ∀ a b, centerDistOf dist loc t2h a b = centerDistOf dist loc t1 a b := by
    intro a b
    unfold centerDistOf
    rw [hptH a, hptH b]
  have hpH : ∀ j ∈ l2, partOkAt dist loc t2h j := by
    intro j hj
    by_cases hjr : j = root
    · rw [hjr]
      intro m hm
      rw [hrootnodeH] at hm
      obtain rfl := Option.some_inj.1 hm
      obtain ⟨hpi, hpe⟩ := hp2 root hrootmem n hn
      constructor
      · intro c hc
        have hc2 : n.interior = some c := hc
        have hIntc := hInt
        rw [hc2, childEnumOpt_some] at hIntc
        have hthis := hpi c hc2
        have hsct : subtreeOf t1 c = some lInt :=
          childIndicesF_mono hIntc (by omega)
        rw [hsct] at hthis
        have h1 : childIndicesF k t2h c = some lInt :=
          childIndicesF_frame hIntc fun x hx =>
            hagreeIE x (List.mem_append_left _ hx)
        have hsct2 : subtreeOf t2h c = some lInt :=
          childIndicesF_mono h1 (by rw [hlenH]; omega)
        rw [hsct2]
        intro x hx
        rw [hcd root x]
        exact hthis x hx
      · intro c hc
        have hc2 : n.exterior = some c := hc
        have hExtc := hExt
        rw [hc2, childEnumOpt_some] at hExtc
        have hthis := hpe c hc2
        have hsct : subtreeOf t1 c = some lExt :=
          childIndicesF_mono hExtc (by omega)
        rw [hsct] at hthis
        have h1 : childIndicesF k t2h c = some lExt :=
          childIndicesF_frame hExtc fun x hx =>
            hagreeIE x (List.mem_append_right _ hx)
        have hsct2 : subtreeOf t2h c = some lExt :=
          childIndicesF_mono h1 (by rw [hlenH]; omega)
        rw [hsct2]
        intro x hx
        rw [hcd root x]
        exact hthis x hx
    · have hjIE : j ∈ lInt ++ lExt := by
        have hj2 := hj
        rw [hleq] at hj2
        rcases List.mem_append.1 hj2 with h | h
        · exact h
        · exact absurd (by simpa using h) hjr
      rcases List.mem_append.1 hjIE with hjI | hjE
      · cases c : n.interior with
        | none =>
          have hIntc := hInt
          rw [c] at hIntc
          rw [childEnumOpt_none hIntc] at hjI
          cases hjI
        | some ci =>
          have hIntc := hInt
          rw [c, childEnumOpt_some] at hIntc
          obtain ⟨lj, hlj, hsub⟩ := childIndicesF_sub_enum hIntc j hjI
          exact partOkAt_frame hkle hlenH hdataH
            (childIndicesF_mono hlj (Nat.le_succ _))
            (fun x hx => hagreeIE x (List.mem_append_left _ (hsub hx)))
            (hp2 j hj)
      · cases c : n.exterior with
        | none =>
          have hExtc := hExt
          rw [c] at hExtc
          rw [childEnumOpt_none hExtc] at hjE
          cases hjE
        | some ce =>
          have hExtc := hExt
          rw [c, childEnumOpt_some] at hExtc
          obtain ⟨lj, hlj, hsub⟩ := childIndicesF_sub_enum hExtc j hjE
          exact partOkAt_frame hkle hlenH hdataH
            (childIndicesF_mono hlj (Nat.le_succ _))
            (fun x hx => hagreeIE x (List.mem_append_right _ (hsub hx)))
            (hp2 j hj)
  obtain ⟨iv2, hiv2⟩ : ∃ v, codeChildHeight t2h n.interior = some v := by
    cases c : n.interior with
    | none => exact ⟨0, rfl⟩
    | some ci =>
      have hIntc := hInt
      rw [c, childEnumOpt_some] at hIntc
      have hciIE : ci ∈ lInt ++ lExt :=
        List.mem_append_left _ (childIndicesF_self_mem hIntc)
      have hci2 : ci ∈ l2 := by
        rw [hleq]
        exact List.mem_append_left _ hciIE
      obtain ⟨nc, hnc⟩ := nodeGet_of_lt (hbound ci hci2)
      refine ⟨nc.height, ?_⟩
      show (nodeGet t2h ci).map (fun m => m.height) = some nc.height
      rw [hagreeIE ci hciIE, hnc]
      rfl
  obtain ⟨ev2, hev2⟩ : ∃ v, codeChildHeight t2h n.exterior = some v := by
    cases c : n.exterior with
    | none => exact ⟨0, rfl⟩
    | some ce =>
      have hExtc := hExt
      rw [c, childEnumOpt_some] at hExtc
      have hceIE : ce ∈ lInt ++ lExt :=
        List.mem_append_right _ (childIndicesF_self_mem hExtc)
      have hce2 : ce ∈ l2 := by
        rw [hleq]
        exact List.mem_append_left _ hceIE
      obtain ⟨nc, hnc⟩ := nodeGet_of_lt (hbound ce hce2)
      refine ⟨nc.height, ?_⟩
      show (nodeGet t2h ce).map (fun m => m.height) = some nc.height
      rw [hagreeIE ce hceIE, hnc]
      rfl
  have hreb : rebalance dist loc t2h root =
      (if ev2 + 1 < iv2 then rebalanceRebuild dist loc t2h root
       else if iv2 + 1 < ev2 then rebalanceRebuild dist loc t2h root
       else pure t2h) := by
    show ((nodeGet t2h root).bind fun nb =>
      (codeChildHeight t2h nb.interior).bind fun ihb =>
      (codeChildHeight t2h nb.exterior).bind fun ehb =>
      if ehb + 1 < ihb then rebalanceRebuild dist loc t2h root
      else if ihb + 1 < ehb then rebalanceRebuild dist loc t2h root
      else pure t2h) = _
    rw [hrootnodeH, Option.some_bind]
    show ((codeChildHeight t2h n.interior).bind fun ihb =>
      (codeChildHeight t2h n.exterior).bind fun ehb =>
      if ehb + 1 < ihb then rebalanceRebuild dist loc t2h root
      else if ihb + 1 < ehb then rebalanceRebuild dist loc t2h root
      else pure t2h) = _
    rw [hiv2, Option.some_bind, hev2, Option.some_bind]
  have hglast : l2.getLast? = some root := childIndicesF_getLast hl2
  have hpermcons : (root :: l2.dropLast).Perm l2 := cons_perm_of_getLast? hglast
  have hndcons : (root :: l2.dropLast).Nodup := hpermcons.nodup_iff.2 hnd2
  have hboundcons : ∀ x ∈ root :: l2.dropLast, x < t2h.nodes.length := by
    intro x hx
    rw [hlenH]
    exact hbound x (hpermcons.subset hx)
  have hlen2h : t2h.nodes.length = t2h.data.length := by
    rw [hlenH, hdataH]
    exact hlen1
  have hdll : l2.dropLast.length = k := by
    rw [List.length_dropLast, hk]
    omega
  obtain ⟨t3, ht3⟩ := @bulkBuild_success Point Loc dist loc
    (t2h.nodes.length + 1) t2h root l2.dropLast
    (by omega) hndcons hboundcons hlen2h hcentH
  obtain ⟨hroot3, hdata3, hlen3, hframe3, hcmap3, ⟨l3, hl3, hperm3⟩, hh3, hp3⟩ :=
    bulkBuild_master dist loc ht3 hndcons
  have hRR : rebalanceRebuild dist loc t2h root = some t3 := by
    show ((childIndicesF (t2h.nodes.length + 1) t2h root).bind fun children =>
      (children.getLast?).bind fun newRoot =>
      bulkBuildF dist loc (t2h.nodes.length + 1) t2h newRoot children.dropLast) = some t3
    rw [childIndicesF_mono hl2H (by omega), Option.some_bind]
    show (l2.getLast?.bind fun newRoot =>
      bulkBuildF dist loc (t2h.nodes.length + 1) t2h newRoot l2.dropLast) = some t3
    rw [hglast, Option.some_bind]
    exact ht3
  have hconc3 : t3.root = t1.root ∧ t3.data = t1.data ∧
      t3.nodes.length = t1.nodes.length ∧
      (∀ p ∈ t3.nodes.enum, p.2.center = p.1) ∧
      (∀ j, j ∉ l2 → nodeGet t3 j = nodeGet t1 j) ∧
      (∃ lf, childIndicesF lf.length t3 root = some lf ∧ lf.Perm l2) ∧
      (∀ j ∈ l2, heightOkAt t3 j) ∧
      (∀ j ∈ l2, partOkAt dist loc t3 j) := by
    refine ⟨hroot3.trans hrootH, hdata3.trans hdataH, hlen3.trans hlenH,
      centers_enum_preserved hcmap3 hcentH, ?_, ?_, ?_, ?_⟩
    · intro j hj
      have hjr : root ≠ j := fun e => hj (e ▸ hrootmem)
      have hjn : j ∉ root :: l2.dropLast := fun hx => hj (hpermcons.subset hx)
      rw [hframe3 j hjn]
      exact hframeH j hjr
    · refine ⟨l3, ?_, hperm3.trans hpermcons⟩
      have hlen3b : l3.length = l2.dropLast.length + 1 := by
        rw [hperm3.length_eq]
        rfl
      rw [hlen3b]
      exact hl3
    · intro j hj
      exact hh3 j (hpermcons.mem_iff.2 hj)
    · intro j hj
      exact hp3 j (hpermcons.mem_iff.2 hj)
  rw [hsetHeight, Option.some_bind]
  by_cases h1 : ev2 + 1 < iv2
  · refine ⟨t3, ?_, hconc3⟩
    rw [hreb, if_pos h1]
    exact hRR
  · by_cases h2 : iv2 + 1 < ev2
    · refine ⟨t3, ?_, hconc3⟩
      rw [hreb, if_neg h1, if_pos h2]
      exact hRR
    · refine ⟨t2h, ?_, hrootH, hdataH, hlenH, hcentH, ?_, ⟨l2, ?_, List.Perm.refl _⟩,
        hhH, hpH⟩
      · rw [hreb, if_neg h1, if_neg h2]
        rfl
      · intro j hj
        exact hframeH j (fun e => hj (e ▸ hrootmem))
      · rw [hk]
        exact hl2H

/-- Reading an element through a node's center is unaffected by appending a
fresh element to the data arena, as long as both trees keep centers equal to
indices and the index is an old one. -/
theorem pointAt_extend {Point : Type} {t t2 : VpAvl Point} {x : Nat} {v : Point}
    (hlen : t.nodes.length = t.data.length)
    (hcent : ∀ p ∈ t.nodes.enum, p.2.center = p.1)
    (hcent2 : ∀ p ∈ t2.nodes.enum, p.2.center = p.1)
    (hdata : t2.data = t.data ++ [v])
    (hx : x < t.nodes.length) (hx2 : x < t2.nodes.length) :
    pointAt t2 x = pointAt t x := by
  obtain ⟨m, hm⟩ := nodeGet_of_lt hx
  obtain ⟨m2, hm2⟩ := nodeGet_of_lt hx2
  have hc1 : m.center = x := center_eq_of_nodeGet hcent hm
  have hc2 : m2.center = x := center_eq_of_nodeGet hcent2 hm2
  show (nodeGet t2 x).bind (fun mm => t2.data.get? mm.center) =
    (nodeGet t x).bind fun mm => t.data.get? mm.center
  rw [hm, hm2, Option.some_bind, Option.some_bind, hc1, hc2, hdata]
  exact List.get?_append (by omega)

/-- Continuation step of `insert_root`: once the branch-specific part of one
level has produced a tree `t1` whose subtree at `root` enumerates to `l2`
(a permutation of the old subtree plus the new node index) with both
invariants holding inside it, the `set_height`/`rebalance` tail yields the
level's conclusions relative to the original tree. -/
theorem insertRoot_finish {Point Loc : Type} (dist : Loc → Loc → ℚ) (loc : Point → Loc)
    {t t1 : VpAvl Point} {root : Nat} {l l2 : List Nat} {value : Point}
    (hlen1 : t1.nodes.length = t1.data.length)
    (hcent1 : ∀ p ∈ t1.nodes.enum, p.2.center = p.1)
    (hl2 : childIndicesF l2.length t1 root = some l2)
    (hnd2 : l2.Nodup)
    (hh2 : ∀ j ∈ l2, j ≠ root → heightOkAt t1 j)
    (hp2 : ∀ j ∈ l2, partOkAt dist loc t1 j)
    (hroot1 : t1.root = t.root)
    (hdata1 : t1.data = t.data ++ [value])
    (hlen1e : t1.nodes.length = t.nodes.length + 1)
    (hframe1 : ∀ j, j ∉ l2 → nodeGet t1 j = nodeGet t j)
    (hpermL2 : l2.Perm (t.nodes.length :: l)) :
    ∃ t3, ((setHeight t1 root).bind fun t2h => rebalance dist loc t2h root) = some t3 ∧
      t3.root = t.root ∧ t3.data = t.data ++ [value] ∧
      t3.nodes.length = t.nodes.length + 1 ∧
      (∀ p ∈ t3.nodes.enum, p.2.center = p.1) ∧
      (∀ j, j ∉ l → j ≠ t.nodes.length → nodeGet t3 j = nodeGet t j) ∧
      (∃ lf, childIndicesF lf.length t3 root = some lf ∧
        lf.Perm (t.nodes.length :: l)) ∧
      (∀ j ∈ t.nodes.length :: l, heightOkAt t3 j) ∧
      (∀ j ∈ t.nodes.length :: l, partOkAt dist loc t3 j) := by
  obtain ⟨t3, heq3, hroot3, hdata3, hlen3, hcent3, hframe3, ⟨lf, hlf, hplf⟩, hh3, hp3⟩ :=
    insertFinish dist loc hlen1 hcent1 hl2 hnd2 hh2 hp2
  refine ⟨t3, heq3, hroot3.trans hroot1, hdata3.trans hdata1,
    hlen3.trans hlen1e, hcent3, ?_, ⟨lf, hlf, hplf.trans hpermL2⟩, ?_, ?_⟩
  · intro j hjl hjN
    have hj2 : j ∉ l2 := fun hx => by
      rcases List.mem_cons.1 (hpermL2.subset hx) with h | h
      · exact hjN h
      · exact hjl h
    rw [hframe3 j hj2]
    exact hframe1 j hj2
  · intro j hj
    exact hh3 j (hpermL2.mem_iff.2 hj)
  · intro j hj
    exact hp3 j (hpermL2.mem_iff.2 hj)

/-- One-step unfolding of `insert_root` with the nested `let`s inlined. -/
theorem insertRootF_succ_eq {Point Loc : Type} {dist : Loc → Loc → ℚ} {loc : Point → Loc}
    {fuel : Nat} {t : VpAvl Point} {root : Nat} {value : Point} :
    insertRootF dist loc (fuel + 1) t root value =
      ((nodeIndexData t root).bind fun pr =>
       (nodeGet t root).bind fun n =>
       if dist (loc pr) (loc value) < n.radius then
         match n.interior with
         | some ind =>
           (insertRootF dist loc fuel t ind value).bind fun t1 =>
             (setHeight t1 root).bind fun t2 => rebalance dist loc t2 root
         | none =>
           (setNode
             { t with
                 data := t.data ++ [value]
                 nodes := t.nodes ++
                   [Node.newLeaf ((t.data ++ [value]).length - 1) (some root)] }
             ((t.data ++ [value]).length - 1)
             (fun m => { m with radius := fclamp (dist (loc pr) (loc value)) (n.radius / 2) n.radius })).bind fun t2 =>
           (setNode t2 root fun m =>
             { m with interior := some ((t.data ++ [value]).length - 1) }).bind fun t1 =>
           (setHeight t1 root).bind fun t2b => rebalance dist loc t2b root
       else
         match n.exterior with
         | some ind =>
           (insertRootF dist loc fuel t ind value).bind fun t1 =>
             (setHeight t1 root).bind fun t2 => rebalance dist loc t2 root
         | none =>
           (setNode
             { t with
                 data := t.data ++ [value]
                 nodes := t.nodes ++
                   [Node.newLeaf ((t.data ++ [value]).length - 1) (some root)] }
             ((t.data ++ [value]).length - 1)
             (fun m => { m with radius := fclamp (dist (loc pr) (loc value)) (n.radius / 2) n.radius })).bind fun t2 =>
           (setNode t2 root fun m =>
             { m with exterior := some ((t.data ++ [value]).length - 1) }).bind fun t1 =>
           (setHeight t1 root).bind fun t2b => rebalance dist loc t2b root) := rfl

/-- Master correctness lemma for `insert_root`: one recursive insertion into
a duplicate-free subtree appends the new value to the data arena, adds one
fresh leaf node, keeps every node outside the subtree untouched, and
re-establishes the height bookkeeping and the (non-strict) partition
property on the whole subtree including the fresh leaf. -/
theorem insertRoot_master {Point Loc : Type} (dist : Loc → Loc → ℚ) (loc : Point → Loc) :
    ∀ {fuel : Nat} {t : VpAvl Point} {root : Nat} {l : List Nat} {value : Point},
      t.nodes.length = t.data.length →
      (∀ p ∈ t.nodes.enum, p.2.center = p.1) →
      childIndicesF l.length t root = some l →
      l.Nodup →
      (∀ j ∈ l, j ≠ root → heightOkAt t j) →
      (∀ j ∈ l, partOkAt dist loc t j) →
      l.length ≤ fuel →
      ∃ t2, insertRootF dist loc fuel t root value = some t2 ∧
        t2.root = t.root ∧ t2.data = t.data ++ [value] ∧
        t2.nodes.length = t.nodes.length + 1 ∧
        (∀ p ∈ t2.nodes.enum, p.2.center = p.1) ∧
        (∀ j, j ∉ l → j ≠ t.nodes.length → nodeGet t2 j = nodeGet t j) ∧
        (∃ lf, childIndicesF lf.length t2 root = some lf ∧
          lf.Perm (t.nodes.length :: l)) ∧
        (∀ j ∈ t.nodes.length :: l, heightOkAt t2 j) ∧
        (∀ j ∈ t.nodes.length :: l, partOkAt dist loc t2 j) := by
  intro fuel
  induction fuel with
  | zero =>
    intro t root l value hlen hcent hl hnd hh hp hfuel
    have hl0 : l.length = 0 := by omega
    rw [hl0] at hl
    exact absurd hl (by simp [childIndicesF])
  | succ fuel ih =>
    intro t root l value hlen hcent hl hnd hh hp hfuel
    have hrootmem := childIndicesF_self_mem hl
    obtain ⟨k, hk⟩ : ∃ k, l.length = k + 1 := by
      cases hc : l.length with
      | zero =>
        rw [List.length_eq_zero] at hc
        rw [hc] at hrootmem
        cases hrootmem
      | succ k => exact ⟨k, rfl⟩
    have hlk : childIndicesF (k + 1) t root = some l := by
      rw [← hk]
      exact hl
    obtain ⟨n, lInt, lExt, hn, hInt, hExt, hleq⟩ := childIndicesF_unfold hlk
    have hbound : ∀ x ∈ l, x < t.nodes.length := childIndicesF_mem_lt hl
    have hlenle : l.length ≤ t.nodes.length := nodup_lt_length_le hnd hbound
    have hkle : k + 1 ≤ t.nodes.length := by omega
    have hrootlt : root < t.nodes.length := hbound root hrootmem
    obtain ⟨pr, hprg, hpr⟩ := nodeIndexData_of_center hlen hcent hn
    have h1nd : ((lInt ++ lExt) ++ [root]).Nodup := by
      rw [← hleq]
      exact hnd
    obtain ⟨hndIE, hndR, hdisj1⟩ := List.nodup_append.1 h1nd
    have hrootnotIE : root ∉ lInt ++ lExt := fun hx =>
      hdisj1 hx (List.mem_singleton_self root)
    obtain ⟨hndI, hndE, hdisjIE⟩ := List.nodup_append.1 hndIE
    have hmemI : ∀ x ∈ lInt, x ∈ l := fun x hx => by
      rw [hleq]
      exact List.mem_append_left _ (List.mem_append_left _ hx)
    have hmemE : ∀ x ∈ lExt, x ∈ l := fun x hx => by
      rw [hleq]
      exact List.mem_append_left _ (List.mem_append_right _ hx)
    have hNl : t.nodes.length ∉ l := fun hx => absurd (hbound _ hx) (lt_irrefl _)
    have hNcons : (t.nodes.length :: l).Nodup := List.nodup_cons.2 ⟨hNl, hnd⟩
    have hlleq : l.length = lInt.length + lExt.length + 1 := by
      rw [hleq]
      simp only [List.length_append, List.length_cons, List.length_nil]
    have hNIdef : (t.data ++ [value]).length - 1 = t.data.length := by simp
    by_cases hlt : dist (loc pr) (loc value) < n.radius
    · cases hci : n.interior with
      | some ci =>
        have hIntc : childIndicesF k t ci = some lInt := by
          have h2 := hInt
          rw [hci, childEnumOpt_some] at h2
          exact h2
        obtain ⟨t1, ht1, hroot1, hdata1, hlen1e, hcent1, hframe1,
            ⟨l1, hl1, hperm1⟩, hh1, hp1⟩ :=
          @ih t ci lInt value hlen hcent (childIndicesF_shrink hIntc) hndI
            (fun j hj _ => hh j (hmemI j hj)
              (fun e => hrootnotIE (e ▸ List.mem_append_left _ hj)))
            (fun j hj => hp j (hmemI j hj))
            (by omega)
        have hl1len : l1.length = lInt.length + 1 := by
          rw [hperm1.length_eq]
          rfl
        have hdatalen1 : t1.nodes.length = t1.data.length := by
          rw [hlen1e, hdata1, List.length_append, List.length_singleton, hlen]
        have hrnotI : root ∉ lInt := fun hx => hrootnotIE (List.mem_append_left _ hx)
        have hframe1N : ∀ x, x ∈ lExt ∨ x = root → nodeGet t1 x = nodeGet t x := by
          intro x hx
          refine hframe1 x ?_ ?_
          · intro hxI
            rcases hx with hxE | rfl
            · exact hdisjIE hxI hxE
            · exact hrnotI hxI
          · rcases hx with hxE | rfl
            · have := hbound x (hmemE x hxE)
              omega
            · omega
        have hagreeE : ∀ x ∈ lExt, nodeGet t1 x = nodeGet t x :=
          fun x hx => hframe1N x (Or.inl hx)
        have hn1 : nodeGet t1 root = some n := by
          rw [hframe1N root (Or.inr rfl)]
          exact hn
        have hExt1 : childEnumOpt k t1 n.exterior = some lExt := by
          cases hce : n.exterior with
          | none =>
            have h2 := hExt
            rw [hce] at h2
            exact h2
          | some ce =>
            have h2 := hExt
            rw [hce, childEnumOpt_some] at h2
            rw [childEnumOpt_some]
            exact childIndicesF_frame h2 hagreeE
        have hl2b : childIndicesF (max l1.length k + 1) t1 root =
            some (l1 ++ lExt ++ [root]) := by
          refine childIndicesF_build hn1 ?_ ?_
          · rw [hci, childEnumOpt_some]
            exact childIndicesF_mono hl1 (le_max_left _ _)
          · exact childEnumOpt_mono (fun h hg => childIndicesF_mono h hg) hExt1
              (le_max_right _ _)
        have hl2 : childIndicesF (l1 ++ lExt ++ [root]).length t1 root =
            some (l1 ++ lExt ++ [root]) := childIndicesF_shrink hl2b
        have hpermL2 : (l1 ++ lExt ++ [root]).Perm (t.nodes.length :: l) := by
          refine List.Perm.trans ((hperm1.append_right lExt).append_right [root]) ?_
          rw [hleq]
          exact List.Perm.refl _
        have hnd2 : (l1 ++ lExt ++ [root]).Nodup := hpermL2.nodup_iff.2 hNcons
        have hh2 : ∀ j ∈ l1 ++ lExt ++ [root], j ≠ root → heightOkAt t1 j := by
          intro j hj hjr
          rcases List.mem_append.1 hj with hj1 | hjroot
          · rcases List.mem_append.1 hj1 with hjA | hjE
            · exact hh1 j (hperm1.subset hjA)
            · cases hce : n.exterior with
              | none =>
                have h2 := hExt
                rw [hce] at h2
                have he : lExt = [] := childEnumOpt_none h2
                rw [he] at hjE
                cases hjE
              | some ce =>
                have h2 := hExt
                rw [hce, childEnumOpt_some] at h2
                obtain ⟨lj, hlj, hsub⟩ := childIndicesF_sub_enum h2 j hjE
                exact heightOkAt_frame hlj (fun x hx => hagreeE x (hsub hx))
                  (hh j (hmemE j hjE) hjr)
          · exact absurd (by simpa using hjroot) hjr
        have hptE : ∀ x, x < t.nodes.length → pointAt t1 x = pointAt t x := by
          intro x hx
          exact pointAt_extend hlen hcent hcent1 hdata1 hx (by omega)
        have hcdE : ∀ a b, a < t.nodes.length → b < t.nodes.length →
            centerDistOf dist loc t1 a b = centerDistOf dist loc t a b := by
          intro a b ha hb
          unfold centerDistOf
          rw [hptE a ha, hptE b hb]
        have hptroot : pointAt t1 root = some pr := by
          rw [hptE root hrootlt]
          exact hpr
        have hptN : pointAt t1 t.nodes.length = some value := by
          obtain ⟨nN, hnN⟩ := nodeGet_of_lt
            (show t.nodes.length < t1.nodes.length by omega)
          have hcN : nN.center = t.nodes.length := center_eq_of_nodeGet hcent1 hnN
          show (nodeGet t1 t.nodes.length).bind (fun mm => t1.data.get? mm.center) =
            some value
          rw [hnN, Option.some_bind, hcN, hdata1, hlen]
          exact List.get?_concat_length _ _
        have hp2 : ∀ j ∈ l1 ++ lExt ++ [root], partOkAt dist loc t1 j := by
          intro j hj
          rcases List.mem_append.1 hj with hj1 | hjroot
          · rcases List.mem_append.1 hj1 with hjA | hjE
            · exact hp1 j (hperm1.subset hjA)
            · cases hce : n.exterior with
              | none =>
                have h2 := hExt
                rw [hce] at h2
                have he : lExt = [] := childEnumOpt_none h2
                rw [he] at hjE
                cases hjE
              | some ce =>
                have h2 := hExt
                rw [hce, childEnumOpt_some] at h2
                obtain ⟨lj, hlj, hsub⟩ := childIndicesF_sub_enum h2 j hjE
                refine partOkAt_frame_ext hkle (by omega)
                  (childIndicesF_mono hlj (Nat.le_succ _))
                  (fun x hx => hagreeE x (hsub hx))
                  (fun x hx => hptE x (hbound x (hmemE x (hsub hx))))
                  (hp j (hmemE j hjE))
          · have hjr : j = root := by simpa using hjroot
            rw [hjr]
            intro m hm
            rw [hn1] at hm
            obtain rfl := Option.some_inj.1 hm
            obtain ⟨hpi, hpe⟩ := hp root hrootmem n hn
            constructor
            · intro c hc
              rw [hci] at hc
              obtain rfl := Option.some_inj.1 hc
              have hst1 : subtreeOf t1 ci = some l1 :=
                childIndicesF_mono hl1 (by omega)
              rw [hst1]
              intro x hx
              rcases List.mem_cons.1 (hperm1.subset hx) with hxN | hxI
              · rw [hxN]
                have hcc : centerDistOf dist loc t1 root t.nodes.length =
                    some (dist (loc pr) (loc value)) := by
                  unfold centerDistOf
                  rw [hptroot, hptN]
                  rfl
                rw [hcc]
                exact le_of_lt hlt
              · have hold := hpi ci hci
                have hstt : subtreeOf t ci = some lInt :=
                  childIndicesF_mono hIntc (by omega)
                rw [hstt] at hold
                rw [hcdE root x hrootlt (hbound x (hmemI x hxI))]
                exact hold x hxI
            · intro c hc
              cases hce : n.exterior with
              | none =>
                rw [hce] at hc
                cases hc
              | some ce =>
                rw [hce] at hc
                obtain rfl := Option.some_inj.1 hc
                have h2 := hExt
                rw [hce, childEnumOpt_some] at h2
                have hE1 : childIndicesF k t1 ce = some lExt :=
                  childIndicesF_frame h2 hagreeE
                have hst1 : subtreeOf t1 ce = some lExt :=
                  childIndicesF_mono hE1 (by omega)
                rw [hst1]
                intro x hx
                have hold := hpe ce hce
                have hstt : subtreeOf t ce = some lExt :=
                  childIndicesF_mono h2 (by omega)
                rw [hstt] at hold
                rw [hcdE root x hrootlt (hbound x (hmemE x hx))]
                exact hold x hx
        have hframe2 : ∀ j, j ∉ l1 ++ lExt ++ [root] →
            nodeGet t1 j = nodeGet t j := by
          intro j hj
          refine hframe1 j ?_ ?_
          · intro hxI
            exact hj (List.mem_append_left _ (List.mem_append_left _
              (hperm1.mem_iff.2 (List.mem_cons_of_mem _ hxI))))
          · intro he
            exact hj (List.mem_append_left _ (List.mem_append_left _
              (hperm1.mem_iff.2 (by rw [he]; exact List.mem_cons_self _ _))))
        obtain ⟨t3, heq3, hc3⟩ := insertRoot_finish dist loc hdatalen1 hcent1 hl2
          hnd2 hh2 hp2 hroot1 hdata1 hlen1e hframe2 hpermL2
        refine ⟨t3, ?_, hc3⟩
        rw [insertRootF_succ_eq, hpr]
        simp only [Option.some_bind]
        rw [hn]
        simp only [Option.some_bind]
        rw [if_pos hlt, hci]
        show (insertRootF dist loc fuel t ci value).bind (fun t1b =>
          (setHeight t1b root).bind fun t2c => rebalance dist loc t2c root) = some t3
        rw [ht1]
        simp only [Option.some_bind]
        exact heq3
      | none =>
        have hlIntnil : lInt = [] := by
          have h2 := hInt
          rw [hci] at h2
          exact childEnumOpt_none h2
        subst hlIntnil
        have hgetTpN : nodeGet
            { t with
                data := t.data ++ [value]
                nodes := t.nodes ++ [Node.newLeaf t.data.length (some root)] }
            t.data.length = some (Node.newLeaf t.data.length (some root)) := by
          show (t.nodes ++ [Node.newLeaf t.data.length (some root)]).get? t.data.length =
            some (Node.newLeaf t.data.length (some root))
          have h2 : (t.nodes ++ [Node.newLeaf t.data.length (some root)]).get?
              t.nodes.length = some (Node.newLeaf t.data.length (some root)) :=
            List.get?_concat_length _ _
          rw [hlen] at h2
          exact h2
        have hgetTpOld : ∀ j, j < t.nodes.length → nodeGet
            { t with
                data := t.data ++ [value]
                nodes := t.nodes ++ [Node.newLeaf t.data.length (some root)] } j =
            nodeGet t j := by
          intro j hj
          show (t.nodes ++ [Node.newLeaf t.data.length (some root)]).get? j =
            t.nodes.get? j
          exact List.get?_append hj
        obtain ⟨t2v, ht2v⟩ : ∃ t2v, setNode
            { t with
                data := t.data ++ [value]
                nodes := t.nodes ++ [Node.newLeaf t.data.length (some root)] }
            t.data.length
            (fun m => { m with radius := fclamp (dist (loc pr) (loc value)) (n.radius / 2) n.radius }) = some t2v :=
          ⟨_, setNode_isSome hgetTpN⟩
        have hNIr : t.data.length ≠ root := by omega
        have hrNI : root ≠ t.data.length := by omega
        have hgetT2root : nodeGet t2v root = some n := by
          rw [nodeGet_setNode_other ht2v hNIr, hgetTpOld root hrootlt]
          exact hn
        obtain ⟨t1v, ht1v⟩ : ∃ t1v, setNode t2v root
            (fun m => { m with interior := some t.data.length }) = some t1v :=
          ⟨_, setNode_isSome hgetT2root⟩
        have hn1v : nodeGet t1v root = some { n with interior := some t.data.length } := by
          rw [nodeGet_setNode_self ht1v, hgetT2root]
          rfl
        have hgetNIv : nodeGet t1v t.data.length =
            some { Node.newLeaf t.data.length (some root) with radius := fclamp (dist (loc pr) (loc value)) (n.radius / 2) n.radius } := by
          rw [nodeGet_setNode_other ht1v hrNI, nodeGet_setNode_self ht2v, hgetTpN]
          rfl
        have hframe1 : ∀ j, j ≠ root → j ≠ t.data.length →
            nodeGet t1v j = nodeGet t j := by
          intro j hjr hjN
          rw [nodeGet_setNode_other ht1v (Ne.symm hjr),
            nodeGet_setNode_other ht2v (Ne.symm hjN)]
          show (t.nodes ++ [Node.newLeaf t.data.length (some root)]).get? j =
            t.nodes.get? j
          by_cases hj : j < t.nodes.length
          · exact List.get?_append hj
          · rw [List.get?_eq_none.2
              (by rw [List.length_append, List.length_singleton]; omega),
              List.get?_eq_none.2 (by omega)]
        have hlen1e : t1v.nodes.length = t.nodes.length + 1 := by
          rw [setNode_length ht1v, setNode_length ht2v]
          show (t.nodes ++ [Node.newLeaf t.data.length (some root)]).length =
            t.nodes.length + 1
          rw [List.length_append, List.length_singleton]
        have hdata1 : t1v.data = t.data ++ [value] := by
          rw [setNode_data ht1v, setNode_data ht2v]
        have hroot1 : t1v.root = t.root := by
          rw [setNode_root ht1v, setNode_root ht2v]
        have hdatalen1 : t1v.nodes.length = t1v.data.length := by
          rw [hlen1e, hdata1, List.length_append, List.length_singleton, hlen]
        have hcent1 : ∀ p ∈ t1v.nodes.enum, p.2.center = p.1 := by
          intro p hp2
          obtain ⟨i, nd⟩ := p
          have hg : nodeGet t1v i = some nd := List.mem_enum_iff_get?.1 hp2
          show nd.center = i
          by_cases h1 : i = root
          · rw [h1] at hg
            rw [hn1v] at hg
            have h3 : ({ n with interior := some t.data.length } : Node) = nd :=
              Option.some_inj.1 hg
            rw [← h3, h1]
            show n.center = root
            exact center_eq_of_nodeGet hcent hn
          · by_cases h2 : i = t.data.length
            · rw [h2] at hg
              rw [hgetNIv] at hg
              have h3 := Option.some_inj.1 hg
              rw [← h3, h2]
              rfl
            · rw [hframe1 i h1 h2] at hg
              exact center_eq_of_nodeGet hcent hg
        have hagreeE : ∀ x ∈ lExt, nodeGet t1v x = nodeGet t x := by
          intro x hx
          have hxl : x < t.nodes.length := hbound x (hmemE x hx)
          refine hframe1 x ?_ (by omega)
          intro he
          exact hrootnotIE (he ▸ hx)
        have hNIenum : childIndicesF 1 t1v t.data.length = some [t.data.length] := by
          rw [childIndicesF_succ_eq, hgetNIv]
          rfl
        have hExt1 : childEnumOpt k t1v n.exterior = some lExt := by
          cases hce : n.exterior with
          | none =>
            have h2 := hExt
            rw [hce] at h2
            exact h2
          | some ce =>
            have h2 := hExt
            rw [hce, childEnumOpt_some] at h2
            rw [childEnumOpt_some]
            exact childIndicesF_frame h2 hagreeE
        have hl2b : childIndicesF (max 1 k + 1) t1v root =
            some ([t.data.length] ++ lExt ++ [root]) := by
          refine childIndicesF_build hn1v ?_ ?_
          · show childEnumOpt (max 1 k) t1v (some t.data.length) = some [t.data.length]
            rw [childEnumOpt_some]
            exact childIndicesF_mono hNIenum (le_max_left _ _)
          · show childEnumOpt (max 1 k) t1v n.exterior = some lExt
            exact childEnumOpt_mono (fun h hg => childIndicesF_mono h hg) hExt1
              (le_max_right _ _)
        have hl2 : childIndicesF ([t.data.length] ++ lExt ++ [root]).length t1v root =
            some ([t.data.length] ++ lExt ++ [root]) := childIndicesF_shrink hl2b
        have hpermL2 : ([t.data.length] ++ lExt ++ [root]).Perm (t.nodes.length :: l) := by
          rw [hleq, hlen]
          exact List.Perm.refl _
        have hnd2 : ([t.data.length] ++ lExt ++ [root]).Nodup :=
          hpermL2.nodup_iff.2 hNcons
        have hh2 : ∀ j ∈ [t.data.length] ++ lExt ++ [root], j ≠ root →
            heightOkAt t1v j := by
          intro j hj hjr
          rcases List.mem_append.1 hj with hj1 | hjroot
          · rcases List.mem_append.1 hj1 with hjA | hjE
            · have hjNI : j = t.data.length := by simpa using hjA
              rw [hjNI]
              intro m hm
              rw [hgetNIv] at hm
              obtain rfl := Option.some_inj.1 hm
              exact rfl
            · cases hce : n.exterior with
              | none =>
                have h2 := hExt
                rw [hce] at h2
                have he : lExt = [] := childEnumOpt_none h2
                rw [he] at hjE
                cases hjE
              | some ce =>
                have h2 := hExt
                rw [hce, childEnumOpt_some] at h2
                obtain ⟨lj, hlj, hsub⟩ := childIndicesF_sub_enum h2 j hjE
                exact heightOkAt_frame hlj (fun x hx => hagreeE x (hsub hx))
                  (hh j (hmemE j hjE) hjr)
          · exact absurd (by simpa using hjroot) hjr
        have hptE : ∀ x, x < t.nodes.length → pointAt t1v x = pointAt t x := by
          intro x hx
          exact pointAt_extend hlen hcent hcent1 hdata1 hx (by omega)
        have hcdE : ∀ a b, a < t.nodes.length → b < t.nodes.length →
            centerDistOf dist loc t1v a b = centerDistOf dist loc t a b := by
          intro a b ha hb
          unfold centerDistOf
          rw [hptE a ha, hptE b hb]
        have hptroot : pointAt t1v root = some pr := by
          rw [hptE root hrootlt]
          exact hpr
        have hptN : pointAt t1v t.data.length = some value := by
          show (nodeGet t1v t.data.length).bind (fun mm => t1v.data.get? mm.center) =
            some value
          rw [hgetNIv, Option.some_bind]
          show t1v.data.get? t.data.length = some value
          rw [hdata1]
          exact List.get?_concat_length _ _
        have hp2 : ∀ j ∈ [t.data.length] ++ lExt ++ [root], partOkAt dist loc t1v j := by
          intro j hj
          rcases List.mem_append.1 hj with hj1 | hjroot
          · rcases List.mem_append.1 hj1 with hjA | hjE
            · have hjNI : j = t.data.length := by simpa using hjA
              rw [hjNI]
              intro m hm
              rw [hgetNIv] at hm
              obtain rfl := Option.some_inj.1 hm
              exact ⟨fun c hc => Option.noConfusion hc,
                fun c hc => Option.noConfusion hc⟩
            · cases hce : n.exterior with
              | none =>
                have h2 := hExt
                rw [hce] at h2
                have he : lExt = [] := childEnumOpt_none h2
                rw [he] at hjE
                cases hjE
              | some ce =>
                have h2 := hExt
                rw [hce, childEnumOpt_some] at h2
                obtain ⟨lj, hlj, hsub⟩ := childIndicesF_sub_enum h2 j hjE
                refine partOkAt_frame_ext hkle (by omega)
                  (childIndicesF_mono hlj (Nat.le_succ _))
                  (fun x hx => hagreeE x (hsub hx))
                  (fun x hx => hptE x (hbound x (hmemE x (hsub hx))))
                  (hp j (hmemE j hjE))
          · have hjr : j = root := by simpa using hjroot
            rw [hjr]
            intro m hm
            rw [hn1v] at hm
            obtain rfl := Option.some_inj.1 hm
            obtain ⟨hpi, hpe⟩ := hp root hrootmem n hn
            constructor
            · intro c hc
              have hc2 : some t.data.length = some c := hc
              obtain rfl := Option.some_inj.1 hc2
              have hst1 : subtreeOf t1v t.data.length = some [t.data.length] :=
                childIndicesF_mono hNIenum (by omega)
              rw [hst1]
              intro x hx
              have hxNI : x = t.data.length := by simpa using hx
              rw [hxNI]
              have hcc : centerDistOf dist loc t1v root t.data.length =
                  some (dist (loc pr) (loc value)) := by
                unfold centerDistOf
                rw [hptroot, hptN]
                rfl
              rw [hcc]
              exact le_of_lt hlt
            · intro c hc
              have hc2 : n.exterior = some c := hc
              cases hce : n.exterior with
              | none =>
                rw [hce] at hc2
                cases hc2
              | some ce =>
                rw [hce] at hc2
                obtain rfl := Option.some_inj.1 hc2
                have h2 := hExt
                rw [hce, childEnumOpt_some] at h2
                have hE1 : childIndicesF k t1v ce = some lExt :=
                  childIndicesF_frame h2 hagreeE
                have hst1 : subtreeOf t1v ce = some lExt :=
                  childIndicesF_mono hE1 (by omega)
                rw [hst1]
                intro x hx
                have hold := hpe ce hce
                have hstt : subtreeOf t ce = some lExt :=
                  childIndicesF_mono h2 (by omega)
                rw [hstt] at hold
                rw [hcdE root x hrootlt (hbound x (hmemE x hx))]
                exact hold x hx
        have hframe2 : ∀ j, j ∉ [t.data.length] ++ lExt ++ [root] →
            nodeGet t1v j = nodeGet t j := by
          intro j hj
          refine hframe1 j ?_ ?_
          · intro he
            exact hj (by
              rw [he]
              exact List.mem_append_right _ (List.mem_singleton_self _))
          · intro he
            exact hj (by
              rw [he]
              exact List.mem_append_left _ (List.mem_append_left _
                (List.mem_singleton_self _)))
        obtain ⟨t3, heq3, hc3⟩ := insertRoot_finish dist loc hdatalen1 hcent1 hl2
          hnd2 hh2 hp2 hroot1 hdata1 hlen1e hframe2 hpermL2
        refine ⟨t3, ?_, hc3⟩
        rw [insertRootF_succ_eq, hpr]
        simp only [Option.some_bind]
        rw [hn]
        simp only [Option.some_bind]
        rw [if_pos hlt, hci]
        show ((setNode
            { t with
                data := t.data ++ [value]
                nodes := t.nodes ++
                  [Node.newLeaf ((t.data ++ [value]).length - 1) (some root)] }
            ((t.data ++ [value]).length - 1)
            (fun m => { m with radius := fclamp (dist (loc pr) (loc value)) (n.radius / 2) n.radius })).bind fun t2b =>
          (setNode t2b root fun m =>
            { m with interior := some ((t.data ++ [value]).length - 1) }).bind fun t1b =>
          (setHeight t1b root).bind fun t2c => rebalance dist loc t2c root) = some t3
        rw [hNIdef, ht2v]
        simp only [Option.some_bind]
        rw [ht1v]
        simp only [Option.some_bind]
        exact heq3
    · cases hce : n.exterior with
      | some ce =>
        have hExtc : childIndicesF k t ce = some lExt := by
          have h2 := hExt
          rw [hce, childEnumOpt_some] at h2
          exact h2
        obtain ⟨t1, ht1, hroot1, hdata1, hlen1e, hcent1, hframe1,
            ⟨l1, hl1, hperm1⟩, hh1, hp1⟩ :=
          @ih t ce lExt value hlen hcent (childIndicesF_shrink hExtc) hndE
            (fun j hj _ => hh j (hmemE j hj)
              (fun e => hrootnotIE (e ▸ List.mem_append_right _ hj)))
            (fun j hj => hp j (hmemE j hj))
            (by omega)
        have hl1len : l1.length = lExt.length + 1 := by
          rw [hperm1.length_eq]
          rfl
        have hdatalen1 : t1.nodes.length = t1.data.length := by
          rw [hlen1e, hdata1, List.length_append, List.length_singleton, hlen]
        have hrnotE : root ∉ lExt := fun hx => hrootnotIE (List.mem_append_right _ hx)
        have hframe1N : ∀ x, x ∈ lInt ∨ x = root → nodeGet t1 x = nodeGet t x := by
          intro x hx
          refine hframe1 x ?_ ?_
          · intro hxE
            rcases hx with hxI | rfl
            · exact hdisjIE hxI hxE
            · exact hrnotE hxE
          · rcases hx with hxI | rfl
            · have := hbound x (hmemI x hxI)
              omega
            · omega
        have hagreeI : ∀ x ∈ lInt, nodeGet t1 x = nodeGet t x :=
          fun x hx => hframe1N x (Or.inl hx)
        have hn1 : nodeGet t1 root = some n := by
          rw [hframe1N root (Or.inr rfl)]
          exact hn
        have hInt1 : childEnumOpt k t1 n.interior = some lInt := by
          cases hci : n.interior with
          | none =>
            have h2 := hInt
            rw [hci] at h2
            exact h2
          | some ci =>
            have h2 := hInt
            rw [hci, childEnumOpt_some] at h2
            rw [childEnumOpt_some]
            exact childIndicesF_frame h2 hagreeI
        have hl2b : childIndicesF (max l1.length k + 1) t1 root =
            some (lInt ++ l1 ++ [root]) := by
          refine childIndicesF_build hn1 ?_ ?_
          · exact childEnumOpt_mono (fun h hg => childIndicesF_mono h hg) hInt1
              (le_max_right _ _)
          · rw [hce, childEnumOpt_some]
            exact childIndicesF_mono hl1 (le_max_left _ _)
        have hl2 : childIndicesF (lInt ++ l1 ++ [root]).length t1 root =
            some (lInt ++ l1 ++ [root]) := childIndicesF_shrink hl2b
        have hpermL2 : (lInt ++ l1 ++ [root]).Perm (t.nodes.length :: l) := by
          refine List.Perm.trans ((hperm1.append_left lInt).append_right [root]) ?_
          have hmid : (lInt ++ (t.nodes.length :: lExt)).Perm
              (t.nodes.length :: (lInt ++ lExt)) := List.perm_middle
          refine List.Perm.trans (hmid.append_right [root]) ?_
          rw [hleq]
          exact List.Perm.refl _
        have hnd2 : (lInt ++ l1 ++ [root]).Nodup := hpermL2.nodup_iff.2 hNcons
        have hh2 : ∀ j ∈ lInt ++ l1 ++ [root], j ≠ root → heightOkAt t1 j := by
          intro j hj hjr
          rcases List.mem_append.1 hj with hj1 | hjroot
          · rcases List.mem_append.1 hj1 with hjI | hjA
            · cases hci : n.interior with
              | none =>
                have h2 := hInt
                rw [hci] at h2
                have he : lInt = [] := childEnumOpt_none h2
                rw [he] at hjI
                cases hjI
              | some ci =>
                have h2 := hInt
                rw [hci, childEnumOpt_some] at h2
                obtain ⟨lj, hlj, hsub⟩ := childIndicesF_sub_enum h2 j hjI
                exact heightOkAt_frame hlj (fun x hx => hagreeI x (hsub hx))
                  (hh j (hmemI j hjI) hjr)
            · exact hh1 j (hperm1.subset hjA)
          · exact absurd (by simpa using hjroot) hjr
        have hptE : ∀ x, x < t.nodes.length → pointAt t1 x = pointAt t x := by
          intro x hx
          exact pointAt_extend hlen hcent hcent1 hdata1 hx (by omega)
        have hcdE : ∀ a b, a < t.nodes.length → b < t.nodes.length →
            centerDistOf dist loc t1 a b = centerDistOf dist loc t a b := by
          intro a b ha hb
          unfold centerDistOf
          rw [hptE a ha, hptE b hb]
        have hptroot : pointAt t1 root = some pr := by
          rw [hptE root hrootlt]
          exact hpr
        have hptN : pointAt t1 t.nodes.length = some value := by
          obtain ⟨nN, hnN⟩ := nodeGet_of_lt
            (show t.nodes.length < t1.nodes.length by omega)
          have hcN : nN.center = t.nodes.length := center_eq_of_nodeGet hcent1 hnN
          show (nodeGet t1 t.nodes.length).bind (fun mm => t1.data.get? mm.center) =
            some value
          rw [hnN, Option.some_bind, hcN, hdata1, hlen]
          exact List.get?_concat_length _ _
        have hp2 : ∀ j ∈ lInt ++ l1 ++ [root], partOkAt dist loc t1 j := by
          intro j hj
          rcases List.mem_append.1 hj with hj1 | hjroot
          · rcases List.mem_append.1 hj1 with hjI | hjA
            · cases hci : n.interior with
              | none =>
                have h2 := hInt
                rw [hci] at h2
                have he : lInt = [] := childEnumOpt_none h2
                rw [he] at hjI
                cases hjI
              | some ci =>
                have h2 := hInt
                rw [hci, childEnumOpt_some] at h2
                obtain ⟨lj, hlj, hsub⟩ := childIndicesF_sub_enum h2 j hjI
                refine partOkAt_frame_ext hkle (by omega)
                  (childIndicesF_mono hlj (Nat.le_succ _))
                  (fun x hx => hagreeI x (hsub hx))
                  (fun x hx => hptE x (hbound x (hmemI x (hsub hx))))
                  (hp j (hmemI j hjI))
            · exact hp1 j (hperm1.subset hjA)
          · have hjr : j = root := by simpa using hjroot
            rw [hjr]
            intro m hm
            rw [hn1] at hm
            obtain rfl := Option.some_inj.1 hm
            obtain ⟨hpi, hpe⟩ := hp root hrootmem n hn
            constructor
            · intro c hc
              cases hci : n.interior with
              | none =>
                rw [hci] at hc
                cases hc
              | some ci =>
                rw [hci] at hc
                obtain rfl := Option.some_inj.1 hc
                have h2 := hInt
                rw [hci, childEnumOpt_some] at h2
                have hI1 : childIndicesF k t1 ci = some lInt :=
                  childIndicesF_frame h2 hagreeI
                have hst1 : subtreeOf t1 ci = some lInt :=
                  childIndicesF_mono hI1 (by omega)
                rw [hst1]
                intro x hx
                have hold := hpi ci hci
                have hstt : subtreeOf t ci = some lInt :=
                  childIndicesF_mono h2 (by omega)
                rw [hstt] at hold
                rw [hcdE root x hrootlt (hbound x (hmemI x hx))]
                exact hold x hx
            · intro c hc
              rw [hce] at hc
              obtain rfl := Option.some_inj.1 hc
              have hst1 : subtreeOf t1 ce = some l1 :=
                childIndicesF_mono hl1 (by omega)
              rw [hst1]
              intro x hx
              rcases List.mem_cons.1 (hperm1.subset hx) with hxN | hxE
              · rw [hxN]
                have hcc : centerDistOf dist loc t1 root t.nodes.length =
                    some (dist (loc pr) (loc value)) := by
                  unfold centerDistOf
                  rw [hptroot, hptN]
                  rfl
                rw [hcc]
                exact le_of_not_lt hlt
              · have hold := hpe ce hce
                have hstt : subtreeOf t ce = some lExt :=
                  childIndicesF_mono hExtc (by omega)
                rw [hstt] at hold
                rw [hcdE root x hrootlt (hbound x (hmemE x hxE))]
                exact hold x hxE
        have hframe2 : ∀ j, j ∉ lInt ++ l1 ++ [root] →
            nodeGet t1 j = nodeGet t j := by
          intro j hj
          refine hframe1 j ?_ ?_
          · intro hxE
            exact hj (List.mem_append_left _ (List.mem_append_right _
              (hperm1.mem_iff.2 (List.mem_cons_of_mem _ hxE))))
          · intro he
            exact hj (List.mem_append_left _ (List.mem_append_right _
              (hperm1.mem_iff.2 (by rw [he]; exact List.mem_cons_self _ _))))
        obtain ⟨t3, heq3, hc3⟩ := insertRoot_finish dist loc hdatalen1 hcent1 hl2
          hnd2 hh2 hp2 hroot1 hdata1 hlen1e hframe2 hpermL2
        refine ⟨t3, ?_, hc3⟩
        rw [insertRootF_succ_eq, hpr]
        simp only [Option.some_bind]
        rw [hn]
        simp only [Option.some_bind]
        rw [if_neg hlt, hce]
        show (insertRootF dist loc fuel t ce value).bind (fun t1b =>
          (setHeight t1b root).bind fun t2c => rebalance dist loc t2c root) = some t3
        rw [ht1]
        simp only [Option.some_bind]
        exact heq3
      | none =>
        have hlExtnil : lExt = [] := by
          have h2 := hExt
          rw [hce] at h2
          exact childEnumOpt_none h2
        subst hlExtnil
        have hgetTpN : nodeGet
            { t with
                data := t.data ++ [value]
                nodes := t.nodes ++ [Node.newLeaf t.data.length (some root)] }
            t.data.length = some (Node.newLeaf t.data.length (some root)) := by
          show (t.nodes ++ [Node.newLeaf t.data.length (some root)]).get? t.data.length =
            some (Node.newLeaf t.data.length (some root))
          have h2 : (t.nodes ++ [Node.newLeaf t.data.length (some root)]).get?
              t.nodes.length = some (Node.newLeaf t.data.length (some root)) :=
            List.get?_concat_length _ _
          rw [hlen] at h2
          exact h2
        have hgetTpOld : ∀ j, j < t.nodes.length → nodeGet
            { t with
                data := t.data ++ [value]
                nodes := t.nodes ++ [Node.newLeaf t.data.length (some root)] } j =
            nodeGet t j := by
          intro j hj
          show (t.nodes ++ [Node.newLeaf t.data.length (some root)]).get? j =
            t.nodes.get? j
          exact List.get?_append hj
        obtain ⟨t2v, ht2v⟩ : ∃ t2v, setNode
            { t with
                data := t.data ++ [value]
                nodes := t.nodes ++ [Node.newLeaf t.data.length (some root)] }
            t.data.length
            (fun m => { m with radius := fclamp (dist (loc pr) (loc value)) (n.radius / 2) n.radius }) = some t2v :=
          ⟨_, setNode_isSome hgetTpN⟩
        have hNIr : t.data.length ≠ root := by omega
        have hrNI : root ≠ t.data.length := by omega
        have hgetT2root : nodeGet t2v root = some n := by
          rw [nodeGet_setNode_other ht2v hNIr, hgetTpOld root hrootlt]
          exact hn
        obtain ⟨t1v, ht1v⟩ : ∃ t1v, setNode t2v root
            (fun m => { m with exterior := some t.data.length }) = some t1v :=
          ⟨_, setNode_isSome hgetT2root⟩
        have hn1v : nodeGet t1v root = some { n with exterior := some t.data.length } := by
          rw [nodeGet_setNode_self ht1v, hgetT2root]
          rfl
        have hgetNIv : nodeGet t1v t.data.length =
            some { Node.newLeaf t.data.length (some root) with radius := fclamp (dist (loc pr) (loc value)) (n.radius / 2) n.radius } := by
          rw [nodeGet_setNode_other ht1v hrNI, nodeGet_setNode_self ht2v, hgetTpN]
          rfl
        have hframe1 : ∀ j, j ≠ root → j ≠ t.data.length →
            nodeGet t1v j = nodeGet t j := by
          intro j hjr hjN
          rw [nodeGet_setNode_other ht1v (Ne.symm hjr),
            nodeGet_setNode_other ht2v (Ne.symm hjN)]
          show (t.nodes ++ [Node.newLeaf t.data.length (some root)]).get? j =
            t.nodes.get? j
          by_cases hj : j < t.nodes.length
          · exact List.get?_append hj
          · rw [List.get?_eq_none.2
              (by rw [List.length_append, List.length_singleton]; omega),
              List.get?_eq_none.2 (by omega)]
        have hlen1e : t1v.nodes.length = t.nodes.length + 1 := by
          rw [setNode_length ht1v, setNode_length ht2v]
          show (t.nodes ++ [Node.newLeaf t.data.length (some root)]).length =
            t.nodes.length + 1
          rw [List.length_append, List.length_singleton]
        have hdata1 : t1v.data = t.data ++ [value] := by
          rw [setNode_data ht1v, setNode_data ht2v]
        have hroot1 : t1v.root = t.root := by
          rw [setNode_root ht1v, setNode_root ht2v]
        have hdatalen1 : t1v.nodes.length = t1v.data.length := by
          rw [hlen1e, hdata1, List.length_append, List.length_singleton, hlen]
        have hcent1 : ∀ p ∈ t1v.nodes.enum, p.2.center = p.1 := by
          intro p hp2
          obtain ⟨i, nd⟩ := p
          have hg : nodeGet t1v i = some nd := List.mem_enum_iff_get?.1 hp2
          show nd.center = i
          by_cases h1 : i = root
          · rw [h1] at hg
            rw [hn1v] at hg
            have h3 : ({ n with exterior := some t.data.length } : Node) = nd :=
              Option.some_inj.1 hg
            rw [← h3, h1]
            show n.center = root
            exact center_eq_of_nodeGet hcent hn
          · by_cases h2 : i = t.data.length
            · rw [h2] at hg
              rw [hgetNIv] at hg
              have h3 := Option.some_inj.1 hg
              rw [← h3, h2]
              rfl
            · rw [hframe1 i h1 h2] at hg
              exact center_eq_of_nodeGet hcent hg
        have hagreeI : ∀ x ∈ lInt, nodeGet t1v x = nodeGet t x := by
          intro x hx
          have hxl : x < t.nodes.length := hbound x (hmemI x hx)
          refine hframe1 x ?_ (by omega)
          intro he
          exact hrootnotIE (he ▸ List.mem_append_left _ hx)
        have hNIenum : childIndicesF 1 t1v t.data.length = some [t.data.length] := by
          rw [childIndicesF_succ_eq, hgetNIv]
          rfl
        have hInt1 : childEnumOpt k t1v n.interior = some lInt := by
          cases hci : n.interior with
          | none =>
            have h2 := hInt
            rw [hci] at h2
            exact h2
          | some ci =>
            have h2 := hInt
            rw [hci, childEnumOpt_some] at h2
            rw [childEnumOpt_some]
            exact childIndicesF_frame h2 hagreeI
        have hl2b : childIndicesF (max 1 k + 1) t1v root =
            some (lInt ++ [t.data.length] ++ [root]) := by
          refine childIndicesF_build hn1v ?_ ?_
          · show childEnumOpt (max 1 k) t1v n.interior = some lInt
            exact childEnumOpt_mono (fun h hg => childIndicesF_mono h hg) hInt1
              (le_max_right _ _)
          · show childEnumOpt (max 1 k) t1v (some t.data.length) = some [t.data.length]
            rw [childEnumOpt_some]
            exact childIndicesF_mono hNIenum (le_max_left _ _)
        have hl2 : childIndicesF (lInt ++ [t.data.length] ++ [root]).length t1v root =
            some (lInt ++ [t.data.length] ++ [root]) := childIndicesF_shrink hl2b
        have hpermL2 : (lInt ++ [t.data.length] ++ [root]).Perm (t.nodes.length :: l) := by
          have hmid : (lInt ++ (t.data.length :: [])).Perm
              (t.data.length :: (lInt ++ [])) := List.perm_middle
          refine List.Perm.trans (hmid.append_right [root]) ?_
          rw [hleq, hlen]
          exact List.Perm.refl _
        have hnd2 : (lInt ++ [t.data.length] ++ [root]).Nodup :=
          hpermL2.nodup_iff.2 hNcons
        have hh2 : ∀ j ∈ lInt ++ [t.data.length] ++ [root], j ≠ root →
            heightOkAt t1v j := by
          intro j hj hjr
          rcases List.mem_append.1 hj with hj1 | hjroot
          · rcases List.mem_append.1 hj1 with hjI | hjA
            · cases hci : n.interior with
              | none =>
                have h2 := hInt
                rw [hci] at h2
                have he : lInt = [] := childEnumOpt_none h2
                rw [he] at hjI
                cases hjI
              | some ci =>
                have h2 := hInt
                rw [hci, childEnumOpt_some] at h2
                obtain ⟨lj, hlj, hsub⟩ := childIndicesF_sub_enum h2 j hjI
                exact heightOkAt_frame hlj (fun x hx => hagreeI x (hsub hx))
                  (hh j (hmemI j hjI) hjr)
            · have hjNI : j = t.data.length := by simpa using hjA
              rw [hjNI]
              intro m hm
              rw [hgetNIv] at hm
              obtain rfl := Option.some_inj.1 hm
              exact rfl
          · exact absurd (by simpa using hjroot) hjr
        have hptE : ∀ x, x < t.nodes.length → pointAt t1v x = pointAt t x := by
          intro x hx
          exact pointAt_extend hlen hcent hcent1 hdata1 hx (by omega)
        have hcdE : ∀ a b, a < t.nodes.length → b < t.nodes.length →
            centerDistOf dist loc t1v a b = centerDistOf dist loc t a b := by
          intro a b ha hb
          unfold centerDistOf
          rw [hptE a ha, hptE b hb]
        have hptroot : pointAt t1v root = some pr := by
          rw [hptE root hrootlt]
          exact hpr
        have hptN : pointAt t1v t.data.length = some value := by
          show (nodeGet t1v t.data.length).bind (fun mm => t1v.data.get? mm.center) =
            some value
          rw [hgetNIv, Option.some_bind]
          show t1v.data.get? t.data.length = some value
          rw [hdata1]
          exact List.get?_concat_length _ _
        have hp2 : ∀ j ∈ lInt ++ [t.data.length] ++ [root], partOkAt dist loc t1v j := by
          intro j hj
          rcases List.mem_append.1 hj with hj1 | hjroot
          · rcases List.mem_append.1 hj1 with hjI | hjA
            · cases hci : n.interior with
              | none =>
                have h2 := hInt
                rw [hci] at h2
                have he : lInt = [] := childEnumOpt_none h2
                rw [he] at hjI
                cases hjI
              | some ci =>
                have h2 := hInt
                rw [hci, childEnumOpt_some] at h2
                obtain ⟨lj, hlj, hsub⟩ := childIndicesF_sub_enum h2 j hjI
                refine partOkAt_frame_ext hkle (by omega)
                  (childIndicesF_mono hlj (Nat.le_succ _))
                  (fun x hx => hagreeI x (hsub hx))
                  (fun x hx => hptE x (hbound x (hmemI x (hsub hx))))
                  (hp j (hmemI j hjI))
            · have hjNI : j = t.data.length := by simpa using hjA
              rw [hjNI]
              intro m hm
              rw [hgetNIv] at hm
              obtain rfl := Option.some_inj.1 hm
              exact ⟨fun c hc => Option.noConfusion hc,
                fun c hc => Option.noConfusion hc⟩
          · have hjr : j = root := by simpa using hjroot
            rw [hjr]
            intro m hm
            rw [hn1v] at hm
            obtain rfl := Option.some_inj.1 hm
            obtain ⟨hpi, hpe⟩ := hp root hrootmem n hn
            constructor
            · intro c hc
              have hc2 : n.interior = some c := hc
              cases hci : n.interior with
              | none =>
                rw [hci] at hc2
                cases hc2
              | some ci =>
                rw [hci] at hc2
                obtain rfl := Option.some_inj.1 hc2
                have h2 := hInt
                rw [hci, childEnumOpt_some] at h2
                have hI1 : childIndicesF k t1v ci = some lInt :=
                  childIndicesF_frame h2 hagreeI
                have hst1 : subtreeOf t1v ci = some lInt :=
                  childIndicesF_mono hI1 (by omega)
                rw [hst1]
                intro x hx
                have hold := hpi ci hci
                have hstt : subtreeOf t ci = some lInt :=
                  childIndicesF_mono h2 (by omega)
                rw [hstt] at hold
                rw [hcdE root x hrootlt (hbound x (hmemI x hx))]
                exact hold x hx
            · intro c hc
              have hc2 : some t.data.length = some c := hc
              obtain rfl := Option.some_inj.1 hc2
              have hst1 : subtreeOf t1v t.data.length = some [t.data.length] :=
                childIndicesF_mono hNIenum (by omega)
              rw [hst1]
              intro x hx
              have hxNI : x = t.data.length := by simpa using hx
              rw [hxNI]
              have hcc : centerDistOf dist loc t1v root t.data.length =
                  some (dist (loc pr) (loc value)) := by
                unfold centerDistOf
                rw [hptroot, hptN]
                rfl
              rw [hcc]
              exact le_of_not_lt hlt
        have hframe2 : ∀ j, j ∉ lInt ++ [t.data.length] ++ [root] →
            nodeGet t1v j = nodeGet t j := by
          intro j hj
          refine hframe1 j ?_ ?_
          · intro he
            exact hj (by
              rw [he]
              exact List.mem_append_right _ (List.mem_singleton_self _))
          · intro he
            exact hj (by
              rw [he]
              exact List.mem_append_left _ (List.mem_append_right _
                (List.mem_singleton_self _)))
        obtain ⟨t3, heq3, hc3⟩ := insertRoot_finish dist loc hdatalen1 hcent1 hl2
          hnd2 hh2 hp2 hroot1 hdata1 hlen1e hframe2 hpermL2
        refine ⟨t3, ?_, hc3⟩
        rw [insertRootF_succ_eq, hpr]
        simp only [Option.some_bind]
        rw [hn]
        simp only [Option.some_bind]
        rw [if_neg hlt, hce]
        show ((setNode
            { t with
                data := t.data ++ [value]
                nodes := t.nodes ++
                  [Node.newLeaf ((t.data ++ [value]).length - 1) (some root)] }
            ((t.data ++ [value]).length - 1)
            (fun m => { m with radius := fclamp (dist (loc pr) (loc value)) (n.radius / 2) n.radius })).bind fun t2b =>
          (setNode t2b root fun m =>
            { m with exterior := some ((t.data ++ [value]).length - 1) }).bind fun t1b =>
          (setHeight t1b root).bind fun t2c => rebalance dist loc t2c root) = some t3
        rw [hNIdef, ht2v]
        simp only [Option.some_bind]
        rw [ht1v]
        simp only [Option.some_bind]
        exact heq3

/-- The specification's per-child height (`-1` for a missing child) relates
to the code's (`0` for a missing child, else `height + 1`) by subtracting
one. -/
theorem specChildHeight_eq {Point : Type} (t : VpAvl Point) (c : Option Nat) :
    specChildHeight t c = (childHeightOpt t c).map fun (h : ℕ) => (h : ℤ) - 1 := by
  cases c with
  | none =>
    show some (-1 : ℤ) = some (((0 : ℕ) : ℤ) - 1)
    norm_num
  | some i =>
    show (nodeGet t i).map (fun m => (m.height : ℤ)) =
      ((nodeGet t i).map fun m => m.height + 1).map fun (h : ℕ) => (h : ℤ) - 1
    cases hg : nodeGet t i with
    | none => rfl
    | some m =>
      show some ((m.height : ℤ)) = some (((m.height + 1 : ℕ) : ℤ) - 1)
      congr 1
      push_cast
      ring

/-- The code's height convention (`set_height`, missing child = `0`, store
`max(child + 1)`) computes exactly the specification's value
`1 + max(height(interior), height(exterior))` with a missing child counting
as `-1`. -/
theorem specHeightI2_eq {Point : Type} (t : VpAvl Point) (n : Node) :
    specHeightI2 t n = (heightFor t n).map fun (h : ℕ) => (h : ℤ) := by
  show ((specChildHeight t n.interior).bind fun hi =>
      (specChildHeight t n.exterior).bind fun he => pure (1 + max hi he)) =
    (((childHeightOpt t n.interior).bind fun ih =>
      (childHeightOpt t n.exterior).bind fun eh => pure (max ih eh)).map fun (h : ℕ) => (h : ℤ))
  rw [specChildHeight_eq, specChildHeight_eq]
  cases childHeightOpt t n.interior with
  | none => rfl
  | some a =>
    cases childHeightOpt t n.exterior with
    | none => rfl
    | some b =>
      show some (1 + max ((a : ℤ) - 1) ((b : ℤ) - 1)) = some ((max a b : ℕ) : ℤ)
      congr 1
      rw [max_sub_sub_right, Nat.cast_max]
      ring

/-- The code-convention height invariant implies the specification-convention
one. -/
theorem specHeightInv_of_heightInv {Point : Type} {t : VpAvl Point}
    (h : HeightInv t) : SpecHeightInv t := by
  intro p hp
  have h2 := h p hp
  show (specHeightI2 t p.2).elim False fun v => ((p.2.height : ℤ)) = v
  rw [specHeightI2_eq]
  cases hf : heightFor t p.2 with
  | none =>
    rw [hf] at h2
    exact h2
  | some v =>
    rw [hf] at h2
    have h3 : p.2.height = v := h2
    show ((p.2.height : ℤ)) = ((v : ℤ))
    exact_mod_cast h3

/-- Per-node height correctness on a covering index list gives the global
height invariant. -/
theorem heightInv_of_cover {Point : Type} {t : VpAvl Point} {cov : List Nat}
    (hcov : ∀ j, j < t.nodes.length → j ∈ cov)
    (h : ∀ j ∈ cov, heightOkAt t j) : HeightInv t := by
  intro p hp
  have hg : nodeGet t p.1 = some p.2 := List.mem_enum_iff_get?.1 hp
  exact h p.1 (hcov p.1 (nodeGet_lt_length hg)) p.2 hg

/-- Per-node partition correctness on a covering index list gives the global
partition property. -/
theorem partOk_of_cover {Point Loc : Type} {dist : Loc → Loc → ℚ} {loc : Point → Loc}
    {t : VpAvl Point} {cov : List Nat}
    (hcov : ∀ j, j < t.nodes.length → j ∈ cov)
    (h : ∀ j ∈ cov, partOkAt dist loc t j) : PartOk dist loc t := by
  intro p hp
  have hg : nodeGet t p.1 = some p.2 := List.mem_enum_iff_get?.1 hp
  exact h p.1 (hcov p.1 (nodeGet_lt_length hg)) p.2 hg

theorem heightOkAt_of_heightInv {Point : Type} {t : VpAvl Point}
    (h : HeightInv t) : ∀ j, heightOkAt t j := by
  intro j n hn
  exact h (j, n) (get?_mem_enum hn)

theorem partOkAt_of_partOk {Point Loc : Type} {dist : Loc → Loc → ℚ} {loc : Point → Loc}
    {t : VpAvl Point} (h : PartOk dist loc t) : ∀ j, partOkAt dist loc t j := by
  intro j n hn
  exact h (j, n) (get?_mem_enum hn)

/-- `0 :: (range (m+1)).drop 1 = range (m+1)`: the index list `bulk_insert`
and `remove_index` pass to the bulk build, with the root `0` re-attached, is
exactly the full index range. -/
theorem range_succ_cons (m : Nat) :
    (0 : Nat) :: (List.range (m + 1)).drop 1 = List.range (m + 1) := by
  rw [List.range_succ_eq_map]
  rfl

/-- Unfolding of `insert`'s three-way length dispatch. -/
theorem insert_eq {Point Loc : Type} (dist : Loc → Loc → ℚ) (loc : Point → Loc)
    (t : VpAvl Point) (value : Point) :
    insert dist loc t value =
      (if 1 < t.data.length then
         insertRootF dist loc (t.nodes.length + 1) t t.root value
       else if t.data.length = 0 then
         some { t with
             data := t.data ++ [value]
             nodes := t.nodes ++ [Node.newLeaf 0 none] }
       else
         (nodeIndexData t t.root).bind fun pr2 =>
         (setNode t t.root fun nn =>
           { nn with radius := dist (loc pr2) (loc value) / 2 }).bind fun t1b =>
         insertRootF dist loc (t1b.nodes.length + 1) t1b t1b.root value) := rfl

/-- `insert` on a structurally sound nonempty tree: it succeeds, appends the
value to the data arena, adds one node, and preserves well-formedness, the
height bookkeeping and the partition property. -/
theorem insert_pos_master {Point Loc : Type} (dist : Loc → Loc → ℚ) (loc : Point → Loc)
    {t : VpAvl Point} (value : Point)
    (hWF : WF t) (hH : HeightInv t) (hP : PartOk dist loc t)
    (hpos : 0 < t.data.length) :
    ∃ t2, insert dist loc t value = some t2 ∧
      t2.root = t.root ∧ t2.data = t.data ++ [value] ∧
      t2.nodes.length = t.nodes.length + 1 ∧
      WF t2 ∧ HeightInv t2 ∧ PartOk dist loc t2 := by
  obtain ⟨hlen, hcent, henum⟩ := hWF
  by_cases hgt1 : 1 < t.data.length
  · rcases henum with h0 | hsub
    · exact absurd h0 (by omega)
    cases hsb : subtreeOf t t.root with
    | none =>
      rw [hsb] at hsub
      exact hsub.elim
    | some l =>
      rw [hsb] at hsub
      have hl : childIndicesF l.length t t.root = some l := childIndicesF_shrink hsb
      have hnd : l.Nodup := hsub.nodup_iff.2 (List.nodup_range _)
      have hllen : l.length = t.nodes.length := by
        rw [hsub.length_eq, List.length_range]
      obtain ⟨t2, ht2, hroot2, hdata2, hlen2, hcent2, hframe2,
          ⟨lf, hlf, hpermf⟩, hh2, hp2⟩ :=
        @insertRoot_master Point Loc dist loc (t.nodes.length + 1) t t.root l value
          hlen hcent hl hnd
          (fun j _ _ => heightOkAt_of_heightInv hH j)
          (fun j _ => partOkAt_of_partOk hP j)
          (by omega)
      have hieq : insert dist loc t value =
          insertRootF dist loc (t.nodes.length + 1) t t.root value := by
        rw [insert_eq, if_pos hgt1]
      have hcov : ∀ j, j < t2.nodes.length → j ∈ t.nodes.length :: l := by
        intro j hj
        rw [hlen2] at hj
        rcases Nat.lt_succ_iff_lt_or_eq.1 hj with hj2 | hj2
        · exact List.mem_cons_of_mem _ (hsub.mem_iff.2 (List.mem_range.2 hj2))
        · rw [hj2]
          exact List.mem_cons_self _ _
      refine ⟨t2, by rw [hieq]; exact ht2, hroot2, hdata2, hlen2, ?_, ?_, ?_⟩
      · refine ⟨?_, hcent2, Or.inr ?_⟩
        · rw [hlen2, hdata2, List.length_append, List.length_singleton, hlen]
        · have hlflen : lf.length = t.nodes.length + 1 := by
            rw [hpermf.length_eq, List.length_cons, hllen]
          have hlf2 : subtreeOf t2 t2.root = some lf := by
            rw [hroot2]
            show childIndicesF t2.nodes.length t2 t.root = some lf
            rw [hlen2, ← hlflen]
            exact hlf
          rw [hlf2]
          refine hpermf.trans ?_
          refine List.Perm.trans (List.Perm.cons _ hsub) ?_
          rw [hlen2, List.range_succ]
          exact (List.perm_append_singleton _ _).symm
      · exact heightInv_of_cover hcov hh2
      · exact partOk_of_cover hcov hp2
  · have hlen1 : t.data.length = 1 := by omega
    rcases henum with h0 | hsub
    · exact absurd h0 (by omega)
    cases hsb : subtreeOf t t.root with
    | none =>
      rw [hsb] at hsub
      exact hsub.elim
    | some l =>
      rw [hsb] at hsub
      have hrange1 : List.range t.nodes.length = [0] := by
        rw [hlen, hlen1]
        rfl
      rw [hrange1] at hsub
      have hleq0 : l = [0] := List.perm_singleton.1 hsub
      subst hleq0
      have hroot0 : t.root = 0 := by
        have h2 := childIndicesF_self_mem (childIndicesF_shrink hsb)
        simpa using h2
      have hl1 : childIndicesF 1 t t.root = some [0] := childIndicesF_shrink hsb
      obtain ⟨n0b, lI, lE, hn0b, hI, hE, hleqE⟩ := childIndicesF_unfold hl1
      have hlenE := congrArg List.length hleqE
      simp only [List.length_append, List.length_cons, List.length_nil] at hlenE
      have hlInil : lI = [] := List.length_eq_zero.1 (by omega)
      have hlEnil : lE = [] := List.length_eq_zero.1 (by omega)
      subst hlInil
      subst hlEnil
      have hIntNone : n0b.interior = none := by
        cases hci : n0b.interior with
        | none => rfl
        | some ci =>
          rw [hci, childEnumOpt_some] at hI
          exact absurd hI (by simp [childIndicesF])
      have hExtNone : n0b.exterior = none := by
        cases hce : n0b.exterior with
        | none => rfl
        | some ce =>
          rw [hce, childEnumOpt_some] at hE
          exact absurd hE (by simp [childIndicesF])
      obtain ⟨pr0, hpr0g, hpr0⟩ := nodeIndexData_of_center hlen hcent hn0b
      obtain ⟨t1, ht1⟩ : ∃ t1, setNode t t.root
          (fun nn => { nn with radius := dist (loc pr0) (loc value) / 2 }) = some t1 :=
        ⟨_, setNode_isSome hn0b⟩
      have hlen1t : t1.nodes.length = t.nodes.length := setNode_length ht1
      have hdata1t : t1.data = t.data := setNode_data ht1
      have hroot1t : t1.root = t.root := setNode_root ht1
      have hcent1t : ∀ p ∈ t1.nodes.enum, p.2.center = p.1 :=
        centers_enum_preserved (setNode_center_map ht1 (fun nn => rfl)) hcent
      have hn1 : nodeGet t1 t.root =
          some { n0b with radius := dist (loc pr0) (loc value) / 2 } := by
        rw [nodeGet_setNode_self ht1, hn0b]
        rfl
      have hl1p : childIndicesF (0 + 1) t1 t.root = some ([] ++ [] ++ [t.root]) := by
        refine childIndicesF_build hn1 ?_ ?_
        · show childEnumOpt 0 t1 n0b.interior = some []
          rw [hIntNone]
          rfl
        · show childEnumOpt 0 t1 n0b.exterior = some []
          rw [hExtNone]
          rfl
      have hl1t : childIndicesF 1 t1 t.root = some [t.root] := by
        simpa using hl1p
      have hh1t : ∀ j ∈ [t.root], j ≠ t.root → heightOkAt t1 j := by
        intro j hj hne
        exact absurd (by simpa using hj) hne
      have hp1t : ∀ j ∈ [t.root], partOkAt dist loc t1 j := by
        intro j hj
        have hj0 : j = t.root := by simpa using hj
        rw [hj0]
        intro m hm
        rw [hn1] at hm
        obtain rfl := Option.some_inj.1 hm
        constructor
        · intro c hc
          have hc2 : n0b.interior = some c := hc
          rw [hIntNone] at hc2
          cases hc2
        · intro c hc
          have hc2 : n0b.exterior = some c := hc
          rw [hExtNone] at hc2
          cases hc2
      have hlen1d : t1.nodes.length = t1.data.length := by
        rw [hlen1t, hdata1t, hlen]
      obtain ⟨t2, ht2, hroot2, hdata2, hlen2, hcent2, hframe2,
          ⟨lf, hlf, hpermf⟩, hh2, hp2⟩ :=
        @insertRoot_master Point Loc dist loc (t1.nodes.length + 1) t1 t.root [t.root] value
          hlen1d hcent1t hl1t (by simp) hh1t hp1t (by simp)
      have hieq : insert dist loc t value =
          ((nodeIndexData t t.root).bind fun pr2 =>
           (setNode t t.root fun nn =>
             { nn with radius := dist (loc pr2) (loc value) / 2 }).bind fun t1b =>
           insertRootF dist loc (t1b.nodes.length + 1) t1b t1b.root value) := by
        rw [insert_eq, if_neg hgt1, if_neg (by omega : ¬ t.data.length = 0)]
      have ht2len : t2.nodes.length = 2 := by
        rw [hlen2, hlen1t, hlen, hlen1]
      have hcov : ∀ j, j < t2.nodes.length → j ∈ t1.nodes.length :: [t.root] := by
        intro j hj
        rw [ht2len] at hj
        have h1 : t1.nodes.length = 1 := by rw [hlen1t, hlen, hlen1]
        rw [h1, hroot0]
        simp only [List.mem_cons, List.mem_singleton]
        omega
      refine ⟨t2, ?_, by rw [hroot2, hroot1t], by rw [hdata2, hdata1t],
        by rw [hlen2, hlen1t], ?_, ?_, ?_⟩
      · rw [hieq, hpr0]
        simp only [Option.some_bind]
        rw [ht1]
        simp only [Option.some_bind]
        rw [hroot1t]
        exact ht2
      · refine ⟨?_, hcent2, Or.inr ?_⟩
        · rw [hlen2, hdata2, hlen1t, hdata1t, List.length_append,
            List.length_singleton, hlen]
        · have hlflen : lf.length = 2 := by
            rw [hpermf.length_eq]
            rfl
          have hsub2 : subtreeOf t2 t2.root = some lf := by
            rw [hroot2, hroot1t]
            show childIndicesF t2.nodes.length t2 t.root = some lf
            rw [ht2len, ← hlflen]
            exact hlf
          rw [hsub2]
          refine hpermf.trans ?_
          have hlists : t1.nodes.length :: [t.root] = [1, 0] := by
            rw [hlen1t, hlen, hlen1, hroot0]
          rw [hlists, ht2len]
          decide
      · exact heightInv_of_cover hcov hh2
      · exact partOk_of_cover hcov hp2

/-- The common tail of `remove_index` (from the rebuilt-arena record on):
when it returns, the tree holds exactly the post-swap data, arenas of equal
length, and correct height bookkeeping everywhere. -/
theorem removeIndexTail {Point Loc : Type} (dist : Loc → Loc → ℚ) (loc : Point → Loc)
    {t : VpAvl Point} {old : Point} {data2 : List Point} {p : Point} {t2 : VpAvl Point}
    (hn1len : t.nodes.dropLast.length = data2.length)
    (h : (if ((List.range data2.length).drop 1).isEmpty = true then
            if data2.length = 1 then
              (setNode { root := t.root, nodes := t.nodes.dropLast, data := data2 } 0
                fun x => Node.newLeaf 0 none).bind fun t2b => some (old, t2b)
            else some (old, { root := t.root, nodes := t.nodes.dropLast, data := data2 })
          else
            (bulkBuildF dist loc (data2.length + 1)
              { root := t.root, nodes := t.nodes.dropLast, data := data2 } 0
              ((List.range data2.length).drop 1)).bind fun t2b => some (old, t2b))
        = some (p, t2)) :
    old = p ∧ t2.data = data2 ∧ t2.nodes.length = data2.length ∧ HeightInv t2 := by
  cases hD2 : data2.length with
  | zero =>
    have hEmp : ((List.range data2.length).drop 1).isEmpty = true := by
      rw [hD2]
      rfl
    rw [if_pos hEmp, if_neg (by omega : ¬ data2.length = 1)] at h
    have h2 := Option.some_inj.1 h
    have hpe : old = p := congrArg Prod.fst h2
    have hte : ({ root := t.root, nodes := t.nodes.dropLast, data := data2 } :
        VpAvl Point) = t2 := congrArg Prod.snd h2
    refine ⟨hpe, ?_, ?_, ?_⟩
    · rw [← hte]
    · rw [← hte]
      show t.nodes.dropLast.length = 0
      rw [hn1len]
      exact hD2
    · intro q hq
      have hg : nodeGet t2 q.1 = some q.2 := List.mem_enum_iff_get?.1 hq
      have hql : q.1 < t2.nodes.length := nodeGet_lt_length hg
      rw [← hte] at hql
      have h0 : t.nodes.dropLast.length = 0 := by rw [hn1len, hD2]
      rw [show ({ root := t.root, nodes := t.nodes.dropLast, data := data2 } :
        VpAvl Point).nodes.length = t.nodes.dropLast.length from rfl, h0] at hql
      omega
  | succ m =>
    cases hM : m with
    | zero =>
      have hEmp : ((List.range data2.length).drop 1).isEmpty = true := by
        rw [hD2, hM]
        rfl
      rw [if_pos hEmp, if_pos (by omega : data2.length = 1)] at h
      obtain ⟨t2b, ht2b, h⟩ := Option.bind_eq_some.1 h
      have h2 := Option.some_inj.1 h
      have hpe : old = p := congrArg Prod.fst h2
      have hte : t2b = t2 := congrArg Prod.snd h2
      rw [hte] at ht2b
      have hlen2 : t2.nodes.length = 1 := by
        rw [setNode_length ht2b]
        show t.nodes.dropLast.length = 1
        rw [hn1len, hD2, hM]
      have hdata2 : t2.data = data2 := setNode_data ht2b
      obtain ⟨n1, hn1⟩ : ∃ n1, nodeGet
          ({ root := t.root, nodes := t.nodes.dropLast, data := data2 } :
            VpAvl Point) 0 = some n1 := by
        refine nodeGet_of_lt ?_
        show 0 < t.nodes.dropLast.length
        rw [hn1len, hD2, hM]
        omega
      have hget0 : nodeGet t2 0 = some (Node.newLeaf 0 none) := by
        rw [nodeGet_setNode_self ht2b, hn1]
        rfl
      refine ⟨hpe, hdata2, ?_, ?_⟩
      · rw [hlen2]
      · intro q hq
        have hg : nodeGet t2 q.1 = some q.2 := List.mem_enum_iff_get?.1 hq
        have hql : q.1 < t2.nodes.length := nodeGet_lt_length hg
        have hq0 : q.1 = 0 := by omega
        rw [hq0] at hg
        rw [hget0] at hg
        have hq2 : Node.newLeaf 0 none = q.2 := Option.some_inj.1 hg
        rw [← hq2]
        exact rfl
    | succ m2 =>
      have hne : ¬ ((List.range data2.length).drop 1).isEmpty = true := by
        rw [hD2, hM]
        intro hx
        have hnil : (List.range (m2 + 1 + 1)).drop 1 = [] := by
          simpa [List.isEmpty_iff_eq_nil] using hx
        have h3 := congrArg List.length hnil
        rw [List.length_drop, List.length_range] at h3
        simp at h3
      rw [if_neg hne] at h
      obtain ⟨t2b, ht2b, h⟩ := Option.bind_eq_some.1 h
      have h2 := Option.some_inj.1 h
      have hpe : old = p := congrArg Prod.fst h2
      have hte : t2b = t2 := congrArg Prod.snd h2
      rw [hte] at ht2b
      have hndc : ((0 : Nat) :: (List.range data2.length).drop 1).Nodup := by
        rw [hD2, hM, range_succ_cons]
        exact List.nodup_range _
      obtain ⟨hroot2, hdata2, hlen2, hframe2, hcmap2, ⟨lf, hlf, hpermf⟩, hh2, hp2⟩ :=
        bulkBuild_master dist loc ht2b hndc
      have hcov : ∀ j, j < t2.nodes.length →
          j ∈ (0 : Nat) :: (List.range data2.length).drop 1 := by
        intro j hj
        rw [hD2, hM, range_succ_cons]
        rw [hlen2, show ({ root := t.root, nodes := t.nodes.dropLast, data := data2 } :
          VpAvl Point).nodes.length = t.nodes.dropLast.length from rfl, hn1len] at hj
        exact List.mem_range.2 (by omega)
      refine ⟨hpe, ?_, ?_, heightInv_of_cover hcov hh2⟩
      · rw [hdata2]
      · rw [hlen2]
        show t.nodes.dropLast.length = m2 + 1 + 1
        rw [hn1len]
        omega

/-- `remove_index` on arenas of equal length: when it returns, the resulting
tree has one element less, arenas of equal length, correct height bookkeeping
everywhere, and the returned element is the one that occupied the requested
data slot. -/
theorem removeIndex_heights {Point Loc : Type} (dist : Loc → Loc → ℚ) (loc : Point → Loc)
    {t : VpAvl Point} {index : Nat} {p : Point} {t2 : VpAvl Point}
    (hlen : t.nodes.length = t.data.length)
    (h : removeIndex dist loc t index = some (p, t2)) :
    t2.data.length = t.data.length - 1 ∧
    t2.nodes.length = t2.data.length ∧
    HeightInv t2 ∧
    t.data.get? index = some p := by
  replace h : ((t.data.getLast?).bind fun endv =>
      if index = t.data.dropLast.length then
        ((pure (endv, t.data.dropLast) : Option (Point × List Point)).bind fun od =>
          if ((List.range od.2.length).drop 1).isEmpty = true then
            if od.2.length = 1 then
              (setNode { root := t.root, nodes := t.nodes.dropLast, data := od.2 } 0
                fun x => Node.newLeaf 0 none).bind fun t2b => some (od.1, t2b)
            else some (od.1, { root := t.root, nodes := t.nodes.dropLast, data := od.2 })
          else
            (bulkBuildF dist loc (od.2.length + 1)
              { root := t.root, nodes := t.nodes.dropLast, data := od.2 } 0
              ((List.range od.2.length).drop 1)).bind fun t2b => some (od.1, t2b))
      else
        (((t.data.dropLast.get? index).map fun oldv =>
            (oldv, t.data.dropLast.set index endv)).bind fun od =>
          if ((List.range od.2.length).drop 1).isEmpty = true then
            if od.2.length = 1 then
              (setNode { root := t.root, nodes := t.nodes.dropLast, data := od.2 } 0
                fun x => Node.newLeaf 0 none).bind fun t2b => some (od.1, t2b)
            else some (od.1, { root := t.root, nodes := t.nodes.dropLast, data := od.2 })
          else
            (bulkBuildF dist loc (od.2.length + 1)
              { root := t.root, nodes := t.nodes.dropLast, data := od.2 } 0
              ((List.range od.2.length).drop 1)).bind fun t2b => some (od.1, t2b)))
      = some (p, t2) := h
  obtain ⟨endv, hendv, h⟩ := Option.bind_eq_some.1 h
  have hpos : 0 < t.data.length := by
    cases hD : t.data with
    | nil =>
      rw [hD] at hendv
      cases hendv
    | cons a as => simp
  by_cases heq : index = t.data.dropLast.length
  · rw [if_pos heq] at h
    rw [show ((pure (endv, t.data.dropLast) : Option (Point × List Point))) =
      some (endv, t.data.dropLast) from rfl, Option.some_bind] at h
    obtain ⟨hpe, hdata2, hlen2, hH⟩ := removeIndexTail dist loc
      (by rw [List.length_dropLast, List.length_dropLast, hlen]) h
    refine ⟨?_, ?_, hH, ?_⟩
    · rw [hdata2, List.length_dropLast]
    · rw [hlen2, hdata2]
    · rw [heq, List.length_dropLast, ← hpe]
      rw [← hendv]
      exact (List.getLast?_eq_get? _).symm
  · rw [if_neg heq] at h
    cases hg : t.data.dropLast.get? index with
    | none =>
      rw [hg] at h
      cases h
    | some oldv =>
      rw [hg] at h
      simp only [Option.map_some', Option.some_bind] at h
      obtain ⟨hpe, hdata2, hlen2, hH⟩ := removeIndexTail dist loc
        (by rw [List.length_set, List.length_dropLast, List.length_dropLast, hlen]) h
      have hidx : index < t.data.dropLast.length := by
        by_contra hbig
        rw [List.get?_eq_none.2 (Nat.le_of_not_lt hbig)] at hg
        cases hg
      have hidx2 : index < t.data.length - 1 := by
        rw [List.length_dropLast] at hidx
        exact hidx
      refine ⟨?_, ?_, hH, ?_⟩
      · rw [hdata2, List.length_set, List.length_dropLast]
      · rw [hlen2, hdata2]
      · rw [← hpe, ← hg, List.dropLast_eq_take]
        exact (List.get?_take hidx2).symm

/-- Unfolding of `bulk_insert`'s arena setup. -/
theorem bulkInsert_eq {Point Loc : Type} (dist : Loc → Loc → ℚ) (loc : Point → Loc)
    (data : List Point) :
    bulkInsert dist loc data =
      bulkBuildF dist loc (data.length + 1)
        { root := 0, nodes := (List.range data.length).map fun i => Node.newLeaf i none, data := data }
        0 ((List.range data.length).drop 1) := rfl

/-- Whenever `bulk_insert` returns, the resulting tree satisfies the
specification's height bookkeeping at every node. -/
theorem bulkInsert_heights {Point Loc : Type} (dist : Loc → Loc → ℚ) (loc : Point → Loc)
    {data : List Point} {t2 : VpAvl Point}
    (h : bulkInsert dist loc data = some t2) : SpecHeightInv t2 := by
  rw [bulkInsert_eq] at h
  cases hD : data.length with
  | zero =>
    rw [hD] at h
    exact absurd h (by simp [bulkBuildF, setNode, nodeGet])
  | succ m =>
    have hndc : ((0 : Nat) :: (List.range data.length).drop 1).Nodup := by
      rw [hD, range_succ_cons]
      exact List.nodup_range _
    obtain ⟨hroot2, hdata2, hlen2, hframe2, hcmap2, -, hh2, -⟩ :=
      bulkBuild_master dist loc h hndc
    refine specHeightInv_of_heightInv (heightInv_of_cover ?_ hh2)
    intro j hj
    rw [hD, range_succ_cons]
    refine List.mem_range.2 ?_
    have hstart : ({ root := 0, nodes := (List.range data.length).map fun i => Node.newLeaf i none, data := data } : VpAvl Point).nodes.length = data.length := by
      show ((List.range data.length).map fun i => Node.newLeaf i none).length = data.length
      rw [List.length_map, List.length_range]
    rw [hlen2, hstart] at hj
    omega

/-- C5: after each public operation (`new`, `insert`, `bulk_insert`,
`remove`, `update_metric`) returns, every node `n` of the resulting tree
satisfies `height(n) = 1 + max(height(interior), height(exterior))` with a
missing child contributing height `-1` (so a leaf has height `0`); for the
mutating operations the input tree is assumed to satisfy the structural,
height and partition invariants it maintains. -/
theorem c5_all_ops_spec_height_invariant {Point Loc : Type} [DecidableEq Loc]
    (dist distNew : Loc → Loc → ℚ) (loc : Point → Loc) :
    SpecHeightInv (vpNew : VpAvl Point) ∧
    (∀ (t : VpAvl Point) (value : Point) (t2 : VpAvl Point),
      WF t → HeightInv t → PartOk dist loc t →
      insert dist loc t value = some t2 → SpecHeightInv t2) ∧
    (∀ (data : List Point) (t2 : VpAvl Point),
      bulkInsert dist loc data = some t2 → SpecHeightInv t2) ∧
    (∀ (t : VpAvl Point) (value : Loc) (res : Option Point × VpAvl Point),
      WF t → remove dist loc t value = some res → SpecHeightInv res.2) ∧
    (∀ (t : VpAvl Point) (t2 : VpAvl Point),
      updateMetric loc distNew t = some t2 → SpecHeightInv t2) := by
  refine ⟨?_, ?_, ?_, ?_, ?_⟩
  · intro q hq
    exact absurd hq (by simp [vpNew])
  · intro t value t2 hWF hH hP hins
    by_cases hpos : 0 < t.data.length
    · obtain ⟨t2m, hins2, -, -, -, -, hH2, -⟩ :=
        insert_pos_master dist loc value hWF hH hP hpos
      rw [hins] at hins2
      obtain rfl := Option.some_inj.1 hins2
      exact specHeightInv_of_heightInv hH2
    · have h0 : t.data.length = 0 := by omega
      have hn0 : t.nodes = [] := by
        have h2 := hWF.1
        rw [h0] at h2
        exact List.length_eq_zero.1 h2
      have hins2 : t2 = { t with
          data := t.data ++ [value]
          nodes := t.nodes ++ [Node.newLeaf 0 none] } := by
        rw [insert_eq, if_neg (by omega), if_pos h0] at hins
        exact (Option.some_inj.1 hins).symm
      rw [hins2, hn0]
      intro q hq
      have hq2 : q = (0, Node.newLeaf 0 none) := by
        simpa using hq
      rw [hq2]
      show ((Node.newLeaf 0 none).height : ℤ) = 1 + max (-1) (-1)
      decide
  · intro data t2 hbi
    exact bulkInsert_heights dist loc hbi
  · intro t value res hWF hrem
    replace hrem : ((removeSearch dist loc t value
        (2 * t.nodes.length + 2) (knnInit t)).bind fun found =>
      match found with
      | none => none
      | some i => (removeIndex dist loc t i).map fun pt => (some pt.1, pt.2)) =
        some res := hrem
    obtain ⟨found, hfound, hrem⟩ := Option.bind_eq_some.1 hrem
    cases found with
    | none => exact absurd hrem (by simp)
    | some i =>
      obtain ⟨pt, hpt, hres⟩ := Option.map_eq_some'.1 hrem
      obtain ⟨p, t2⟩ := pt
      obtain ⟨-, -, hH2, -⟩ := removeIndex_heights dist loc hWF.1 hpt
      have hres2 : res.2 = t2 := by rw [← hres]
      rw [hres2]
      exact specHeightInv_of_heightInv hH2
  · intro t t2 hum
    exact bulkInsert_heights distNew loc hum

/-- Concrete check of C5's bulk-build conjunct: the tree built from the batch
`[0, 1, -1]` under the one-dimensional Euclidean metric satisfies the
specification's height equation at every node. -/
theorem c5_all_ops_spec_height_invariant_witness : SpecHeightInv tieTree :=
  (c5_all_ops_spec_height_invariant qdist qdist (id : ℚ → ℚ)).2.2.1 [0, 1, -1] tieTree
    (of_decide_eq_true (by with_unfolding_all rfl))

/-- The freshly initialised node arena (`Node::new_leaf(i, None)` for each
index) has every center equal to its index. -/
theorem freshArena_centers (n : Nat) :
    ∀ q ∈ ((List.range n).map fun i => Node.newLeaf i none).enum, q.2.center = q.1 := by
  intro q hq
  have hg := List.mem_enum_iff_get?.1 hq
  rw [List.get?_map] at hg
  cases hr : (List.range n).get? q.1 with
  | none =>
    rw [hr] at hg
    cases hg
  | some v =>
    rw [hr] at hg
    have hb : q.1 < n := by
      by_contra hbig
      rw [List.get?_eq_none.2 (by rw [List.length_range]; omega)] at hr
      cases hr
    have hv : v = q.1 := by
      rw [List.get?_range hb] at hr
      exact (Option.some_inj.1 hr).symm
    have hq2 : Node.newLeaf v none = q.2 := by simpa using hg
    rw [← hq2, hv]
    rfl

/-- Centers stay index-aligned after dropping the last arena entry. -/
theorem dropLast_centers {Point : Type} {t : VpAvl Point}
    (hcent : ∀ q ∈ t.nodes.enum, q.2.center = q.1) :
    ∀ q ∈ t.nodes.dropLast.enum, q.2.center = q.1 := by
  intro q hq
  have hg : t.nodes.dropLast.get? q.1 = some q.2 := List.mem_enum_iff_get?.1 hq
  have hlt : q.1 < t.nodes.dropLast.length := by
    by_contra hbig
    rw [List.get?_eq_none.2 (Nat.le_of_not_lt hbig)] at hg
    cases hg
  rw [List.length_dropLast] at hlt
  have hg2 : t.nodes.get? q.1 = some q.2 := by
    rw [← hg, List.dropLast_eq_take]
    exact (List.get?_take hlt).symm
  exact hcent q (List.mem_enum_iff_get?.2 hg2)

/-- Totality of `remove_index`'s tail: on arenas of matching length with
index-aligned centers it cannot panic. -/
theorem removeIndexTail_total {Point Loc : Type} (dist : Loc → Loc → ℚ) (loc : Point → Loc)
    {t : VpAvl Point} (old : Point) {data2 : List Point}
    (hn1len : t.nodes.dropLast.length = data2.length)
    (hcent1 : ∀ q ∈ t.nodes.dropLast.enum, q.2.center = q.1) :
    ∃ t2, (if ((List.range data2.length).drop 1).isEmpty = true then
            if data2.length = 1 then
              (setNode { root := t.root, nodes := t.nodes.dropLast, data := data2 } 0
                fun x => Node.newLeaf 0 none).bind fun t2b => some (old, t2b)
            else some (old, { root := t.root, nodes := t.nodes.dropLast, data := data2 })
          else
            (bulkBuildF dist loc (data2.length + 1)
              { root := t.root, nodes := t.nodes.dropLast, data := data2 } 0
              ((List.range data2.length).drop 1)).bind fun t2b => some (old, t2b))
        = some (old, t2) := by
  cases hD2 : data2.length with
  | zero =>
    rw [if_pos (show ((List.range 0).drop 1).isEmpty = true from rfl),
      if_neg (by omega : ¬ (0 : Nat) = 1)]
    exact ⟨_, rfl⟩
  | succ m =>
    cases hM : m with
    | zero =>
      rw [if_pos (show ((List.range (0 + 1)).drop 1).isEmpty = true from rfl),
        if_pos (show (0 : Nat) + 1 = 1 from rfl)]
      obtain ⟨n1, hn1⟩ : ∃ n1, nodeGet
          ({ root := t.root, nodes := t.nodes.dropLast, data := data2 } :
            VpAvl Point) 0 = some n1 := by
        refine nodeGet_of_lt ?_
        show 0 < t.nodes.dropLast.length
        omega
      obtain ⟨t2b, ht2b⟩ : ∃ t2b, setNode
          ({ root := t.root, nodes := t.nodes.dropLast, data := data2 } : VpAvl Point) 0
          (fun x => Node.newLeaf 0 none) = some t2b :=
        ⟨_, setNode_isSome hn1⟩
      refine ⟨t2b, ?_⟩
      rw [ht2b]
      rfl
    | succ m2 =>
      have hne : ¬ ((List.range (m2 + 1 + 1)).drop 1).isEmpty = true := by
        intro hx
        have hnil : (List.range (m2 + 1 + 1)).drop 1 = [] := by
          simpa [List.isEmpty_iff_eq_nil] using hx
        have h3 := congrArg List.length hnil
        rw [List.length_drop, List.length_range] at h3
        simp at h3
      rw [if_neg hne]
      obtain ⟨t2b, ht2b⟩ := @bulkBuild_success Point Loc dist loc (m2 + 1 + 1 + 1)
        { root := t.root, nodes := t.nodes.dropLast, data := data2 } 0
        ((List.range (m2 + 1 + 1)).drop 1)
        (by rw [List.length_drop, List.length_range]; omega)
        (by rw [range_succ_cons]; exact List.nodup_range _)
        (by
          intro x hx
          rw [range_succ_cons] at hx
          show x < t.nodes.dropLast.length
          rw [hn1len]
          have := List.mem_range.1 hx
          omega)
        (by show t.nodes.dropLast.length = data2.length; exact hn1len)
        hcent1
      refine ⟨t2b, ?_⟩
      rw [ht2b]
      rfl

/-- Totality of `remove_index`: on a well-formed arena with an in-range index
it cannot panic. -/
theorem removeIndex_total {Point Loc : Type} (dist : Loc → Loc → ℚ) (loc : Point → Loc)
    {t : VpAvl Point} {index : Nat}
    (hlen : t.nodes.length = t.data.length)
    (hcent : ∀ q ∈ t.nodes.enum, q.2.center = q.1)
    (hidx : index < t.data.length) :
    ∃ p t2, removeIndex dist loc t index = some (p, t2) := by
  obtain ⟨endv, hendv⟩ : ∃ e, t.data.getLast? = some e := by
    rw [List.getLast?_eq_get?]
    cases hg : t.data.get? (t.data.length - 1) with
    | none =>
      rw [List.get?_eq_none] at hg
      omega
    | some v => exact ⟨v, rfl⟩
  have hcent1 := dropLast_centers hcent
  have hRI : removeIndex dist loc t index = ((t.data.getLast?).bind fun endv2 =>
      if index = t.data.dropLast.length then
        ((pure (endv2, t.data.dropLast) : Option (Point × List Point)).bind fun od =>
          if ((List.range od.2.length).drop 1).isEmpty = true then
            if od.2.length = 1 then
              (setNode { root := t.root, nodes := t.nodes.dropLast, data := od.2 } 0
                fun x => Node.newLeaf 0 none).bind fun t2b => some (od.1, t2b)
            else some (od.1, { root := t.root, nodes := t.nodes.dropLast, data := od.2 })
          else
            (bulkBuildF dist loc (od.2.length + 1)
              { root := t.root, nodes := t.nodes.dropLast, data := od.2 } 0
              ((List.range od.2.length).drop 1)).bind fun t2b => some (od.1, t2b))
      else
        (((t.data.dropLast.get? index).map fun oldv =>
            (oldv, t.data.dropLast.set index endv2)).bind fun od =>
          if ((List.range od.2.length).drop 1).isEmpty = true then
            if od.2.length = 1 then
              (setNode { root := t.root, nodes := t.nodes.dropLast, data := od.2 } 0
                fun x => Node.newLeaf 0 none).bind fun t2b => some (od.1, t2b)
            else some (od.1, { root := t.root, nodes := t.nodes.dropLast, data := od.2 })
          else
            (bulkBuildF dist loc (od.2.length + 1)
              { root := t.root, nodes := t.nodes.dropLast, data := od.2 } 0
              ((List.range od.2.length).drop 1)).bind fun t2b => some (od.1, t2b))) := rfl
  rw [hRI, hendv, Option.some_bind]
  by_cases heq : index = t.data.dropLast.length
  · rw [if_pos heq]
    rw [show ((pure (endv, t.data.dropLast) : Option (Point × List Point))) =
      some (endv, t.data.dropLast) from rfl, Option.some_bind]
    obtain ⟨t2, ht2⟩ := @removeIndexTail_total Point Loc dist loc t endv
      t.data.dropLast
      (by simp only [List.length_dropLast, hlen]) hcent1
    exact ⟨endv, t2, ht2⟩
  · rw [if_neg heq]
    have hidx2 : index < t.data.dropLast.length := by
      rw [List.length_dropLast]
      rw [List.length_dropLast] at heq
      omega
    obtain ⟨oldv, hold⟩ : ∃ v, t.data.dropLast.get? index = some v := by
      cases hg : t.data.dropLast.get? index with
      | none =>
        rw [List.get?_eq_none] at hg
        omega
      | some v => exact ⟨v, rfl⟩
    rw [hold]
    simp only [Option.map_some', Option.some_bind]
    obtain ⟨t2, ht2⟩ := @removeIndexTail_total Point Loc dist loc t oldv
      (t.data.dropLast.set index endv)
      (by simp only [List.length_set, List.length_dropLast, hlen]) hcent1
    exact ⟨oldv, t2, ht2⟩

/-- C9 (amended): on a structurally sound nonempty tree whose metric obeys
the metric axioms, inserting an element and immediately removing it by its
location succeeds, restores the original size, and the brute-force sorted
distance multiset over the remaining elements equals that of a tree freshly
bulk-built from the same remaining elements, for every query location. -/
theorem c9_insert_remove_round_trip {Point Loc : Type} [DecidableEq Loc]
    (dist : Loc → Loc → ℚ) (loc : Point → Loc) {t : VpAvl Point} (value : Point)
    (hM : MetricOk dist) (hWF : WF t) (hH : HeightInv t) (hP : PartOk dist loc t)
    (hpos : 0 < t.data.length) :
    ∃ t2 p t3, insert dist loc t value = some t2 ∧
      remove dist loc t2 (loc value) = some (some p, t3) ∧
      loc p = loc value ∧
      t3.data.length = t.data.length ∧
      ∃ t4, bulkInsert dist loc t3.data = some t4 ∧
        ∀ q, bruteSorted dist loc t4 q = bruteSorted dist loc t3 q := by
  obtain ⟨t2, hins, hroot2, hdata2, hlen2, hWF2, hH2, hP2⟩ :=
    insert_pos_master dist loc value hWF hH hP hpos
  obtain ⟨out, hrunI, hrunE, hpermO, htd, hsortc⟩ :=
    knnRun_from_init dist loc t2 (loc value) hWF2
  have hsorted := hsortc hM hP2
  obtain ⟨hlen2d, hcent2, -⟩ := hWF2
  have hvalid : ∀ pe ∈ out, ∃ p, t2.data.get? pe.1 = some p := by
    intro pe hpe
    have h1 := htd pe hpe
    unfold trueDistO at h1
    cases hg : nodeIndexData t2 pe.1 with
    | none =>
      rw [hg] at h1
      cases h1
    | some p =>
      obtain ⟨n2, hn2, hgp⟩ := Option.bind_eq_some.1
        (show (nodeGet t2 pe.1).bind (fun n => t2.data.get? n.center) = some p from hg)
      have hc := center_eq_of_nodeGet hcent2 hn2
      rw [hc] at hgp
      exact ⟨p, hgp⟩
  have hnn : ∀ pe ∈ out, 0 ≤ pe.2 := by
    intro pe hpe
    have h1 := htd pe hpe
    unfold trueDistO at h1
    cases hg : nodeIndexData t2 pe.1 with
    | none =>
      rw [hg] at h1
      cases h1
    | some p =>
      rw [hg] at h1
      have h2 : dist (loc value) (loc p) = pe.2 := by simpa using h1
      rw [← h2]
      exact hM.2.1 _ _
  have hNew : ∃ pe ∈ out, pe.2 = 0 ∧
      ∃ p, t2.data.get? pe.1 = some p ∧ loc p = loc value := by
    have hl0 := hWF.1
    have hmem : t.data.length ∈ List.range t2.nodes.length := by
      refine List.mem_range.2 ?_
      rw [hlen2]
      omega
    have hmem2 : t.data.length ∈ out.map Prod.fst := hpermO.mem_iff.2 hmem
    obtain ⟨pe, hpe, hpe1⟩ := List.mem_map.1 hmem2
    obtain ⟨n2, hn2⟩ := nodeGet_of_lt
      (show pe.1 < t2.nodes.length by rw [hpe1, hlen2]; omega)
    have hc := center_eq_of_nodeGet hcent2 hn2
    have hgv : t2.data.get? pe.1 = some value := by
      rw [hpe1, hdata2]
      exact List.get?_concat_length _ _
    have hnid : nodeIndexData t2 pe.1 = some value := by
      show (nodeGet t2 pe.1).bind (fun n => t2.data.get? n.center) = some value
      rw [hn2, Option.some_bind, hc]
      exact hgv
    refine ⟨pe, hpe, ?_, value, hgv, rfl⟩
    have h1 := htd pe hpe
    unfold trueDistO at h1
    rw [hnid] at h1
    have h2 : dist (loc value) (loc value) = pe.2 := by simpa using h1
    rw [← h2]
    exact hM.1 _
  obtain ⟨j, pj, hfz, hgetj, hlocj⟩ := findZero_finds hsorted hnn hvalid hNew
  have hsearch : removeSearch dist loc t2 (loc value)
      (2 * t2.nodes.length + 2) (knnInit t2) = some (some j) := by
    rw [removeSearch_eq_findZero hrunI]
    exact hfz
  have hjlt : j < t2.data.length := by
    by_contra hbig
    rw [List.get?_eq_none.2 (Nat.le_of_not_lt hbig)] at hgetj
    cases hgetj
  obtain ⟨pf, t3, hRI⟩ := removeIndex_total dist loc hlen2d hcent2 hjlt
  obtain ⟨hlen3, hlen3n, -, hgetj2⟩ := removeIndex_heights dist loc hlen2d hRI
  have hpf : pf = pj := by
    rw [hgetj] at hgetj2
    exact (Option.some_inj.1 hgetj2).symm
  have hremEq : remove dist loc t2 (loc value) = some (some pf, t3) := by
    show ((removeSearch dist loc t2 (loc value)
        (2 * t2.nodes.length + 2) (knnInit t2)).bind fun found =>
      match found with
      | none => none
      | some i => (removeIndex dist loc t2 i).map fun pt => (some pt.1, pt.2)) =
        some (some pf, t3)
    rw [hsearch, Option.some_bind]
    show (removeIndex dist loc t2 j).map (fun pt => (some pt.1, pt.2)) =
      some (some pf, t3)
    rw [hRI]
    rfl
  have hsize : t3.data.length = t.data.length := by
    rw [hlen3, hdata2, List.length_append, List.length_singleton]
    omega
  obtain ⟨m, hm3⟩ : ∃ m, t3.data.length = m + 1 := ⟨t.data.length - 1, by omega⟩
  obtain ⟨t4, ht4⟩ := @bulkBuild_success Point Loc dist loc (t3.data.length + 1)
    { root := 0, nodes := (List.range t3.data.length).map fun i => Node.newLeaf i none, data := t3.data } 0
    ((List.range t3.data.length).drop 1)
    (by rw [List.length_drop, List.length_range]; omega)
    (by rw [hm3, range_succ_cons]; exact List.nodup_range _)
    (by
      intro x hx
      rw [hm3, range_succ_cons] at hx
      show x < ((List.range t3.data.length).map fun i => Node.newLeaf i none).length
      rw [List.length_map, List.length_range, hm3]
      have h5 := List.mem_range.1 hx
      omega)
    (by
      show ((List.range t3.data.length).map fun i => Node.newLeaf i none).length =
        t3.data.length
      rw [List.length_map, List.length_range])
    (freshArena_centers _)
  have hbi : bulkInsert dist loc t3.data = some t4 := by
    rw [bulkInsert_eq]
    exact ht4
  obtain ⟨-, hdata4, -, -, -, -, -, -⟩ := bulkBuild_master dist loc ht4
    (by rw [hm3, range_succ_cons]; exact List.nodup_range _)
  have hbrute : ∀ q, bruteSorted dist loc t4 q = bruteSorted dist loc t3 q := by
    intro q
    unfold bruteSorted bruteDists
    rw [show t4.data = t3.data from hdata4]
  exact ⟨t2, pf, t3, hins, hremEq, by rw [hpf]; exact hlocj, hsize, t4, hbi, hbrute⟩

/-- Counterexample to C9 as stated: on the empty tree, inserting `5` and
removing it by location succeeds and leaves the empty remainder, but the
"freshly bulk-built tree from the same remaining elements" does not exist —
`bulk_insert` of the empty batch panics (claim C4's out-of-bounds write), so
the claimed comparison fails for the empty tree. -/
theorem c9_counterexample_empty_tree :
    insert qdist id (vpNew : VpAvl ℚ) 5 = some ⟨0, [Node.newLeaf 0 none], [5]⟩ ∧
    remove qdist id (⟨0, [Node.newLeaf 0 none], [5]⟩ : VpAvl ℚ) 5 =
      some (some 5, ⟨0, [], []⟩) ∧
    (⟨0, [], []⟩ : VpAvl ℚ).data.length = (vpNew : VpAvl ℚ).data.length ∧
    bulkInsert qdist id ((⟨0, [], []⟩ : VpAvl ℚ)).data = none :=
  of_decide_eq_true (by with_unfolding_all rfl)

/-- Concrete check of the amended C9 on the one-element tree holding `5`:
the insert/remove round trip restores size `1` and the rebuilt comparison
tree agrees with brute force. -/
theorem c9_insert_remove_round_trip_witness :
    ∃ t2 p t3, insert qdist id oneTree (5 : ℚ) = some t2 ∧
      remove qdist id t2 (id (5 : ℚ)) = some (some p, t3) ∧
      id p = id (5 : ℚ) ∧
      t3.data.length = oneTree.data.length ∧
      ∃ t4, bulkInsert qdist id t3.data = some t4 ∧
        ∀ q, bruteSorted qdist id t4 q = bruteSorted qdist id t3 q :=
  c9_insert_remove_round_trip qdist id (5 : ℚ) qdist_metricOk (by decide) (by decide)
    (of_decide_eq_true (by with_unfolding_all rfl)) (by decide)
